import Mathlib

/-!
# Verification of the semver-intersect range-intersection library

This file shallowly embeds the semver-intersect implementation
(`semver-intersect.js` and its historical variants) in Lean 4 and proves
properties of the embedding.  Strings are modelled as Lean `String`s;
regular-expression driven parsing is modelled by explicit character-list
scanners with the same semantics as the source regexes; thrown JavaScript
exceptions are modelled by `Except String` / `Option` results.

The external `semver` collaborator library (version comparison, range
satisfaction, range normalization) is out of scope of the repository; the
embedding is parametrized over it where the source treats it as a black
box, and a concrete model of its documented behaviour is supplied for
evaluating the embedding on concrete inputs.
-/

namespace SemverIntersect

/-! ## Character classes and small list utilities -/

/-- Characters matched by the `[<=>]` class of `regex.condition`. -/
def isCondChar (c : Char) : Bool :=
  c = '<' || c = '=' || c = '>'

/-- Characters matched by `[\w.]` in the source regexes:
JavaScript `\w` is `[A-Za-z0-9_]`, plus the literal dot. -/
def isWordDot (c : Char) : Bool :=
  c.isAlphanum || c = '_' || c = '.'

/-- Characters allowed in a semver prerelease identifier: `[0-9A-Za-z-]`. -/
def isIdentChar (c : Char) : Bool :=
  c.isAlphanum || c = '-'

/-- Numeric value of a list of decimal digit characters. -/
def natOfDigits (cs : List Char) : Nat :=
  cs.foldl (fun acc c => 10 * acc + (c.toNat - 48)) 0

/-- Boolean test that `p` is a prefix of `l` (character lists). -/
def startsWithL (p l : List Char) : Bool :=
  match p, l with
  | [], _ => true
  | _ :: _, [] => false
  | a :: p', b :: l' => a = b && startsWithL p' l'

/-- Boolean substring test: JavaScript `String.prototype.includes`. -/
def containsSub (l sub : List Char) : Bool :=
  match l with
  | [] => startsWithL sub []
  | _ :: l' => startsWithL sub l || containsSub l' sub

/-- JavaScript `str.includes(sub)` on Lean strings. -/
def strIncludes (s sub : String) : Bool :=
  containsSub s.data sub.data

/-! ## Model of semver versions and their ordering

These model the pure version-ordering primitives of the external `semver`
collaborator (`semver.lt`, `semver.gt`, `semver.eq`, `semver.major`,
`semver.minor`, `semver.prerelease`), which the specification fixes
completely: strict parsing of `major.minor.patch(-prerelease)?` and the
semver precedence order. -/

/-- A prerelease identifier: numeric (compared numerically, lower than any
alphanumeric identifier) or alphanumeric (compared lexically). -/
inductive PreId where
  | num (n : Nat)
  | alnum (cs : List Char)
deriving DecidableEq, Repr

/-- A parsed semver version (build metadata never occurs in the inputs
the repository feeds to the collaborator, so it is not modelled). -/
structure SemV where
  major : Nat
  minor : Nat
  patch : Nat
  pre : List PreId
deriving DecidableEq, Repr

/-- Parse a strict numeric component: nonempty digits, no leading zero
(unless the component is exactly `0`).  Returns the value and the rest. -/
def parseNumStrict (cs : List Char) : Option (Nat × List Char) :=
  let ds := cs.takeWhile Char.isDigit
  let rest := cs.dropWhile Char.isDigit
  match ds with
  | [] => none
  | [d] => some (d.toNat - 48, rest)
  | d :: _ :: _ => if d = '0' then none else some (natOfDigits ds, rest)

/-- Classify one prerelease identifier (strict): all-digit identifiers are
numeric and must not have leading zeros; otherwise alphanumeric. -/
def classifyId (cs : List Char) : Option PreId :=
  if cs.all Char.isDigit then
    match cs with
    | [] => none
    | [d] => some (.num (d.toNat - 48))
    | d :: _ :: _ => if d = '0' then none else some (.num (natOfDigits cs))
  else some (.alnum cs)

/-- Split a character list at every occurrence of a separator character. -/
def splitAllOn (sep : Char) : List Char → List (List Char)
  | [] => [[]]
  | c :: rest =>
    if c = sep then [] :: splitAllOn sep rest
    else
      match splitAllOn sep rest with
      | [] => [[c]]
      | s :: ss => (c :: s) :: ss

/-- Parse a dot-separated list of prerelease identifiers: every character
is an identifier character or a separating dot, and every dot-delimited
segment is a (strictly) valid identifier. -/
def parseIds (cs : List Char) : Option (List PreId) :=
  if cs.all (fun c => isIdentChar c || c = '.') then
    (splitAllOn '.' cs).mapM classifyId
  else none

/-- Strict parse of a semver version from characters. -/
def parseSemVerL (cs : List Char) : Option SemV := do
  let (ma, r1) ← parseNumStrict cs
  match r1 with
  | '.' :: r2 => do
    let (mi, r3) ← parseNumStrict r2
    match r3 with
    | '.' :: r4 => do
      let (pa, r5) ← parseNumStrict r4
      match r5 with
      | [] => some ⟨ma, mi, pa, []⟩
      | '-' :: r6 => do
        let ids ← parseIds r6
        some ⟨ma, mi, pa, ids⟩
      | _ => none
    | _ => none
  | _ => none

/-- Strict parse of a semver version string. -/
def parseSemVer (s : String) : Option SemV :=
  parseSemVerL s.data

/-- Lexicographic character-list comparison by code point
(JavaScript string `<` on identifiers). -/
def compareChars : List Char → List Char → Ordering
  | [], [] => .eq
  | [], _ :: _ => .lt
  | _ :: _, [] => .gt
  | a :: as, b :: bs =>
    if a.toNat < b.toNat then .lt
    else if b.toNat < a.toNat then .gt
    else compareChars as bs

/-- Compare two prerelease identifiers: numeric identifiers compare
numerically and are lower than alphanumeric ones. -/
def compareId : PreId → PreId → Ordering
  | .num a, .num b => compare a b
  | .num _, .alnum _ => .lt
  | .alnum _, .num _ => .gt
  | .alnum a, .alnum b => compareChars a b

/-- Lexicographic comparison of identifier lists; a strict prefix is lower. -/
def compareIdList : List PreId → List PreId → Ordering
  | [], [] => .eq
  | [], _ :: _ => .lt
  | _ :: _, [] => .gt
  | a :: as, b :: bs =>
    match compareId a b with
    | .eq => compareIdList as bs
    | o => o

/-- Semver precedence: major, minor, patch, then prerelease (a version
without prerelease is higher than one with). -/
def compareVer (a b : SemV) : Ordering :=
  match compare a.major b.major with
  | .eq =>
    match compare a.minor b.minor with
    | .eq =>
      match compare a.patch b.patch with
      | .eq =>
        match a.pre, b.pre with
        | [], [] => .eq
        | [], _ :: _ => .gt
        | _ :: _, [] => .lt
        | _ :: _, _ :: _ => compareIdList a.pre b.pre
      | o => o
    | o => o
  | o => o

/-- `semver.lt` on parsed versions. -/
def verLtV (a b : SemV) : Bool := compareVer a b = .lt

/-- `semver.gt` on parsed versions. -/
def verGtV (a b : SemV) : Bool := compareVer a b = .gt

/-- `semver.eq` on parsed versions. -/
def verEqV (a b : SemV) : Bool := compareVer a b = .eq

/-! ## Models of the source regexes

`regex.condition = /^([<=>]+)?/`, `regex.version = /(ver)$/`,
`regex.minMax = /^>=(ver) <=?(core)$/`, `regex.x = /^x|X|\*$/`,
with `core = [\d]+\.[\d]+\.[\d]+` and `ver = core(?:-[\w.]+)?`.
The scanners below implement the exact leftmost/greedy semantics of the
JavaScript engine on these patterns (no residual backtracking exists for
these patterns, as every repeated class is disjoint from its successor). -/

/-- `regex.condition`: the longest leading run of `[<=>]`, default `"="`. -/
def condOf (s : String) : String :=
  match s.data.takeWhile isCondChar with
  | [] => "="
  | cs => ⟨cs⟩

/-- Match `[\d]+\.[\d]+\.[\d]+` at the head; return (matched, rest). -/
def matchCore (cs : List Char) : Option (List Char × List Char) :=
  let d1 := cs.takeWhile Char.isDigit
  let r1 := cs.dropWhile Char.isDigit
  match d1, r1 with
  | [], _ => none
  | _ :: _, '.' :: r2 =>
    let d2 := r2.takeWhile Char.isDigit
    let r3 := r2.dropWhile Char.isDigit
    match d2, r3 with
    | [], _ => none
    | _ :: _, '.' :: r4 =>
      let d3 := r4.takeWhile Char.isDigit
      let r5 := r4.dropWhile Char.isDigit
      match d3 with
      | [] => none
      | _ :: _ => some (d1 ++ '.' :: (d2 ++ '.' :: d3), r5)
    | _, _ => none
  | _, _ => none

/-- Match `core(?:-[\w.]+)?` at the head; return (matched, rest). -/
def matchVer (cs : List Char) : Option (List Char × List Char) :=
  match matchCore cs with
  | none => none
  | some (core, rest) =>
    match rest with
    | '-' :: r6 =>
      let p := r6.takeWhile isWordDot
      let r7 := r6.dropWhile isWordDot
      match p with
      | [] => none
      | _ :: _ => some (core ++ '-' :: p, r7)
    | _ => some (core, rest)

/-- Does the whole list match `ver` (the body of `regex.version`)? -/
def versionShape (cs : List Char) : Bool :=
  match matchVer cs with
  | some (_, []) => true
  | _ => false

/-- `regex.version.exec`: the pattern is anchored at the end, so a match is
a suffix with the `ver` shape, and the leftmost match is the longest such
suffix. -/
def versionExecL (cs : List Char) : Option (List Char) :=
  cs.tails.find? versionShape

/-- `regex.version.exec(range)[1]` on strings (`none` models the thrown
`TypeError` when the regex does not match). -/
def versionExec (s : String) : Option String :=
  (versionExecL s.data).map (fun cs => (⟨cs⟩ : String))

/-- `regex.minMax.exec`, returning the two capture groups. -/
def minMaxExecL (cs : List Char) : Option (List Char × List Char) :=
  match cs with
  | '>' :: '=' :: r =>
    match matchVer r with
    | none => none
    | some (mn, rest) =>
      match rest with
      | ' ' :: '<' :: '=' :: r3 =>
        (match matchCore r3 with
         | some (mx, []) => some (mn, mx)
         | _ => none)
      | ' ' :: '<' :: r3 =>
        (match matchCore r3 with
         | some (mx, []) => some (mn, mx)
         | _ => none)
      | _ => none
  | _ => none

/-- `regex.x = /^x|X|\*$/`: starts with `x`, contains `X` anywhere, or
ends with `*` (the alternation binds this way in the source). -/
def matchesX (s : String) : Bool :=
  (match s.data with | 'x' :: _ => true | _ => false)
  || s.data.contains 'X'
  || (match s.data.getLast? with | some '*' => true | _ => false)

/-! ## Embedding of the source functions (`src/unnamed/part_002`)

The external collaborator operations that interpret whole ranges
(`semver.satisfies`, `semver.intersects`, `semver.validRange`) are black
boxes to this code; the embedding is parametrized over them. -/

/-- The range-level operations of the external `semver` collaborator. -/
structure SemverLib where
  satisfies : String → String → Bool
  intersects : String → String → Bool
  validRange : String → Option String

/-- Error message of a thrown JS `TypeError` from indexing a `null`
regex-exec result (a programming-contract violation in the source). -/
def typeErrorMsg : String := "TypeError: Cannot read properties of null"

/-- Error message thrown by the collaborator's version comparison on an
invalid version string. -/
def invalidVersionMsg : String := "TypeError: Invalid Version"

/-- Result of part_002's `parseRange`. -/
structure ParsedRange where
  condition : String
  prerelease : Option (List PreId)
  version : String
deriving DecidableEq, Repr

/-- `semver.prerelease(version)`: the prerelease identifiers, or `none`
when absent or when the version does not parse. -/
def prereleaseOf (v : String) : Option (List PreId) :=
  match parseSemVer v with
  | some sv => if sv.pre.isEmpty then none else some sv.pre
  | none => none

/-- part_002 `parseRange`: condition run, trailing version, prerelease. -/
def parseRange (s : String) : Option ParsedRange :=
  match versionExec s with
  | none => none
  | some v => some ⟨condOf s, prereleaseOf v, v⟩

/-- The incompatibility error message (a contract of the design). -/
def compatMsg (range bound : String) : String :=
  "Range " ++ range ++ " is not compatible with " ++ bound

/-- One iteration of `ensureCompatible`'s `forEach` body. -/
def checkBound (S : SemverLib) (range : String) (pre : Option (List PreId))
    (version : String) (bound : String) : Except String Unit :=
  if bound = "" then .ok ()
  else if S.satisfies version bound && S.intersects range bound then .ok ()
  else
    match pre with
    | some _ =>
      match parseRange bound with
      | none => .error typeErrorMsg
      | some pb =>
        match pb.prerelease with
        | some _ =>
          if S.satisfies pb.version range then .ok ()
          else .error (compatMsg range bound)
        | none =>
          if S.satisfies version (range ++ " " ++ bound) then .ok ()
          else .error (compatMsg range bound)
    | none => .error (compatMsg range bound)

/-- part_002 `ensureCompatible`: throw on the first incompatible bound. -/
def ensureCompatible (S : SemverLib) (range : String) (bounds : List String) :
    Except String Unit :=
  match parseRange range with
  | none => .error typeErrorMsg
  | some pr =>
    bounds.foldlM (fun _ b => checkBound S range pr.prerelease pr.version b) ()

/-- JS `condition.startsWith(c)` for a single character. -/
def condStarts (s : String) (c : Char) : Bool :=
  match s.data with
  | [] => false
  | a :: _ => a = c

/-- part_002 `mergeBounds`: keep the tighter of the two comparators
(strict comparators win exact-version ties). -/
def mergeBounds (range bound : String) : Except String String :=
  if bound = "" then .ok range
  else
    match parseRange range with
    | none => .error typeErrorMsg
    | some pr =>
      match parseRange bound with
      | none => .error typeErrorMsg
      | some pb =>
        match parseSemVer pr.version, parseSemVer pb.version with
        | some v, some bv =>
          let cmpRes := if condStarts pr.condition '<' then verLtV v bv else verGtV v bv
          let strict := pr.condition = "<" || pr.condition = ">"
          if cmpRes then .ok range
          else if strict && verEqV v bv then .ok range
          else .ok bound
        | _, _ => .error invalidVersionMsg

/-- A lower/upper bound pair; the empty string is an absent bound. -/
structure Bound where
  lowerBound : String := ""
  upperBound : String := ""
deriving DecidableEq, Repr

/-- part_002 `updateBounds`: fold one comparator clause into a bound pair. -/
def updateBounds (S : SemverLib) (b : Bound) (range : String) :
    Except String Bound :=
  match parseRange range with
  | none => .error typeErrorMsg
  | some pr =>
    (if pr.prerelease.isSome then
      ensureCompatible S range [b.lowerBound, b.upperBound]
     else .ok ()) >>= fun _ =>
    if pr.condition = "=" then
      ensureCompatible S range [b.lowerBound, b.upperBound] >>= fun _ =>
        .ok ⟨">=" ++ range, "<=" ++ range⟩
    else if condStarts pr.condition '>' then
      ensureCompatible S range [b.upperBound] >>= fun _ =>
        (mergeBounds range b.lowerBound).map fun l => ⟨l, b.upperBound⟩
    else if condStarts pr.condition '<' then
      ensureCompatible S range [b.lowerBound] >>= fun _ =>
        (mergeBounds range b.upperBound).map fun u => ⟨b.lowerBound, u⟩
    else .ok b

/-- JS `split(/\|\|/)`: first segment and the remaining segments. -/
def splitOnOrL : List Char → List Char × List (List Char)
  | [] => ([], [])
  | '|' :: '|' :: rest =>
    let (f, r) := splitOnOrL rest
    ([], f :: r)
  | c :: rest =>
    let (f, r) := splitOnOrL rest
    (c :: f, r)

/-- JS `validRange.split(regex.or)`. -/
def splitOnOr (s : String) : List String :=
  let (f, r) := splitOnOrL s.data
  (f :: r).map (fun cs => (⟨cs⟩ : String))

/-- JS `\s` whitespace characters occurring in this domain. -/
def isSpace (c : Char) : Bool :=
  c = ' ' || c = '\t' || c = '\n' || c = '\r'

/-- Split at every single whitespace character. -/
def splitWs1 : List Char → List (List Char)
  | [] => [[]]
  | c :: rest =>
    if isSpace c then [] :: splitWs1 rest
    else
      match splitWs1 rest with
      | [] => [[c]]
      | s :: ss => (c :: s) :: ss

/-- Drop the empty segments a run of whitespace leaves between its first
and last split points (turning a single-character split into the `\s+`
split, which keeps only the leading/trailing empty segments JS keeps). -/
def dropMidEmpty : List (List Char) → List (List Char)
  | [] => []
  | [x] => [x]
  | x :: xs =>
    if x = ([] : List Char) then dropMidEmpty xs
    else x :: dropMidEmpty xs

/-- JS `part.split(regex.whitespace)` (split on runs of whitespace; a
leading run contributes a leading empty segment, a trailing run a
trailing one). -/
def splitWs (s : String) : List String :=
  match splitWs1 s.data with
  | [] => [""]
  | x :: xs => (x :: dropMidEmpty xs).map (fun cs => (⟨cs⟩ : String))

/-- part_002 `coerceRange`: wildcard comparators become `>=0.0.0`. -/
def coerceRange (range : String) : String :=
  if matchesX range then ">=0.0.0" else range

/-- part_002 `distinct`: `[...new Set(a)]`, keeping first occurrences. -/
def distinct (a : List String) : List String :=
  a.foldl (fun acc x => if acc.contains x then acc else acc ++ [x]) []

/-- part_002 `expandRanges`: one DNF (union of conjunctions of comparator
strings) per raw range argument. -/
def expandRanges (S : SemverLib) (ranges : List String) :
    Except String (List (List (List String))) :=
  ranges.mapM fun range =>
    match S.validRange range with
    | none => .error typeErrorMsg
    | some vr =>
      .ok ((splitOnOr vr).map fun part => distinct ((splitWs part).map coerceRange))

/-- Trim JS whitespace from both ends. -/
def trimL (cs : List Char) : List Char :=
  ((cs.dropWhile isSpace).reverse.dropWhile isSpace).reverse

/-- part_002 `formatIntersection`. -/
def formatIntersection (b : Bound) : String :=
  if b.lowerBound = b.upperBound then b.lowerBound
  else ⟨trimL (b.lowerBound ++ " " ++ b.upperBound).data⟩

/-- part_002 `createShorthand` (`none` models the `Invalid Version` throw
from `semver.major`/`semver.minor` on a malformed captured version). -/
def createShorthand (range : String) : Option String :=
  match minMaxExecL range.data with
  | none => some range
  | some (mnL, mxL) =>
    let min : String := ⟨mnL⟩
    let max : String := ⟨mxL⟩
    if min = max then some min
    else if strIncludes range "<=" then some (min ++ " - " ++ max)
    else
      match parseSemVer min with
      | none => none
      | some vmn =>
        if vmn.major = 0 then
          match parseSemVer max with
          | none => none
          | some vmx =>
            if vmx.major = 0 then
              if vmn.minor = 0 then
                if vmx.minor = 0 then some ("^" ++ min)
                else some ("~" ++ min)
              else some ("^" ++ min)
            else some "0"
        else
          match parseSemVer max with
          | none => none
          | some vmx =>
            if vmn.major ≠ vmx.major then some ("^" ++ min)
            else some ("~" ++ min)

/-- part_002 `allPairs`. -/
def allPairs {α β : Type} (arr1 : List α) (arr2 : List β) : List (α × β) :=
  arr1.foldl (fun acc cur => acc ++ arr2.map (fun y => (cur, y))) []

/-- Folding one conjunction into one existing bound pair (the body of the
`map` inside `intersect`, with the thrown error as `Except.error`). -/
def branchFold (S : SemverLib) (p : Bound × List String) : Except String Bound :=
  p.2.foldlM (updateBounds S) p.1

/-- The surviving bound of a branch, if it did not fail. -/
def okOpt : Except String Bound → Option Bound
  | .ok b => some b
  | .error _ => none

/-- The captured error of a branch, if it failed. -/
def errOpt : Except String Bound → Option String
  | .error e => some e
  | .ok _ => none

/-- One step of `intersect`'s `reduce`: cross the running union with the
next DNF, discard failed pairs, and fail with the first captured error
only when no pair survives. -/
def intersectStep (S : SemverLib) (boundsUnion : List Bound)
    (rangeUnion : List (List String)) : Except String (List Bound) :=
  let results := (allPairs boundsUnion rangeUnion).map (branchFold S)
  match results.filterMap okOpt with
  | [] =>
    (match results.findSome? errOpt with
     | some e => .error e
     | none => .error "undefined")
  | b :: bs => .ok (b :: bs)

/-- Formatting of one surviving bound pair. -/
def formatBranch (b : Bound) : Option String :=
  createShorthand (formatIntersection b)

instance {ε α : Type} [DecidableEq ε] [DecidableEq α] : DecidableEq (Except ε α)
  | .ok a, .ok b =>
    if h : a = b then isTrue (by rw [h])
    else isFalse (by intro hc; cases hc; exact h rfl)
  | .ok _, .error _ => isFalse (by intro hc; cases hc)
  | .error _, .ok _ => isFalse (by intro hc; cases hc)
  | .error e, .error f =>
    if h : e = f then isTrue (by rw [h])
    else isFalse (by intro hc; cases hc; exact h rfl)

/-- part_002 `intersect`. -/
def intersect (S : SemverLib) (ranges : List String) : Except String String := do
  let rangeUnions ← expandRanges S ranges
  let resultUnion ← rangeUnions.foldlM (intersectStep S) [⟨"", ""⟩]
  let parts ← resultUnion.mapM (fun b =>
    match formatBranch b with
    | some s => Except.ok s
    | none => Except.error invalidVersionMsg)
  return String.intercalate " || " parts

/-! ## Embedding of part_001's `parseRange` (historical variant)

This variant additionally extracts major/minor/patch and normalizes a
single dotless prerelease tag via `regex.prerelease = /([^\d]+)([\d]+)?/`. -/

/-- Render one prerelease identifier back to characters (the collaborator
hands identifiers to the source as strings or numbers). -/
def renderIdL : PreId → List Char
  | .num n => (Nat.repr n).data
  | .alnum cs => cs

/-- `regex.prerelease.exec(tag).slice(1)`: leftmost nonempty run of
non-digits, then an optional digit run (`none` models a `null` exec result,
on which the source's `.slice` would throw). -/
def execPrerelease (cs : List Char) : Option (List Char × Option (List Char)) :=
  match cs with
  | [] => none
  | c :: rest =>
    if c.isDigit then execPrerelease rest
    else
      let letters := (c :: rest).takeWhile (fun ch => !ch.isDigit)
      let r := (c :: rest).dropWhile (fun ch => !ch.isDigit)
      let digits := r.takeWhile Char.isDigit
      some (letters, if digits.isEmpty then none else some digits)

/-- Result of part_001's `parseRange` (prerelease entries may be the JS
`undefined`, modelled as `none`). -/
structure FullRange where
  condition : String
  major : Nat
  minor : Nat
  patch : Nat
  prerelease : Option (List (Option String))
  version : String
deriving DecidableEq, Repr

/-- part_001 `parseRange`: condition, version, major/minor/patch, and the
prerelease identifiers, with a single dotless tag such as `beta2` split
into its letter and digit parts. -/
def parseRangeFull (s : String) : Option FullRange :=
  match versionExec s with
  | none => none
  | some v =>
    match parseSemVer v with
    | none => none
    | some sv =>
      if sv.pre.isEmpty then
        some ⟨condOf s, sv.major, sv.minor, sv.patch, none, v⟩
      else
        match sv.pre with
        | [i] =>
          match execPrerelease (renderIdL i) with
          | none => none
          | some (letters, digitsOpt) =>
            some ⟨condOf s, sv.major, sv.minor, sv.patch,
                  some [some (⟨letters⟩ : String),
                        digitsOpt.map (fun d => (⟨d⟩ : String))], v⟩
        | ids =>
          some ⟨condOf s, sv.major, sv.minor, sv.patch,
                some (ids.map (fun i => some (⟨renderIdL i⟩ : String))), v⟩

/-! ## Concrete model of the `semver` collaborator

Modelled from the spec: the repository's `package.json` collaborator
(`require('semver')`, node-semver v5/v6 behaviour as exercised by the
repository's test-suite) is not part of `src/`.  The model below
implements version satisfaction, range-to-range intersection and range
normalization for the comparator-set grammar the repository feeds to the
collaborator: unions (`||`) of whitespace-separated comparators over
strict `major.minor.patch(-prerelease)?` versions, caret/tilde/x-range
sugar, hyphen ranges, and wildcards. -/

/-- A parsed comparator: an operator and a version (`none` = match-any). -/
structure CompM where
  op : String
  ver : Option SemV
deriving DecidableEq, Repr

/-- Parse a comparator operator prefix. -/
def parseOp (cs : List Char) : String × List Char :=
  match cs with
  | '<' :: '=' :: r => ("<=", r)
  | '<' :: r => ("<", r)
  | '>' :: '=' :: r => (">=", r)
  | '>' :: r => (">", r)
  | '=' :: r => ("=", r)
  | r => ("", r)

/-- Parse one comparator token of a normalized comparator-set string. -/
def parseCompTok (tok : String) : Option CompM :=
  match tok.data with
  | [] => some ⟨"", none⟩
  | ['*'] => some ⟨"", none⟩
  | ['x'] => some ⟨"", none⟩
  | ['X'] => some ⟨"", none⟩
  | cs =>
    let (op, rest) := parseOp cs
    match parseSemVerL rest with
    | some v => some ⟨(if op = "=" then "" else op), some v⟩
    | none => none

/-- Evaluate one comparator against a version (ignoring prerelease
gating, which applies at the set level). -/
def testComp (v : SemV) (c : CompM) : Bool :=
  match c.ver with
  | none => true
  | some w =>
    match c.op with
    | "<" => verLtV v w
    | "<=" => !verGtV v w
    | ">" => verGtV v w
    | ">=" => !verLtV v w
    | _ => verEqV v w

/-- The semver prerelease gate: a version carrying a prerelease tag only
matches a comparator set that mentions a prerelease on the same
major.minor.patch tuple. -/
def preAllowed (v : SemV) (set : List CompM) : Bool :=
  v.pre.isEmpty || set.any fun c =>
    match c.ver with
    | some w =>
      !w.pre.isEmpty && (w.major = v.major && w.minor = v.minor && w.patch = v.patch)
    | none => false

/-- Evaluate a whole comparator set against a version. -/
def testSet (v : SemV) (set : List CompM) : Bool :=
  set.all (testComp v) && preAllowed v set

/-- Parse a range into its union of comparator sets. -/
def parseRangeSets (r : String) : Option (List (List CompM)) :=
  ((splitOnOr r).map (fun p => (⟨trimL p.data⟩ : String))).mapM fun part =>
    (splitWs part).mapM parseCompTok

/-- Modelled from the spec: `semver.satisfies(version, range)` — `false`
when either side fails to parse, otherwise union-of-sets satisfaction. -/
def satisfiesModel (version range : String) : Bool :=
  match parseSemVer version, parseRangeSets range with
  | some v, some sets => sets.any (testSet v)
  | _, _ => false

/-- Modelled from the spec: node-semver `Comparator.intersects`. -/
def compIntersects (a b : CompM) : Bool :=
  if a.op = "" then
    match a.ver with
    | none => true
    | some av => testSet av [b]
  else if b.op = "" then
    match b.ver with
    | none => true
    | some bv => testSet bv [a]
  else
    match a.ver, b.ver with
    | some av, some bv =>
      let aGt := a.op = ">" || a.op = ">="
      let aLt := a.op = "<" || a.op = "<="
      let bGt := b.op = ">" || b.op = ">="
      let bLt := b.op = "<" || b.op = "<="
      (aGt && bGt) || (aLt && bLt) ||
      (verEqV av bv && (a.op = ">=" || a.op = "<=") && (b.op = ">=" || b.op = "<=")) ||
      (verLtV av bv && aGt && bLt) ||
      (verGtV av bv && aLt && bGt)
    | _, _ => false

/-- Modelled from the spec: `semver.intersects(r1, r2)`. -/
def intersectsModel (r1 r2 : String) : Bool :=
  match parseRangeSets r1, parseRangeSets r2 with
  | some s1, some s2 =>
    s1.any fun c1 => s2.any fun c2 => c1.all fun a => c2.all fun b => compIntersects a b
  | _, _ => false

/-- Render dot-separated prerelease identifiers. -/
def renderIds : List PreId → List Char
  | [] => []
  | [i] => renderIdL i
  | i :: is => renderIdL i ++ '.' :: renderIds is

/-- Render a version in canonical form. -/
def renderVer (major minor patch : Nat) (pre : List PreId) : String :=
  ⟨(Nat.repr major).data ++ '.' :: (Nat.repr minor).data ++ '.' :: (Nat.repr patch).data
    ++ (match pre with | [] => [] | _ => '-' :: renderIds pre)⟩

/-- Parse one component of a partial version: a number or a wildcard. -/
def parseXComp (cs : List Char) : Option (Option Nat × List Char) :=
  match cs with
  | 'x' :: r => some (none, r)
  | 'X' :: r => some (none, r)
  | '*' :: r => some (none, r)
  | _ =>
    match parseNumStrict cs with
    | some (n, r) => some (some n, r)
    | none => none

/-- Parse a (possibly partial) version `M[.m[.p[-pre]]]` with wildcards. -/
def parsePartial (cs : List Char) :
    Option (Option Nat × Option (Option Nat) × Option (Option Nat) × List PreId) := do
  let (mjr, r1) ← parseXComp cs
  match r1 with
  | [] => some (mjr, none, none, [])
  | '.' :: r2 => do
    let (mnr, r3) ← parseXComp r2
    match r3 with
    | [] => some (mjr, some mnr, none, [])
    | '.' :: r4 => do
      let (pat, r5) ← parseXComp r4
      match r5 with
      | [] => some (mjr, some mnr, some pat, [])
      | '-' :: r6 => do
        let ids ← parseIds r6
        some (mjr, some mnr, some pat, ids)
      | _ => none
    | _ => none
  | _ => none

/-- Normalize one range token to its comparator strings (node-semver v6
tilde/caret/x-range desugaring). -/
def normTok (tok : String) : Option (List String) :=
  match tok.data with
  | [] => some [""]
  | '~' :: rest => do
    let (mjr, mnr, pat, pre) ← parsePartial rest
    match mjr with
    | none => some [""]
    | some M =>
      match mnr with
      | none | some none =>
        some [">=" ++ renderVer M 0 0 [], "<" ++ renderVer (M+1) 0 0 []]
      | some (some m) =>
        match pat with
        | none | some none =>
          some [">=" ++ renderVer M m 0 [], "<" ++ renderVer M (m+1) 0 []]
        | some (some p) =>
          some [">=" ++ renderVer M m p pre, "<" ++ renderVer M (m+1) 0 []]
  | '^' :: rest => do
    let (mjr, mnr, pat, pre) ← parsePartial rest
    match mjr with
    | none => some [""]
    | some M =>
      match mnr with
      | none | some none =>
        some [">=" ++ renderVer M 0 0 [], "<" ++ renderVer (M+1) 0 0 []]
      | some (some m) =>
        match pat with
        | none | some none =>
          if M = 0 then
            some [">=" ++ renderVer 0 m 0 [], "<" ++ renderVer 0 (m+1) 0 []]
          else
            some [">=" ++ renderVer M m 0 [], "<" ++ renderVer (M+1) 0 0 []]
        | some (some p) =>
          if M = 0 then
            if m = 0 then
              some [">=" ++ renderVer 0 0 p pre, "<" ++ renderVer 0 0 (p+1) []]
            else
              some [">=" ++ renderVer 0 m p pre, "<" ++ renderVer 0 (m+1) 0 []]
          else
            some [">=" ++ renderVer M m p pre, "<" ++ renderVer (M+1) 0 0 []]
  | cs =>
    let (op, rest) := parseOp cs
    do
      let (mjr, mnr, pat, pre) ← parsePartial rest
      match mjr with
      | none =>
        (match op with
         | ">" | "<" => some ["<" ++ renderVer 0 0 0 []]
         | _ => some [""])
      | some M =>
        match mnr with
        | none | some none =>
          (match op with
           | ">" => some [">=" ++ renderVer (M+1) 0 0 []]
           | ">=" => some [">=" ++ renderVer M 0 0 []]
           | "<" => some ["<" ++ renderVer M 0 0 []]
           | "<=" => some ["<" ++ renderVer (M+1) 0 0 []]
           | _ => some [">=" ++ renderVer M 0 0 [], "<" ++ renderVer (M+1) 0 0 []])
        | some (some m) =>
          match pat with
          | none | some none =>
            (match op with
             | ">" => some [">=" ++ renderVer M (m+1) 0 []]
             | ">=" => some [">=" ++ renderVer M m 0 []]
             | "<" => some ["<" ++ renderVer M m 0 []]
             | "<=" => some ["<" ++ renderVer M (m+1) 0 []]
             | _ => some [">=" ++ renderVer M m 0 [], "<" ++ renderVer M (m+1) 0 []])
          | some (some p) =>
            some [(if op = "=" then "" else op) ++ renderVer M m p pre]

/-- Split at the first occurrence of a separator sublist. -/
def splitFirstSub (cs sub : List Char) : Option (List Char × List Char) :=
  if startsWithL sub cs then some ([], cs.drop sub.length)
  else
    match cs with
    | [] => none
    | c :: rest =>
      match splitFirstSub rest sub with
      | some (l, r) => some (c :: l, r)
      | none => none

/-- Normalize one union part (node-semver v6 `parseRange` + format). -/
def normPart (part : String) : Option String :=
  match splitFirstSub part.data (' ' :: '-' :: [' ']) with
  | some (lft, rgt) => do
    let (lM, lm, lp, lpre) ← parsePartial lft
    let (rM, rm, rp, rpre) ← parsePartial rgt
    let lo : String :=
      match lM with
      | none => ""
      | some M =>
        match lm with
        | none | some none => ">=" ++ renderVer M 0 0 []
        | some (some m) =>
          match lp with
          | none | some none => ">=" ++ renderVer M m 0 []
          | some (some p) => ">=" ++ renderVer M m p lpre
    let hi : String :=
      match rM with
      | none => ""
      | some M =>
        match rm with
        | none | some none => "<" ++ renderVer (M+1) 0 0 []
        | some (some m) =>
          match rp with
          | none | some none => "<" ++ renderVer M (m+1) 0 []
          | some (some p) => "<=" ++ renderVer M m p rpre
    some (⟨trimL (lo ++ " " ++ hi).data⟩ : String)
  | none => do
    let lists ← (splitWs part).mapM normTok
    some (⟨trimL (String.intercalate " " lists.flatten).data⟩ : String)

/-- Modelled from the spec: `semver.validRange` — `none` is the `null` it
returns on an invalid range. -/
def validRangeModel (r : String) : Option String := do
  let parts ← ((splitOnOr r).map (fun p => (⟨trimL p.data⟩ : String))).mapM normPart
  let joined := String.intercalate "||" parts
  some (if joined = "" then "*" else joined)

/-- The concrete collaborator instance. -/
def semverModel : SemverLib :=
  ⟨satisfiesModel, intersectsModel, validRangeModel⟩

/-- Shorthand for the acceptance condition of one opposing bound when the
new clause carries no prerelease tag. -/
def plainAccept (S : SemverLib) (range version bound : String) : Prop :=
  bound = "" ∨ (S.satisfies version bound = true ∧ S.intersects range bound = true)

instance (S : SemverLib) (range version bound : String) :
    Decidable (plainAccept S range version bound) :=
  inferInstanceAs (Decidable (_ ∨ _))

/-- Does the whole list match `core` (the max capture of `regex.minMax`)? -/
def coreShape (cs : List Char) : Bool :=
  match matchCore cs with
  | some (_, []) => true
  | _ => false

/-- Shorthand for statements: a normalized comparator string as the
collaborator's `validRange` emits into a conjunction — an optional
`<`/`<=`/`>`/`>=` operator followed by a strict
`major.minor.patch(-prerelease)?` version. -/
def wfComp (c : String) : Prop :=
  ∃ op rv v, c = (⟨op ++ rv⟩ : String) ∧
    op ∈ [([] : List Char), ['>'], ['>', '='], ['<'], ['<', '=']] ∧
    versionShape rv = true ∧ parseSemVer (⟨rv⟩ : String) = some v

/-- Shorthand for statements: a well-formed accumulated lower bound — a
`>`/`>=` comparator string. -/
def wfLow (m : String) : Prop :=
  ∃ op rv v, m = (⟨op ++ rv⟩ : String) ∧
    op ∈ [(['>'] : List Char), ['>', '=']] ∧
    versionShape rv = true ∧ parseSemVer (⟨rv⟩ : String) = some v

/-- Shorthand for statements: a well-formed accumulated upper bound — a
`<`/`<=` comparator string. -/
def wfUp (m : String) : Prop :=
  ∃ op rv v, m = (⟨op ++ rv⟩ : String) ∧
    op ∈ [(['<'] : List Char), ['<', '=']] ∧
    versionShape rv = true ∧ parseSemVer (⟨rv⟩ : String) = some v

/-! ## Claim C10: `intersect()` with zero arguments -/

/-- Claim C10: calling `intersect` with zero range arguments raises no
error: the running union stays the seeded empty bound pair, that pair
formats to the empty string, and the overall result is `""`. -/
theorem intersect_no_args (S : SemverLib) :
    intersect S [] = Except.ok "" ∧ formatIntersection ⟨"", ""⟩ = "" :=
  ⟨rfl, rfl⟩

/-! ## Claim C5: `mergeBounds` keeps the tighter comparator -/

/-- Claim C5: `mergeBounds` returns the new clause when the existing bound
is empty; otherwise the comparator with the strictly tighter version wins
(the greater version for a `>`-side clause, the lesser for a `<`-side
clause), and an exact version tie goes to the new clause exactly when its
comparator is strict. -/
theorem mergeBounds_spec :
    (∀ range, mergeBounds range "" = Except.ok range) ∧
    (∀ range bound pr pb v bv,
      parseRange range = some pr → parseRange bound = some pb →
      parseSemVer pr.version = some v → parseSemVer pb.version = some bv →
      bound ≠ "" →
      (condStarts pr.condition '>' = true →
        (verGtV v bv = true → mergeBounds range bound = Except.ok range) ∧
        (verLtV v bv = true → mergeBounds range bound = Except.ok bound) ∧
        (verEqV v bv = true →
          mergeBounds range bound =
            Except.ok (if pr.condition = ">" then range else bound))) ∧
      (condStarts pr.condition '<' = true →
        (verLtV v bv = true → mergeBounds range bound = Except.ok range) ∧
        (verGtV v bv = true → mergeBounds range bound = Except.ok bound) ∧
        (verEqV v bv = true →
          mergeBounds range bound =
            Except.ok (if pr.condition = "<" then range else bound)))) := by
  constructor
  · intro range
    simp [mergeBounds]
  · intro range bound pr pb v bv hr hb hv hbv hne
    have hcmp : ∀ o, compareVer v bv = o → True := fun _ _ => trivial
    constructor
    · intro hgt
      have hlt : condStarts pr.condition '<' = false := by
        cases hcs : pr.condition.data with
        | nil => simp [condStarts, hcs] at hgt ⊢
        | cons a t =>
          simp [condStarts, hcs] at hgt ⊢
          simp [hgt]
      have hnotlt : pr.condition ≠ "<" := by
        intro h
        rw [h] at hlt
        simp [condStarts] at hlt
      refine ⟨?_, ?_, ?_⟩
      · intro h
        simp [mergeBounds, hne, hr, hb, hv, hbv, hlt, h]
      · intro h
        have h1 : verGtV v bv = false := by
          simp [verGtV, verLtV] at h ⊢
          simp [h]
        have h2 : verEqV v bv = false := by
          simp [verEqV, verLtV] at h ⊢
          simp [h]
        simp [mergeBounds, hne, hr, hb, hv, hbv, hlt, h1, h2]
      · intro h
        have h1 : verGtV v bv = false := by
          simp [verGtV, verEqV] at h ⊢
          simp [h]
        by_cases hs : pr.condition = ">"
        · simp [mergeBounds, hne, hr, hb, hv, hbv, hlt, h1, h, hs]
        · simp [mergeBounds, hne, hr, hb, hv, hbv, hlt, h1, h, hs, hnotlt]
    · intro hltc
      have hlt : condStarts pr.condition '<' = true := hltc
      have hnotgt : pr.condition ≠ ">" := by
        intro h
        rw [h] at hlt
        simp [condStarts] at hlt
      refine ⟨?_, ?_, ?_⟩
      · intro h
        simp [mergeBounds, hne, hr, hb, hv, hbv, hlt, h]
      · intro h
        have h1 : verLtV v bv = false := by
          simp [verGtV, verLtV] at h ⊢
          simp [h]
        have h2 : verEqV v bv = false := by
          simp [verEqV, verGtV] at h ⊢
          simp [h]
        simp [mergeBounds, hne, hr, hb, hv, hbv, hlt, h1, h2]
      · intro h
        have h1 : verLtV v bv = false := by
          simp [verLtV, verEqV] at h ⊢
          simp [h]
        by_cases hs : pr.condition = "<"
        · simp [mergeBounds, hne, hr, hb, hv, hbv, hlt, h1, h, hs]
        · simp [mergeBounds, hne, hr, hb, hv, hbv, hlt, h1, h, hs, hnotgt]

/-- Witness for C5 at concrete comparators. -/
theorem mergeBounds_spec_witness :
    parseRange ">=5.5.0" = some ⟨">=", none, "5.5.0"⟩ ∧
    parseRange ">=5.1.0" = some ⟨">=", none, "5.1.0"⟩ ∧
    mergeBounds ">=5.5.0" ">=5.1.0" = Except.ok ">=5.5.0" := by
  refine ⟨by decide, by decide, ?_⟩
  have h := (mergeBounds_spec.2 ">=5.5.0" ">=5.1.0" ⟨">=", none, "5.5.0"⟩
    ⟨">=", none, "5.1.0"⟩ ⟨5, 5, 0, []⟩ ⟨5, 1, 0, []⟩
    (by decide) (by decide) (by decide) (by decide) (by decide)).1 (by decide)
  exact h.1 (by decide)

/-! ## Claims C2 and C4: `ensureCompatible` -/

theorem checkBound_of_accept (S : SemverLib) (range version bound : String)
    (pre : Option (List PreId)) (h : plainAccept S range version bound) :
    checkBound S range pre version bound = Except.ok () := by
  rcases h with h | ⟨h1, h2⟩
  · simp [checkBound, h]
  · by_cases hb : bound = ""
    · simp [checkBound, hb]
    · simp [checkBound, hb, h1, h2]

theorem exc_ok_bind {α β : Type} (a : α) (f : α → Except String β) :
    (Except.ok a >>= f) = f a := rfl

theorem exc_err_bind {α β : Type} (e : String) (f : α → Except String β) :
    ((Except.error e : Except String α) >>= f) = Except.error e := rfl

theorem checkBound_of_reject (S : SemverLib) (range version bound : String)
    (h : ¬ plainAccept S range version bound) :
    checkBound S range none version bound = Except.error (compatMsg range bound) := by
  rw [plainAccept, not_or] at h
  obtain ⟨hb, hsi⟩ := h
  have hfalse : (S.satisfies version bound && S.intersects range bound) = false := by
    cases h1 : S.satisfies version bound
    · simp
    · cases h2 : S.intersects range bound
      · simp
      · exact absurd ⟨h1, h2⟩ hsi
  simp [checkBound, hb, hfalse]

theorem ensureCompatible_fold_ok (S : SemverLib) (range version : String) :
    ∀ bs : List String,
      (bs.foldlM (fun _ b => checkBound S range none version b) PUnit.unit
          = Except.ok PUnit.unit
        ↔ ∀ b ∈ bs, plainAccept S range version b) := by
  intro bs
  induction bs with
  | nil => simp [List.foldlM_nil, pure, Except.pure]
  | cons b rest ih =>
    by_cases h : plainAccept S range version b
    · rw [List.foldlM_cons, checkBound_of_accept S range version b none h, exc_ok_bind]
      simpa [h] using ih
    · rw [List.foldlM_cons, checkBound_of_reject S range version b h, exc_err_bind]
      constructor
      · intro hcontr
        exact absurd hcontr (by simp)
      · intro hall
        exact absurd (hall b (by simp)) h

theorem ensureCompatible_fold_err (S : SemverLib) (range version : String) :
    ∀ (l : List String) (b : String) (r : List String),
      (∀ c ∈ l, plainAccept S range version c) →
      ¬ plainAccept S range version b →
      ((l ++ b :: r).foldlM (fun _ c => checkBound S range none version c) PUnit.unit
        = Except.error (compatMsg range b)) := by
  intro l
  induction l with
  | nil =>
    intro b r _ hb
    rw [List.nil_append, List.foldlM_cons, checkBound_of_reject S range version b hb,
      exc_err_bind]
  | cons c rest ih =>
    intro b r hall hb
    have hc : plainAccept S range version c := hall c (by simp)
    rw [List.cons_append, List.foldlM_cons, checkBound_of_accept S range version c none hc,
      exc_ok_bind]
    exact ih b r (fun x hx => hall x (by simp [hx])) hb

/-- Claim C2: with no prerelease tag on either side, `ensureCompatible`
accepts the new clause against each opposing bound exactly when the bound
is empty or the clause's version satisfies it and the two ranges
intersect; the first rejected bound raises the verbatim
`Range ... is not compatible with ...` error. -/
theorem ensureCompatible_spec (S : SemverLib) (range : String)
    (bounds : List String) (pr : ParsedRange)
    (hr : parseRange range = some pr) (hpre : pr.prerelease = none)
    (hbpre : ∀ b ∈ bounds, ∀ pb, parseRange b = some pb → pb.prerelease = none) :
    (ensureCompatible S range bounds = Except.ok () ↔
      ∀ b ∈ bounds, b = "" ∨
        (S.satisfies pr.version b = true ∧ S.intersects range b = true)) ∧
    (∀ l b r, bounds = l ++ b :: r →
      (∀ c ∈ l, c = "" ∨
        (S.satisfies pr.version c = true ∧ S.intersects range c = true)) →
      ¬(b = "" ∨
        (S.satisfies pr.version b = true ∧ S.intersects range b = true)) →
      ensureCompatible S range bounds =
        Except.error ("Range " ++ range ++ " is not compatible with " ++ b)) := by
  have hunfold : ensureCompatible S range bounds =
      bounds.foldlM (fun _ b => checkBound S range none pr.version b) PUnit.unit := by
    simp only [ensureCompatible, hr, hpre]
  constructor
  · rw [hunfold]
    exact ensureCompatible_fold_ok S range pr.version bounds
  · intro l b r hsplit hacc hrej
    rw [hunfold, hsplit]
    exact ensureCompatible_fold_err S range pr.version l b r hacc hrej

/-- Witness for C2 on a concrete incompatible pair from the test-suite. -/
theorem ensureCompatible_spec_witness :
    parseRange ">=3.0.0" = some ⟨">=", none, "3.0.0"⟩ ∧
    ensureCompatible semverModel ">=3.0.0" ["<2.0.0"] =
      Except.error "Range >=3.0.0 is not compatible with <2.0.0" := by
  refine ⟨by decide, ?_⟩
  have h := (ensureCompatible_spec semverModel ">=3.0.0" ["<2.0.0"]
    ⟨">=", none, "3.0.0"⟩ (by decide) rfl
    (by
      intro b hb pb hpb
      simp only [List.mem_singleton] at hb
      subst hb
      have h2 : parseRange "<2.0.0" = some ⟨"<", none, "2.0.0"⟩ := by decide
      injection hpb.symm.trans h2 with h3
      rw [h3])).2 [] "<2.0.0" [] rfl (by simp) (by decide)
  exact h

/-- Claim C4: when the new clause carries a prerelease tag and its version
does not plainly satisfy the opposing bound, the clause is still accepted
exactly when the bound's version also carries a prerelease tag and
satisfies the clause's range, or the bound carries none and the clause's
version satisfies the conjunction of clause and bound; otherwise the same
incompatibility error is raised. -/
theorem ensureCompatible_prerelease_spec (S : SemverLib) (range bound : String)
    (pr pb : ParsedRange)
    (hr : parseRange range = some pr) (hpre : pr.prerelease.isSome)
    (hb : parseRange bound = some pb) (hbne : bound ≠ "")
    (hnosat : S.satisfies pr.version bound = false) :
    (ensureCompatible S range [bound] = Except.ok () ↔
      (pb.prerelease.isSome ∧ S.satisfies pb.version range = true) ∨
      (pb.prerelease = none ∧
        S.satisfies pr.version (range ++ " " ++ bound) = true)) ∧
    (ensureCompatible S range [bound] ≠ Except.ok () →
      ensureCompatible S range [bound] =
        Except.error ("Range " ++ range ++ " is not compatible with " ++ bound)) := by
  obtain ⟨pl, hpl⟩ := Option.isSome_iff_exists.mp hpre
  cases hpb : pb.prerelease with
  | some q =>
    by_cases hs : S.satisfies pb.version range = true
    · constructor
      · simp [ensureCompatible, hr, checkBound, hbne, hnosat, hpl, hb, hpb, hs,
          pure, Except.pure, Bind.bind, Except.bind]
      · intro hne
        exact absurd (by
          simp [ensureCompatible, hr, checkBound, hbne, hnosat, hpl, hb, hpb, hs,
            pure, Except.pure, Bind.bind, Except.bind]) hne
    · have hs' : S.satisfies pb.version range = false := by
        cases h : S.satisfies pb.version range
        · rfl
        · exact absurd h hs
      constructor
      · simp [ensureCompatible, hr, checkBound, hbne, hnosat, hpl, hb, hpb, hs',
          pure, Except.pure, Bind.bind, Except.bind, compatMsg]
      · intro _
        simp [ensureCompatible, hr, checkBound, hbne, hnosat, hpl, hb, hpb, hs',
          pure, Except.pure, Bind.bind, Except.bind, compatMsg]
  | none =>
    by_cases hs : S.satisfies pr.version (range ++ " " ++ bound) = true
    · constructor
      · simp [ensureCompatible, hr, checkBound, hbne, hnosat, hpl, hb, hpb, hs,
          pure, Except.pure, Bind.bind, Except.bind]
      · intro hne
        exact absurd (by
          simp [ensureCompatible, hr, checkBound, hbne, hnosat, hpl, hb, hpb, hs,
            pure, Except.pure, Bind.bind, Except.bind]) hne
    · have hs' : S.satisfies pr.version (range ++ " " ++ bound) = false := by
        cases h : S.satisfies pr.version (range ++ " " ++ bound)
        · rfl
        · exact absurd h hs
      constructor
      · simp [ensureCompatible, hr, checkBound, hbne, hnosat, hpl, hb, hpb, hs',
          pure, Except.pure, Bind.bind, Except.bind, compatMsg]
      · intro _
        simp [ensureCompatible, hr, checkBound, hbne, hnosat, hpl, hb, hpb, hs',
          pure, Except.pure, Bind.bind, Except.bind, compatMsg]

/-- Witness for C4: a prerelease clause accepted against a prerelease
bound by cross-satisfaction. -/
theorem ensureCompatible_prerelease_spec_witness :
    parseRange ">=1.9.0-alpha" =
      some ⟨">=", some [.alnum ['a', 'l', 'p', 'h', 'a']], "1.9.0-alpha"⟩ ∧
    satisfiesModel "1.9.0-alpha" ">=1.9.0-beta" = false ∧
    ensureCompatible semverModel ">=1.9.0-alpha" [">=1.9.0-beta"] = Except.ok () := by
  refine ⟨by decide, by decide, ?_⟩
  have h := (ensureCompatible_prerelease_spec semverModel ">=1.9.0-alpha" ">=1.9.0-beta"
    ⟨">=", some [.alnum ['a', 'l', 'p', 'h', 'a']], "1.9.0-alpha"⟩
    ⟨">=", some [.alnum ['b', 'e', 't', 'a']], "1.9.0-beta"⟩
    (by decide) (by decide) (by decide) (by decide) (by decide)).1
  exact h.mpr (Or.inl ⟨by decide, by decide⟩)

/-! ## Claim C6: `expandRanges` coerces wildcards and deduplicates -/

theorem distinct_aux_nodup (l acc : List String) (h : acc.Nodup) :
    (l.foldl (fun acc x => if acc.contains x then acc else acc ++ [x]) acc).Nodup := by
  induction l generalizing acc with
  | nil => exact h
  | cons x xs ih =>
    simp only [List.foldl_cons]
    by_cases hx : acc.contains x
    · rw [if_pos hx]
      exact ih acc h
    · rw [if_neg hx]
      apply ih
      have hnx : x ∉ acc := by simpa using hx
      refine List.Nodup.append h (List.nodup_singleton x) ?_
      intro a ha hax
      simp only [List.mem_singleton] at hax
      exact hnx (hax ▸ ha)

theorem distinct_nodup (l : List String) : (distinct l).Nodup :=
  distinct_aux_nodup l [] List.nodup_nil

theorem distinct_aux_mem (l : List String) :
    ∀ (acc : List String) (a : String),
      a ∈ l.foldl (fun acc x => if acc.contains x then acc else acc ++ [x]) acc →
      a ∈ acc ∨ a ∈ l := by
  induction l with
  | nil =>
    intro acc a h
    exact Or.inl h
  | cons x xs ih =>
    intro acc a h
    simp only [List.foldl_cons] at h
    by_cases hx : acc.contains x
    · rw [if_pos hx] at h
      rcases ih acc a h with h1 | h1
      · exact Or.inl h1
      · exact Or.inr (by simp [h1])
    · rw [if_neg hx] at h
      rcases ih (acc ++ [x]) a h with h1 | h1
      · rcases List.mem_append.mp h1 with h2 | h2
        · exact Or.inl h2
        · simp only [List.mem_singleton] at h2
          exact Or.inr (by simp [h2])
      · exact Or.inr (by simp [h1])

theorem mem_distinct (l : List String) (a : String) (h : a ∈ distinct l) : a ∈ l := by
  rcases distinct_aux_mem l [] a h with h1 | h1
  · cases h1
  · exact h1

theorem matchesX_coerceRange (x : String) : matchesX (coerceRange x) = false := by
  rw [coerceRange]
  by_cases h : matchesX x
  · rw [if_pos h]
    decide
  · rw [if_neg h]
    exact Bool.eq_false_iff.mpr h

theorem expandRanges_shape (S : SemverLib) (ranges : List String)
    (dnfs : List (List (List String)))
    (h : expandRanges S ranges = Except.ok dnfs) :
    ∀ dnf ∈ dnfs, ∃ vr,
      dnf = (splitOnOr vr).map fun part =>
        distinct ((splitWs part).map coerceRange) := by
  induction ranges generalizing dnfs with
  | nil =>
    rw [expandRanges, List.mapM_nil] at h
    cases h
    intro dnf hdnf
    cases hdnf
  | cons r rs ih =>
    rw [expandRanges, List.mapM_cons] at h
    cases hvr : S.validRange r with
    | none =>
      rw [expandRanges] at ih
      simp only [hvr, exc_err_bind] at h
      cases h
    | some vr =>
      simp only [hvr, exc_ok_bind] at h
      cases hrest : rs.mapM (fun range =>
        match S.validRange range with
        | none => Except.error typeErrorMsg
        | some vr =>
          Except.ok ((splitOnOr vr).map fun part =>
            distinct ((splitWs part).map coerceRange))) with
      | error e =>
        rw [hrest] at h
        cases h
      | ok ds =>
        rw [hrest] at h
        simp only [exc_ok_bind] at h
        have hds := ih ds (by rw [expandRanges]; exact hrest)
        cases h
        intro dnf hdnf
        rcases List.mem_cons.mp hdnf with h1 | h1
        · exact ⟨vr, h1⟩
        · exact hds dnf h1

/-- Claim C6: `expandRanges` splits the normalized range on `||` and
whitespace, turns wildcard comparators into `>=0.0.0`, and deduplicates;
hence no conjunction of the returned DNF contains a wildcard comparator or
a repeated comparator string. -/
theorem expandRanges_spec (S : SemverLib) (ranges : List String)
    (dnfs : List (List (List String)))
    (h : expandRanges S ranges = Except.ok dnfs) :
    (coerceRange "x" = ">=0.0.0" ∧ coerceRange "X" = ">=0.0.0" ∧
      coerceRange "*" = ">=0.0.0") ∧
    ∀ dnf ∈ dnfs, ∀ conj ∈ dnf,
      conj.Nodup ∧ ∀ c ∈ conj, matchesX c = false := by
  refine ⟨by decide, ?_⟩
  intro dnf hdnf conj hconj
  obtain ⟨vr, hvr⟩ := expandRanges_shape S ranges dnfs h dnf hdnf
  rw [hvr] at hconj
  obtain ⟨part, _, hpart⟩ := List.mem_map.mp hconj
  constructor
  · rw [← hpart]
    exact distinct_nodup _
  · intro c hc
    rw [← hpart] at hc
    have hmem := mem_distinct _ c hc
    obtain ⟨y, _, hy⟩ := List.mem_map.mp hmem
    rw [← hy]
    exact matchesX_coerceRange y

/-- Witness for C6 on the test-suite's wildcard-and-union input. -/
theorem expandRanges_spec_witness :
    expandRanges semverModel ["1.* || 3.2.*", "*"] =
      Except.ok [[[">=1.0.0", "<2.0.0"], [">=3.2.0", "<3.3.0"]], [[">=0.0.0"]]] ∧
    ([">=1.0.0", "<2.0.0"] : List String).Nodup := by
  have hexp : expandRanges semverModel ["1.* || 3.2.*", "*"] =
      Except.ok [[[">=1.0.0", "<2.0.0"], [">=3.2.0", "<3.3.0"]], [[">=0.0.0"]]] := by
    decide
  refine ⟨hexp, ?_⟩
  exact ((expandRanges_spec semverModel ["1.* || 3.2.*", "*"] _ hexp).2
    [[">=1.0.0", "<2.0.0"], [">=3.2.0", "<3.3.0"]] (by simp)
    [">=1.0.0", "<2.0.0"] (by simp)).1

/-! ## Claim C1: the intersection engine's cross-product folding -/

theorem allPairs_ne_nil {α β : Type} (x : α) (xs : List α) (y : β) (ys : List β) :
    allPairs (x :: xs) (y :: ys) ≠ [] := by
  have key : ∀ (l : List α) (acc : List (α × β)), acc ≠ [] →
      l.foldl (fun acc cur => acc ++ (y :: ys).map (fun w => (cur, w))) acc ≠ [] := by
    intro l
    induction l with
    | nil => intro acc h; exact h
    | cons a as ih =>
      intro acc h
      simp only [List.foldl_cons]
      apply ih
      simp [h]
  rw [allPairs]
  simp only [List.foldl_cons, List.nil_append]
  apply key
  simp

theorem exists_first_err (results : List (Except String Bound))
    (hne : results ≠ []) (hempty : results.filterMap okOpt = []) :
    ∃ e, results.findSome? errOpt = some e := by
  cases results with
  | nil => exact absurd rfl hne
  | cons r rs =>
    cases r with
    | ok b =>
      rw [List.filterMap_cons] at hempty
      simp [okOpt] at hempty
    | error e =>
      refine ⟨e, ?_⟩
      rw [List.findSome?_cons]
      rfl

/-- Claim C1: `intersect` seeds its running union with one empty bound
pair; each (bound pair, conjunction) pair is folded with failures caught
locally, a step fails exactly when zero pairs survive, and the raised
error is the first captured per-branch error of that step. -/
theorem intersect_engine_spec (S : SemverLib) (bu : List Bound)
    (ru : List (List String)) (hbu : bu ≠ []) (hru : ru ≠ []) :
    (∀ l, intersectStep S bu ru = Except.ok l ↔
      (((allPairs bu ru).map (branchFold S)).filterMap okOpt ≠ [] ∧
        l = ((allPairs bu ru).map (branchFold S)).filterMap okOpt)) ∧
    (∀ e, intersectStep S bu ru = Except.error e ↔
      (((allPairs bu ru).map (branchFold S)).filterMap okOpt = [] ∧
        ((allPairs bu ru).map (branchFold S)).findSome? errOpt = some e)) ∧
    (∀ ranges dnfs, expandRanges S ranges = Except.ok dnfs →
      intersect S ranges =
        (dnfs.foldlM (intersectStep S) [⟨"", ""⟩] >>= fun resultUnion =>
          (resultUnion.mapM fun b =>
            match formatBranch b with
            | some s => Except.ok s
            | none => Except.error invalidVersionMsg) >>= fun parts =>
          Except.ok (String.intercalate " || " parts))) := by
  have hresne : (allPairs bu ru).map (branchFold S) ≠ [] := by
    cases bu with
    | nil => exact absurd rfl hbu
    | cons x xs =>
      cases ru with
      | nil => exact absurd rfl hru
      | cons y ys =>
        intro hcontr
        exact allPairs_ne_nil x xs y ys (List.map_eq_nil_iff.mp hcontr)
  refine ⟨?_, ?_, ?_⟩
  · intro l
    rw [intersectStep]
    cases hf : ((allPairs bu ru).map (branchFold S)).filterMap okOpt with
    | nil =>
      obtain ⟨e0, he0⟩ := exists_first_err _ hresne hf
      rw [he0]
      simp
    | cons b bs =>
      show Except.ok (b :: bs) = Except.ok l ↔ (b :: bs ≠ [] ∧ l = b :: bs)
      simp [eq_comm]
  · intro e
    rw [intersectStep]
    cases hf : ((allPairs bu ru).map (branchFold S)).filterMap okOpt with
    | nil =>
      obtain ⟨e0, he0⟩ := exists_first_err _ hresne hf
      rw [he0]
      constructor
      · intro h
        have h2 : Except.error (α := List Bound) e0 = Except.error e := h
        injection h2 with h3
        exact ⟨rfl, by rw [h3]⟩
      · intro h
        injection h.2 with h3
        show Except.error (α := List Bound) e0 = Except.error e
        rw [h3]
    | cons b bs =>
      constructor
      · intro h
        exact absurd (show Except.ok (b :: bs) = Except.error e from h) (by simp)
      · intro h
        exact absurd h.1 (by simp)
  · intro ranges dnfs h
    rw [intersect, h]
    rfl

/-- Witness for C1: one surviving pair and one locally-caught failure. -/
theorem intersect_engine_spec_witness :
    intersectStep semverModel [⟨"", ""⟩] [[">=1.0.0"], [">=3.0.0", "<2.0.0"]] =
      Except.ok [⟨">=1.0.0", ""⟩] := by
  have h := (intersect_engine_spec semverModel [⟨"", ""⟩]
    [[">=1.0.0"], [">=3.0.0", "<2.0.0"]] (by decide) (by decide)).1 [⟨">=1.0.0", ""⟩]
  exact h.mpr ⟨by decide, by decide⟩

/-! ## Soundness of the `minMax` regex scanner -/

theorem dropWhile_head_not {p : Char → Bool} {l : List Char} {a : Char} {t : List Char}
    (h : l.dropWhile p = a :: t) : p a = false := by
  have h2 := List.head?_dropWhile_not p l
  rw [h] at h2
  exact h2

theorem matchCore_sound {cs core rest : List Char}
    (h : matchCore cs = some (core, rest)) :
    cs = core ++ rest ∧
    (∃ c t, core = c :: t ∧ c.isDigit = true) ∧
    (∀ c ∈ core, c.isDigit = true ∨ c = '.') ∧
    (∀ a t, rest = a :: t → a.isDigit = false) := by
  simp only [matchCore] at h
  split at h
  case h_1 => exact absurd h (by simp)
  case h_3 => exact absurd h (by simp)
  case h_2 x1 t1 r2 e1 e2 =>
    split at h
    case h_1 => exact absurd h (by simp)
    case h_3 => exact absurd h (by simp)
    case h_2 x2 t2 r4 e3 e4 =>
      split at h
      case h_1 => exact absurd h (by simp)
      case h_2 x3 t3 e5 =>
        rw [Option.some_inj, Prod.mk.injEq] at h
        obtain ⟨hcore, hrest⟩ := h
        subst hcore
        subst hrest
        refine ⟨?_, ?_, ?_, ?_⟩
        · calc cs
              = List.takeWhile Char.isDigit cs ++ List.dropWhile Char.isDigit cs :=
                (List.takeWhile_append_dropWhile _ _).symm
            _ = List.takeWhile Char.isDigit cs ++ ('.' :: r2) := by rw [e2]
            _ = List.takeWhile Char.isDigit cs ++
                  ('.' :: (List.takeWhile Char.isDigit r2 ++ List.dropWhile Char.isDigit r2)) := by
                rw [List.takeWhile_append_dropWhile]
            _ = List.takeWhile Char.isDigit cs ++
                  ('.' :: (List.takeWhile Char.isDigit r2 ++ ('.' :: r4))) := by rw [e4]
            _ = List.takeWhile Char.isDigit cs ++
                  ('.' :: (List.takeWhile Char.isDigit r2 ++
                    ('.' :: (List.takeWhile Char.isDigit r4 ++ List.dropWhile Char.isDigit r4)))) := by
                rw [List.takeWhile_append_dropWhile]
            _ = (List.takeWhile Char.isDigit cs ++
                  '.' :: (List.takeWhile Char.isDigit r2 ++ '.' :: List.takeWhile Char.isDigit r4)) ++
                  List.dropWhile Char.isDigit r4 := by
                simp [List.append_assoc]
        · refine ⟨x1, t1 ++ '.' :: (List.takeWhile Char.isDigit r2 ++
            '.' :: List.takeWhile Char.isDigit r4), ?_, ?_⟩
          · rw [e1]
            rfl
          · have hx1 : x1 ∈ List.takeWhile Char.isDigit cs := by
              rw [e1]
              simp
            exact List.mem_takeWhile_imp hx1
        · intro c hc
          rcases List.mem_append.mp hc with h1 | h1
          · exact Or.inl (List.mem_takeWhile_imp h1)
          · rcases List.mem_cons.mp h1 with h2 | h2
            · exact Or.inr h2
            · rcases List.mem_append.mp h2 with h3 | h3
              · exact Or.inl (List.mem_takeWhile_imp h3)
              · rcases List.mem_cons.mp h3 with h4 | h4
                · exact Or.inr h4
                · exact Or.inl (List.mem_takeWhile_imp h4)
        · intro a t hrest
          exact dropWhile_head_not hrest

theorem matchVer_sound {cs v rest : List Char}
    (h : matchVer cs = some (v, rest)) :
    cs = v ++ rest ∧
    (∃ c t, v = c :: t ∧ c.isDigit = true) ∧
    (∀ c ∈ v, c.isDigit = true ∨ c = '.' ∨ c = '-' ∨ isWordDot c = true) := by
  simp only [matchVer] at h
  split at h
  · exact absurd h (by simp)
  · rename_i copt core rest0 hcore
    split at h
    · -- prerelease branch: `rest0 = '-' :: r6`
      rename_i rest2 r6
      obtain ⟨hcs, hhead, hchars, _⟩ := matchCore_sound hcore
      split at h
      · exact absurd h (by simp)
      · rename_i taken p0 t0 e5
        rw [Option.some_inj, Prod.mk.injEq] at h
        obtain ⟨hv, hrest⟩ := h
        subst hv
        subst hrest
        refine ⟨?_, ?_, ?_⟩
        · calc cs
              = core ++ ('-' :: r6) := hcs
            _ = core ++ ('-' :: (List.takeWhile isWordDot r6 ++ List.dropWhile isWordDot r6)) := by
                rw [List.takeWhile_append_dropWhile]
            _ = (core ++ '-' :: List.takeWhile isWordDot r6) ++ List.dropWhile isWordDot r6 := by
                simp [List.append_assoc]
        · obtain ⟨c, t, hct, hd⟩ := hhead
          exact ⟨c, t ++ '-' :: List.takeWhile isWordDot r6, by rw [hct]; rfl, hd⟩
        · intro c hc
          rcases List.mem_append.mp hc with h1 | h1
          · rcases hchars c h1 with h2 | h2
            · exact Or.inl h2
            · exact Or.inr (Or.inl h2)
          · rcases List.mem_cons.mp h1 with h2 | h2
            · exact Or.inr (Or.inr (Or.inl h2))
            · exact Or.inr (Or.inr (Or.inr (List.mem_takeWhile_imp h2)))
    · -- no prerelease: `rest0` does not start with a dash
      obtain ⟨hcs, hhead, hchars, _⟩ := matchCore_sound hcore
      rw [Option.some_inj, Prod.mk.injEq] at h
      obtain ⟨hv, hrest⟩ := h
      subst hv
      subst hrest
      refine ⟨hcs, hhead, ?_⟩
      intro c hc
      rcases hchars c hc with h1 | h1
      · exact Or.inl h1
      · exact Or.inr (Or.inl h1)

theorem minMaxExec_sound {cs mn mx : List Char}
    (h : minMaxExecL cs = some (mn, mx)) :
    ∃ incl : Bool,
      cs = '>' :: '=' :: (mn ++ ' ' :: '<' :: (if incl then '=' :: mx else mx)) ∧
      (∃ c t, mn = c :: t ∧ c.isDigit = true) ∧
      (∀ c ∈ mn, c.isDigit = true ∨ c = '.' ∨ c = '-' ∨ isWordDot c = true) ∧
      (∃ c t, mx = c :: t ∧ c.isDigit = true) ∧
      (∀ c ∈ mx, c.isDigit = true ∨ c = '.') := by
  simp only [minMaxExecL] at h
  split at h
  · -- `cs = '>' :: '=' :: r`
    rename_i csdead r
    split at h
    · exact absurd h (by simp)
    · rename_i vopt mn0 rest0 hmver
      split at h
      · -- inclusive bound: `rest0 = ' ' :: '<' :: '=' :: r3`
        rename_i restdead r3
        obtain ⟨hr, hmnhead, hmnchars⟩ := matchVer_sound hmver
        split at h
        · rename_i copt mx0 hmcore
          rw [Option.some_inj, Prod.mk.injEq] at h
          obtain ⟨hmn, hmx⟩ := h
          subst hmn
          subst hmx
          obtain ⟨hr3, hmxhead, hmxchars, _⟩ := matchCore_sound hmcore
          rw [List.append_nil] at hr3
          refine ⟨true, ?_, hmnhead, hmnchars, hmxhead, hmxchars⟩
          rw [if_pos rfl, hr, hr3]
        · exact absurd h (by simp)
      · -- strict bound: `rest0 = ' ' :: '<' :: r3`, `r3` not starting `'='`
        rename_i restdead r3 hnoteq
        obtain ⟨hr, hmnhead, hmnchars⟩ := matchVer_sound hmver
        split at h
        · rename_i copt mx0 hmcore
          rw [Option.some_inj, Prod.mk.injEq] at h
          obtain ⟨hmn, hmx⟩ := h
          subst hmn
          subst hmx
          obtain ⟨hr3, hmxhead, hmxchars, _⟩ := matchCore_sound hmcore
          rw [List.append_nil] at hr3
          refine ⟨false, ?_, hmnhead, hmnchars, hmxhead, hmxchars⟩
          rw [if_neg (by simp), hr, hr3]
        · exact absurd h (by simp)
      · exact absurd h (by simp)
  · exact absurd h (by simp)

/-! ## Claim C9: `createShorthand` is idempotent on its own output -/

theorem strData_append (a b : String) : (a ++ b).data = a.data ++ b.data := rfl

theorem minMaxExecL_head_ne (c : Char) (t : List Char) (hc : c ≠ '>') :
    minMaxExecL (c :: t) = none := by
  simp only [minMaxExecL]
  split
  · rename_i r heq
    injection heq with h1 _
    exact absurd h1 hc
  · rfl

theorem createShorthand_of_head (y : String) (c : Char) (t : List Char)
    (hy : y.data = c :: t) (hc : c ≠ '>') : createShorthand y = some y := by
  simp only [createShorthand, hy, minMaxExecL_head_ne c t hc]

/-- Claim C9: applying `createShorthand` to any of its own outputs leaves
the output unchanged. -/
theorem createShorthand_idem (x y : String) (h : createShorthand x = some y) :
    createShorthand y = some y := by
  rw [createShorthand] at h
  cases hm : minMaxExecL x.data with
  | none =>
    simp only [hm, Option.some_inj] at h
    subst h
    simp only [createShorthand, hm]
  | some p =>
    obtain ⟨mnL, mxL⟩ := p
    simp only [hm] at h
    obtain ⟨incl, hcs, ⟨c, t, hmn, hcd⟩, _, ⟨c2, t2, hmx, hcd2⟩, _⟩ := minMaxExec_sound hm
    have hcne : c ≠ '>' := by
      intro hcontr
      rw [hcontr] at hcd
      exact absurd hcd (by decide)
    by_cases h1 : (⟨mnL⟩ : String) = ⟨mxL⟩
    · rw [if_pos h1, Option.some_inj] at h
      subst h
      exact createShorthand_of_head _ c t hmn hcne
    · rw [if_neg h1] at h
      by_cases h2 : strIncludes x "<=" = true
      · rw [if_pos h2, Option.some_inj] at h
        subst h
        refine createShorthand_of_head _ c ((t ++ (" - ").data) ++ mxL) ?_ hcne
        rw [strData_append, strData_append]
        show (mnL ++ (" - ").data) ++ mxL = c :: ((t ++ (" - ").data) ++ mxL)
        rw [hmn]
        rfl
      · rw [if_neg h2] at h
        cases hp1 : parseSemVer ⟨mnL⟩ with
        | none =>
          simp only [hp1] at h
          cases h
        | some vmn =>
          simp only [hp1] at h
          have hcaret : createShorthand ("^" ++ (⟨mnL⟩ : String)) =
              some ("^" ++ (⟨mnL⟩ : String)) := by
            refine createShorthand_of_head _ '^' mnL ?_ (by decide)
            rw [strData_append]
            rfl
          have htilde : createShorthand ("~" ++ (⟨mnL⟩ : String)) =
              some ("~" ++ (⟨mnL⟩ : String)) := by
            refine createShorthand_of_head _ '~' mnL ?_ (by decide)
            rw [strData_append]
            rfl
          by_cases hz : vmn.major = 0
          · rw [if_pos hz] at h
            cases hp2 : parseSemVer ⟨mxL⟩ with
            | none =>
              simp only [hp2] at h
              cases h
            | some vmx =>
              simp only [hp2] at h
              by_cases hz2 : vmx.major = 0
              · rw [if_pos hz2] at h
                by_cases hm1 : vmn.minor = 0
                · rw [if_pos hm1] at h
                  by_cases hm2 : vmx.minor = 0
                  · rw [if_pos hm2, Option.some_inj] at h
                    subst h
                    exact hcaret
                  · rw [if_neg hm2, Option.some_inj] at h
                    subst h
                    exact htilde
                · rw [if_neg hm1, Option.some_inj] at h
                  subst h
                  exact hcaret
              · rw [if_neg hz2, Option.some_inj] at h
                subst h
                exact createShorthand_of_head _ '0' [] rfl (by decide)
          · rw [if_neg hz] at h
            cases hp2 : parseSemVer ⟨mxL⟩ with
            | none =>
              simp only [hp2] at h
              cases h
            | some vmx =>
              simp only [hp2] at h
              by_cases hne : vmn.major ≠ vmx.major
              · rw [if_pos hne, Option.some_inj] at h
                subst h
                exact hcaret
              · rw [if_neg hne, Option.some_inj] at h
                subst h
                exact htilde

/-- Witness for C9 at a caret-shorthand output. -/
theorem createShorthand_idem_witness :
    createShorthand ">=4.0.0 <5.0.0" = some "^4.0.0" ∧
    createShorthand "^4.0.0" = some "^4.0.0" := by
  have h : createShorthand ">=4.0.0 <5.0.0" = some "^4.0.0" := by decide
  exact ⟨h, createShorthand_idem ">=4.0.0 <5.0.0" "^4.0.0" h⟩

/-! ## Claim C7: `parseRange` extraction (part_001 variant) -/

theorem versionShape_nil : versionShape [] = false := by decide

theorem versionExecL_spec (cs : List Char) (v : List Char)
    (h : versionExecL cs = some v) :
    (∃ p, cs = p ++ v) ∧ versionShape v = true ∧
    ∀ t, (∃ p, cs = p ++ t) → versionShape t = true → t.length ≤ v.length := by
  induction cs with
  | nil =>
    rw [versionExecL] at h
    simp [versionShape_nil] at h
  | cons c rest ih =>
    rw [versionExecL, List.tails_cons] at h
    by_cases hs : versionShape (c :: rest) = true
    · rw [List.find?_cons_of_pos _ hs, Option.some_inj] at h
      subst h
      refine ⟨⟨[], rfl⟩, hs, ?_⟩
      intro t ⟨p, hp⟩ _
      have hlen : (c :: rest).length = p.length + t.length := by
        rw [hp, List.length_append]
      simp only [List.length_cons] at hlen ⊢
      omega
    · rw [List.find?_cons_of_neg _ hs] at h
      obtain ⟨⟨p, hp⟩, hshape, hmax⟩ := ih h
      refine ⟨⟨c :: p, by rw [hp]; rfl⟩, hshape, ?_⟩
      intro t ⟨p', hp'⟩ ht
      cases p' with
      | nil =>
        simp only [List.nil_append] at hp'
        rw [← hp'] at ht
        exact absurd ht hs
      | cons a p'' =>
        rw [List.cons_append] at hp'
        injection hp' with _ h2
        exact hmax t ⟨p'', h2⟩ ht

theorem takeWhile_all_eq_self {p : Char → Bool} {l : List Char}
    (h : ∀ c ∈ l, p c = true) : l.takeWhile p = l := by
  rw [← List.append_nil l, List.takeWhile_append_of_pos h]
  simp

theorem execPrerelease_split (L D : List Char) (hL : L ≠ []) (hD : D ≠ [])
    (hLc : ∀ ch ∈ L, ch.isDigit = false) (hDc : ∀ ch ∈ D, ch.isDigit = true) :
    execPrerelease (L ++ D) = some (L, some D) := by
  cases L with
  | nil => exact absurd rfl hL
  | cons c L' =>
    cases D with
    | nil => exact absurd rfl hD
    | cons d D' =>
      have hc : c.isDigit = false := hLc c (by simp)
      have hLc' : ∀ ch ∈ c :: L', (!ch.isDigit) = true := by
        intro ch hch
        rw [hLc ch hch]
        rfl
      have hd : d.isDigit = true := hDc d (by simp)
      have htake : ((c :: L') ++ d :: D').takeWhile (fun ch => !ch.isDigit) = c :: L' := by
        rw [List.takeWhile_append_of_pos hLc', List.takeWhile_cons]
        simp [hd]
      have hdrop : ((c :: L') ++ d :: D').dropWhile (fun ch => !ch.isDigit) = d :: D' := by
        rw [List.dropWhile_append_of_pos hLc', List.dropWhile_cons]
        simp [hd]
      have hdig : (d :: D').takeWhile Char.isDigit = d :: D' :=
        takeWhile_all_eq_self hDc
      rw [List.cons_append]
      show execPrerelease (c :: (L' ++ d :: D')) = some (c :: L', some (d :: D'))
      rw [execPrerelease]
      rw [if_neg (by rw [hc]; exact Bool.false_ne_true)]
      rw [← List.cons_append, htake, hdrop]
      simp [hdig]

/-- Claim C7: part_001's `parseRange` returns the longest leading run of
`<`, `=`, `>` as the condition (defaulting to `=`), the longest trailing
substring of version shape as the version, and normalizes a single
dotless alphanumeric prerelease tag `LD` (letters then digits) into
`[L, D]`, the same value the dotted form `L.D` produces. -/
theorem parseRangeFull_spec (s : String) (r : FullRange)
    (hparse : parseRangeFull s = some r) :
    ((∀ a t, s.data = a :: t → isCondChar a = false) → r.condition = "=") ∧
    (∀ a t, s.data = a :: t → isCondChar a = true →
      ∃ rest, s.data = r.condition.data ++ rest ∧
        r.condition.data ≠ [] ∧
        (∀ ch ∈ r.condition.data, isCondChar ch = true) ∧
        (∀ b u, rest = b :: u → isCondChar b = false)) ∧
    ((∃ p, s.data = p ++ r.version.data) ∧ versionShape r.version.data = true ∧
      ∀ t, (∃ p, s.data = p ++ t) → versionShape t = true →
        t.length ≤ r.version.data.length) ∧
    (∀ sv : SemV, parseSemVer r.version = some sv →
      (∀ L D, sv.pre = [PreId.alnum (L ++ D)] → L ≠ [] → D ≠ [] →
        (∀ ch ∈ L, ch.isDigit = false) → (∀ ch ∈ D, ch.isDigit = true) →
        r.prerelease = some [some (⟨L⟩ : String), some (⟨D⟩ : String)]) ∧
      (∀ L n, sv.pre = [PreId.alnum L, PreId.num n] →
        r.prerelease =
          some [some (⟨L⟩ : String), some (⟨(Nat.repr n).data⟩ : String)])) := by
  cases hv : versionExec s with
  | none =>
    simp only [parseRangeFull, hv] at hparse
    exact absurd hparse (by simp)
  | some v =>
    simp only [parseRangeFull, hv] at hparse
    cases hsv : parseSemVer v with
    | none =>
      simp only [hsv] at hparse
      exact absurd hparse (by simp)
    | some sv0 =>
      simp only [hsv] at hparse
      have hcond : r.condition = condOf s := by
        by_cases hemp : sv0.pre.isEmpty = true
        · rw [if_pos hemp, Option.some_inj] at hparse
          rw [← hparse]
        · rw [if_neg hemp] at hparse
          cases hpre : sv0.pre with
          | nil => rw [hpre] at hemp; exact absurd rfl hemp
          | cons i ids =>
            cases ids with
            | nil =>
              simp only [hpre] at hparse
              cases hexec : execPrerelease (renderIdL i) with
              | none =>
                rw [hexec] at hparse
                exact absurd hparse (by simp)
              | some q =>
                obtain ⟨letters, digitsOpt⟩ := q
                rw [hexec] at hparse
                simp only [Option.some_inj] at hparse
                rw [← hparse]
            | cons j ids' =>
              simp only [hpre] at hparse
              simp only [Option.some_inj] at hparse
              rw [← hparse]
      have hver : r.version = v := by
        by_cases hemp : sv0.pre.isEmpty = true
        · rw [if_pos hemp, Option.some_inj] at hparse
          rw [← hparse]
        · rw [if_neg hemp] at hparse
          cases hpre : sv0.pre with
          | nil => rw [hpre] at hemp; exact absurd rfl hemp
          | cons i ids =>
            cases ids with
            | nil =>
              simp only [hpre] at hparse
              cases hexec : execPrerelease (renderIdL i) with
              | none =>
                rw [hexec] at hparse
                exact absurd hparse (by simp)
              | some q =>
                obtain ⟨letters, digitsOpt⟩ := q
                rw [hexec] at hparse
                simp only [Option.some_inj] at hparse
                rw [← hparse]
            | cons j ids' =>
              simp only [hpre] at hparse
              simp only [Option.some_inj] at hparse
              rw [← hparse]
      have hvexec : versionExecL s.data = some v.data := by
        rw [versionExec] at hv
        cases hvl : versionExecL s.data with
        | none => rw [hvl] at hv; cases hv
        | some w =>
          rw [hvl, Option.map_some'] at hv
          rw [Option.some_inj] at hv
          rw [← hv]
      refine ⟨?_, ?_, ?_, ?_⟩
      · intro hnostart
        rw [hcond]
        simp only [condOf]
        cases hsd : s.data with
        | nil => simp
        | cons a t =>
          rw [List.takeWhile_cons, hnostart a t hsd]
          simp
      · intro a t hsd hacond
        have htw : s.data.takeWhile isCondChar = a :: (t.takeWhile isCondChar) := by
          rw [hsd, List.takeWhile_cons, hacond]
          simp
        rw [hcond]
        simp only [condOf, htw]
        refine ⟨s.data.dropWhile isCondChar, ?_, by simp, ?_, ?_⟩
        · show s.data = (a :: t.takeWhile isCondChar) ++ s.data.dropWhile isCondChar
          rw [← htw]
          exact (List.takeWhile_append_dropWhile _ _).symm
        · intro ch hch
          have hch2 : ch ∈ a :: t.takeWhile isCondChar := hch
          rw [← htw] at hch2
          exact List.mem_takeWhile_imp hch2
        · intro b u hbu
          exact dropWhile_head_not hbu
      · rw [hver]
        exact versionExecL_spec s.data v.data hvexec
      · intro sv hsv2
        rw [hver] at hsv2
        rw [hsv2] at hsv
        rw [Option.some_inj] at hsv
        subst hsv
        constructor
        · intro L D hpre hL hD hLc hDc
          have hemp : sv.pre.isEmpty = false := by
            rw [hpre]
            rfl
          rw [if_neg (by rw [hemp]; exact Bool.false_ne_true)] at hparse
          simp only [hpre, renderIdL] at hparse
          rw [execPrerelease_split L D hL hD hLc hDc] at hparse
          simp only [Option.map_some', Option.some_inj] at hparse
          rw [← hparse]
        · intro L n hpre
          have hemp : sv.pre.isEmpty = false := by
            rw [hpre]
            rfl
          rw [if_neg (by rw [hemp]; exact Bool.false_ne_true)] at hparse
          simp only [hpre, List.map_cons, List.map_nil, renderIdL, Option.some_inj] at hparse
          rw [← hparse]

/-- Witness for C7: `>=0.14.0-beta2` parses with condition `>=`, version
`0.14.0-beta2`, and prerelease normalized to `["beta", "2"]`. -/
theorem parseRangeFull_spec_witness :
    parseRangeFull ">=0.14.0-beta2" =
      some ⟨">=", 0, 14, 0,
        some [some "beta", some "2"], "0.14.0-beta2"⟩ ∧
    parseSemVer "0.14.0-beta2" =
      some ⟨0, 14, 0, [PreId.alnum ['b', 'e', 't', 'a', '2']]⟩ ∧
    (⟨">=", 0, 14, 0, some [some "beta", some "2"], "0.14.0-beta2"⟩ :
      FullRange).prerelease = some [some "beta", some "2"] := by
  refine ⟨by decide, by decide, ?_⟩
  have h := (parseRangeFull_spec ">=0.14.0-beta2"
    ⟨">=", 0, 14, 0, some [some "beta", some "2"], "0.14.0-beta2"⟩
    (by decide)).2.2.2 ⟨0, 14, 0, [PreId.alnum ['b', 'e', 't', 'a', '2']]⟩ (by decide)
  have h2 := h.1 ['b', 'e', 't', 'a'] ['2'] (by decide) (by decide) (by decide)
    (by decide) (by decide)
  exact h2

/-! ## Claim C3: the full `createShorthand` case analysis

The scanner lemmas below characterize exactly which strings the `minMax`
regex matches (soundness with explicit decomposition, and completeness by
computing the scanner on a decomposed string). -/

theorem matchCore_decomp {cs core rest : List Char}
    (h : matchCore cs = some (core, rest)) :
    ∃ d1 d2 d3,
      core = d1 ++ '.' :: (d2 ++ '.' :: d3) ∧ cs = core ++ rest ∧
      d1 ≠ [] ∧ d2 ≠ [] ∧ d3 ≠ [] ∧
      (∀ c ∈ d1, c.isDigit = true) ∧ (∀ c ∈ d2, c.isDigit = true) ∧
      (∀ c ∈ d3, c.isDigit = true) ∧
      (∀ a t, rest = a :: t → a.isDigit = false) := by
  simp only [matchCore] at h
  split at h
  case h_1 => exact absurd h (by simp)
  case h_3 => exact absurd h (by simp)
  case h_2 x1 t1 r2 e1 e2 =>
    split at h
    case h_1 => exact absurd h (by simp)
    case h_3 => exact absurd h (by simp)
    case h_2 x2 t2 r4 e3 e4 =>
      split at h
      case h_1 => exact absurd h (by simp)
      case h_2 x3 t3 e5 =>
        rw [Option.some_inj, Prod.mk.injEq] at h
        obtain ⟨hcore, hrest⟩ := h
        subst hcore
        subst hrest
        refine ⟨List.takeWhile Char.isDigit cs, List.takeWhile Char.isDigit r2,
          List.takeWhile Char.isDigit r4, rfl, ?_, ?_, ?_, ?_, ?_, ?_, ?_, ?_⟩
        · calc cs
              = List.takeWhile Char.isDigit cs ++ List.dropWhile Char.isDigit cs :=
                (List.takeWhile_append_dropWhile _ _).symm
            _ = List.takeWhile Char.isDigit cs ++ ('.' :: r2) := by rw [e2]
            _ = List.takeWhile Char.isDigit cs ++
                  ('.' :: (List.takeWhile Char.isDigit r2 ++ List.dropWhile Char.isDigit r2)) := by
                rw [List.takeWhile_append_dropWhile]
            _ = List.takeWhile Char.isDigit cs ++
                  ('.' :: (List.takeWhile Char.isDigit r2 ++ ('.' :: r4))) := by rw [e4]
            _ = List.takeWhile Char.isDigit cs ++
                  ('.' :: (List.takeWhile Char.isDigit r2 ++
                    ('.' :: (List.takeWhile Char.isDigit r4 ++ List.dropWhile Char.isDigit r4)))) := by
                rw [List.takeWhile_append_dropWhile]
            _ = (List.takeWhile Char.isDigit cs ++
                  '.' :: (List.takeWhile Char.isDigit r2 ++ '.' :: List.takeWhile Char.isDigit r4)) ++
                  List.dropWhile Char.isDigit r4 := by
                simp [List.append_assoc]
        · rw [e1]
          simp
        · rw [e3]
          simp
        · rw [e5]
          simp
        · intro c hc
          exact List.mem_takeWhile_imp hc
        · intro c hc
          exact List.mem_takeWhile_imp hc
        · intro c hc
          exact List.mem_takeWhile_imp hc
        · intro a t hrest
          exact dropWhile_head_not hrest

theorem matchCore_build (d1 d2 d3 rest : List Char)
    (h1 : d1 ≠ []) (h2 : d2 ≠ []) (h3 : d3 ≠ [])
    (hd1 : ∀ c ∈ d1, c.isDigit = true) (hd2 : ∀ c ∈ d2, c.isDigit = true)
    (hd3 : ∀ c ∈ d3, c.isDigit = true)
    (hrest : ∀ a t, rest = a :: t → a.isDigit = false) :
    matchCore ((d1 ++ '.' :: (d2 ++ '.' :: d3)) ++ rest) =
      some (d1 ++ '.' :: (d2 ++ '.' :: d3), rest) := by
  have hdot : Char.isDigit '.' = false := by decide
  have resttake : rest.takeWhile Char.isDigit = [] := by
    cases hr : rest with
    | nil => simp
    | cons a t =>
      rw [List.takeWhile_cons, hrest a t hr]
      simp
  have restdrop : rest.dropWhile Char.isDigit = rest := by
    cases hr : rest with
    | nil => simp
    | cons a t =>
      rw [List.dropWhile_cons, hrest a t hr]
      simp
  have harr : (d1 ++ '.' :: (d2 ++ '.' :: d3)) ++ rest
      = d1 ++ '.' :: (d2 ++ '.' :: (d3 ++ rest)) := by
    simp [List.append_assoc]
  have htake1 : (d1 ++ '.' :: (d2 ++ '.' :: (d3 ++ rest))).takeWhile Char.isDigit = d1 := by
    rw [List.takeWhile_append_of_pos hd1, List.takeWhile_cons, hdot]
    simp
  have hdrop1 : (d1 ++ '.' :: (d2 ++ '.' :: (d3 ++ rest))).dropWhile Char.isDigit
      = '.' :: (d2 ++ '.' :: (d3 ++ rest)) := by
    rw [List.dropWhile_append_of_pos hd1, List.dropWhile_cons, hdot]
    simp
  have htake2 : (d2 ++ '.' :: (d3 ++ rest)).takeWhile Char.isDigit = d2 := by
    rw [List.takeWhile_append_of_pos hd2, List.takeWhile_cons, hdot]
    simp
  have hdrop2 : (d2 ++ '.' :: (d3 ++ rest)).dropWhile Char.isDigit = '.' :: (d3 ++ rest) := by
    rw [List.dropWhile_append_of_pos hd2, List.dropWhile_cons, hdot]
    simp
  have htake3 : (d3 ++ rest).takeWhile Char.isDigit = d3 := by
    rw [List.takeWhile_append_of_pos hd3, resttake]
    simp
  have hdrop3 : (d3 ++ rest).dropWhile Char.isDigit = rest := by
    rw [List.dropWhile_append_of_pos hd3, restdrop]
  rw [harr]
  obtain ⟨c1, t1, rfl⟩ : ∃ c t, d1 = c :: t := by
    cases d1 with
    | nil => exact absurd rfl h1
    | cons c t => exact ⟨c, t, rfl⟩
  obtain ⟨c2, t2, rfl⟩ : ∃ c t, d2 = c :: t := by
    cases d2 with
    | nil => exact absurd rfl h2
    | cons c t => exact ⟨c, t, rfl⟩
  obtain ⟨c3, t3, rfl⟩ : ∃ c t, d3 = c :: t := by
    cases d3 with
    | nil => exact absurd rfl h3
    | cons c t => exact ⟨c, t, rfl⟩
  simp only [matchCore, htake1, hdrop1, htake2, hdrop2, htake3, hdrop3]

theorem matchVer_cases {cs v rest : List Char}
    (h : matchVer cs = some (v, rest)) :
    matchCore cs = some (v, rest) ∨
    ∃ core r6, matchCore cs = some (core, '-' :: r6) ∧
      v = core ++ '-' :: r6.takeWhile isWordDot ∧
      r6.takeWhile isWordDot ≠ [] ∧ rest = r6.dropWhile isWordDot := by
  simp only [matchVer] at h
  split at h
  · exact absurd h (by simp)
  · rename_i copt core rest0 hcore
    split at h
    · rename_i rest2 r6
      split at h
      · exact absurd h (by simp)
      · rename_i taken p0 t0 e5
        rw [Option.some_inj, Prod.mk.injEq] at h
        obtain ⟨hv, hrest⟩ := h
        refine Or.inr ⟨core, r6, hcore, hv.symm, ?_, hrest.symm⟩
        rw [e5]
        simp
    · rw [Option.some_inj, Prod.mk.injEq] at h
      obtain ⟨hv, hrest⟩ := h
      subst hv
      subst hrest
      exact Or.inl hcore

theorem matchVer_build_nopre (core rest : List Char)
    (hc : matchCore (core ++ rest) = some (core, rest))
    (hnd : ∀ r6, rest ≠ '-' :: r6) :
    matchVer (core ++ rest) = some (core, rest) := by
  cases hr : rest with
  | nil =>
    rw [hr] at hc
    simp only [matchVer, hc]
  | cons a t =>
    have ha : a ≠ '-' := by
      intro hcontr
      exact hnd t (by rw [hr, hcontr])
    rw [hr] at hc
    simp only [matchVer, hc]
    split
    · rename_i r6 heq
      injection heq with h1 _
      exact absurd h1 ha
    · rfl

theorem matchVer_build_pre (core p rest : List Char)
    (hc : matchCore (core ++ '-' :: (p ++ rest)) = some (core, '-' :: (p ++ rest)))
    (hp : p ≠ []) (hpw : ∀ c ∈ p, isWordDot c = true)
    (hrest : ∀ a t, rest = a :: t → isWordDot a = false) :
    matchVer (core ++ '-' :: (p ++ rest)) = some (core ++ '-' :: p, rest) := by
  have resttake : rest.takeWhile isWordDot = [] := by
    cases hr : rest with
    | nil => simp
    | cons a t =>
      rw [List.takeWhile_cons, hrest a t hr]
      simp
  have restdrop : rest.dropWhile isWordDot = rest := by
    cases hr : rest with
    | nil => simp
    | cons a t =>
      rw [List.dropWhile_cons, hrest a t hr]
      simp
  have htake : (p ++ rest).takeWhile isWordDot = p := by
    rw [List.takeWhile_append_of_pos hpw, resttake]
    simp
  have hdrop : (p ++ rest).dropWhile isWordDot = rest := by
    rw [List.dropWhile_append_of_pos hpw, restdrop]
  obtain ⟨cp, tp, rfl⟩ : ∃ c t, p = c :: t := by
    cases p with
    | nil => exact absurd rfl hp
    | cons c t => exact ⟨c, t, rfl⟩
  simp only [matchVer, hc, htake, hdrop]

theorem versionShape_eq {cs : List Char} :
    versionShape cs = true ↔ matchVer cs = some (cs, []) := by
  constructor
  · intro h
    cases hm : matchVer cs with
    | none =>
      rw [versionShape, hm] at h
      cases h
    | some p =>
      obtain ⟨v, rest⟩ := p
      rw [versionShape, hm] at h
      cases rest with
      | nil =>
        obtain ⟨hcs, _, _⟩ := matchVer_sound hm
        rw [List.append_nil] at hcs
        rw [hcs]
      | cons a t =>
        exact absurd h (by simp)
  · intro h
    rw [versionShape, h]

theorem coreShape_eq {cs : List Char} :
    coreShape cs = true ↔ matchCore cs = some (cs, []) := by
  constructor
  · intro h
    cases hm : matchCore cs with
    | none =>
      rw [coreShape, hm] at h
      cases h
    | some p =>
      obtain ⟨v, rest⟩ := p
      rw [coreShape, hm] at h
      cases rest with
      | nil =>
        obtain ⟨hcs, _, _, _⟩ := matchCore_sound hm
        rw [List.append_nil] at hcs
        rw [hcs]
      | cons a t =>
        exact absurd h (by simp)
  · intro h
    rw [coreShape, h]

theorem matchVer_extend_sp (mn T : List Char)
    (h : matchVer mn = some (mn, [])) :
    matchVer (mn ++ ' ' :: T) = some (mn, ' ' :: T) := by
  rcases matchVer_cases h with hcore | ⟨core, r6, hcore, hv, hp, hrest⟩
  · obtain ⟨d1, d2, d3, hdecomp, _, h1, h2, h3, hd1, hd2, hd3, _⟩ :=
      matchCore_decomp hcore
    have hbuild := matchCore_build d1 d2 d3 (' ' :: T) h1 h2 h3 hd1 hd2 hd3
      (by
        intro a t ht
        injection ht with ha _
        rw [← ha]
        decide)
    rw [← hdecomp] at hbuild
    exact matchVer_build_nopre mn (' ' :: T) hbuild
      (by
        intro r6 hcontr
        injection hcontr with ha _
        exact absurd ha (by decide))
  · have hr6 : r6.dropWhile isWordDot = [] := hrest.symm
    have hr6eq : r6.takeWhile isWordDot = r6 := by
      conv_rhs => rw [← List.takeWhile_append_dropWhile isWordDot r6]
      rw [hr6, List.append_nil]
    obtain ⟨d1, d2, d3, hdecomp, _, h1, h2, h3, hd1, hd2, hd3, _⟩ :=
      matchCore_decomp hcore
    have hbuild := matchCore_build d1 d2 d3 ('-' :: (r6 ++ ' ' :: T)) h1 h2 h3 hd1 hd2 hd3
      (by
        intro a t ht
        injection ht with ha _
        rw [← ha]
        decide)
    rw [← hdecomp] at hbuild
    have hmn : mn = core ++ '-' :: r6 := by rw [hv, hr6eq]
    have hpre := matchVer_build_pre core r6 (' ' :: T) hbuild
      (by
        rw [hr6eq] at hp
        exact hp)
      (by
        intro c hcmem
        rw [← hr6eq] at hcmem
        exact List.mem_takeWhile_imp hcmem)
      (by
        intro a t ht
        injection ht with ha _
        rw [← ha]
        decide)
    rw [hmn]
    rw [show (core ++ '-' :: r6) ++ ' ' :: T = core ++ '-' :: (r6 ++ ' ' :: T) by
      simp [List.append_assoc]]
    rw [hpre]

theorem matchVer_self {cs v rest : List Char}
    (h : matchVer cs = some (v, rest)) : matchVer v = some (v, []) := by
  rcases matchVer_cases h with hcore | ⟨core, r6, hcore, hv, hp, hrest⟩
  · obtain ⟨d1, d2, d3, hdecomp, _, h1, h2, h3, hd1, hd2, hd3, _⟩ :=
      matchCore_decomp hcore
    have hbuild := matchCore_build d1 d2 d3 [] h1 h2 h3 hd1 hd2 hd3
      (by intro a t ht; cases ht)
    rw [← hdecomp] at hbuild
    have hfin := matchVer_build_nopre v [] hbuild (by intro r6 hcontr; cases hcontr)
    rw [List.append_nil] at hfin
    exact hfin
  · obtain ⟨d1, d2, d3, hdecomp, _, h1, h2, h3, hd1, hd2, hd3, _⟩ :=
      matchCore_decomp hcore
    have hall : ∀ c ∈ r6.takeWhile isWordDot, isWordDot c = true := by
      intro c hcmem
      exact List.mem_takeWhile_imp hcmem
    have hbuild := matchCore_build d1 d2 d3 ('-' :: (r6.takeWhile isWordDot ++ []))
      h1 h2 h3 hd1 hd2 hd3
      (by
        intro a t ht
        injection ht with ha _
        rw [← ha]
        decide)
    rw [← hdecomp] at hbuild
    have hpre := matchVer_build_pre core (r6.takeWhile isWordDot) [] hbuild hp hall
      (by intro a t ht; cases ht)
    rw [hv]
    rw [show (core ++ '-' :: r6.takeWhile isWordDot)
        = core ++ '-' :: (r6.takeWhile isWordDot ++ []) by simp]
    rw [hpre]
    simp

theorem minMaxExec_complete (mn mx : List Char) (incl : Bool)
    (hmn : versionShape mn = true) (hmx : coreShape mx = true) :
    minMaxExecL ('>' :: '=' :: (mn ++ ' ' :: '<' :: (if incl then '=' :: mx else mx))) =
      some (mn, mx) := by
  have hmn2 := versionShape_eq.mp hmn
  have hmx2 := coreShape_eq.mp hmx
  have hver := matchVer_extend_sp mn ('<' :: (if incl then '=' :: mx else mx)) hmn2
  obtain ⟨_, ⟨cx, tx, hmxeq, hcx⟩, _, _⟩ := matchCore_sound hmx2
  cases incl with
  | true =>
    have hver2 : matchVer (mn ++ ' ' :: '<' :: '=' :: mx) =
        some (mn, ' ' :: '<' :: '=' :: mx) := hver
    show minMaxExecL ('>' :: '=' :: (mn ++ ' ' :: '<' :: '=' :: mx)) = some (mn, mx)
    simp only [minMaxExecL, hver2, hmx2]
  | false =>
    have hver2 : matchVer (mn ++ ' ' :: '<' :: mx) =
        some (mn, ' ' :: '<' :: mx) := hver
    show minMaxExecL ('>' :: '=' :: (mn ++ ' ' :: '<' :: mx)) = some (mn, mx)
    rw [hmxeq] at hmx2 hver2 ⊢
    simp only [minMaxExecL, hver2]
    split
    · rename_i heq
      have hcx2 : cx = '=' := by
        simp only [List.cons.injEq] at heq
        exact heq.2.2.1
      rw [hcx2] at hcx
      exact absurd hcx (by decide)
    · rename_i hne
      injection hne with _ h2
      injection h2 with _ h3
      subst h3
      rw [hmx2]
    · rename_i hno1 hno2
      exact absurd rfl (hno2 (cx :: tx))

theorem minMaxExec_shape {cs mn mx : List Char}
    (h : minMaxExecL cs = some (mn, mx)) :
    ∃ incl : Bool,
      cs = '>' :: '=' :: (mn ++ ' ' :: '<' :: (if incl then '=' :: mx else mx)) ∧
      versionShape mn = true ∧ coreShape mx = true := by
  simp only [minMaxExecL] at h
  split at h
  · rename_i csdead r
    split at h
    · exact absurd h (by simp)
    · rename_i vopt mn0 rest0 hmver
      split at h
      · rename_i restdead r3
        obtain ⟨hr, _, _⟩ := matchVer_sound hmver
        split at h
        · rename_i copt mx0 hmcore
          rw [Option.some_inj, Prod.mk.injEq] at h
          obtain ⟨hmn, hmx⟩ := h
          subst hmn
          subst hmx
          obtain ⟨hr3, _, _, _⟩ := matchCore_sound hmcore
          rw [List.append_nil] at hr3
          refine ⟨true, ?_, versionShape_eq.mpr (matchVer_self hmver),
            coreShape_eq.mpr (by rw [hr3] at hmcore; exact hmcore)⟩
          rw [if_pos rfl, hr, hr3]
        · exact absurd h (by simp)
      · rename_i restdead r3 hnoteq
        obtain ⟨hr, _, _⟩ := matchVer_sound hmver
        split at h
        · rename_i copt mx0 hmcore
          rw [Option.some_inj, Prod.mk.injEq] at h
          obtain ⟨hmn, hmx⟩ := h
          subst hmn
          subst hmx
          obtain ⟨hr3, _, _, _⟩ := matchCore_sound hmcore
          rw [List.append_nil] at hr3
          refine ⟨false, ?_, versionShape_eq.mpr (matchVer_self hmver),
            coreShape_eq.mpr (by rw [hr3] at hmcore; exact hmcore)⟩
          rw [if_neg (by simp), hr, hr3]
        · exact absurd h (by simp)
      · exact absurd h (by simp)
  · exact absurd h (by simp)

theorem containsSub_no_lt (B : List Char) (h : ∀ c ∈ B, c ≠ '<') :
    containsSub B ['<', '='] = false := by
  induction B with
  | nil => rfl
  | cons b B' ih =>
    have hb : ('<' : Char) ≠ b := Ne.symm (h b (List.mem_cons_self b B'))
    have hrest : containsSub B' ['<', '='] = false :=
      ih (fun c hc => h c (List.mem_cons_of_mem b hc))
    have hun : containsSub (b :: B') ['<', '='] =
        (startsWithL ['<', '='] (b :: B') || containsSub B' ['<', '=']) := rfl
    have hstart : startsWithL ['<', '='] (b :: B') = false := by
      simp only [startsWithL]
      simp [hb]
    rw [hun, hstart, hrest]
    rfl

theorem containsSub_append_no_lt (A B : List Char) (h : ∀ c ∈ A, c ≠ '<') :
    containsSub (A ++ B) ['<', '='] = containsSub B ['<', '='] := by
  induction A with
  | nil => rfl
  | cons a A' ih =>
    have ha : ('<' : Char) ≠ a := Ne.symm (h a (List.mem_cons_self a A'))
    have htail := ih (fun c hc => h c (List.mem_cons_of_mem a hc))
    have hun : containsSub ((a :: A') ++ B) ['<', '='] =
        (startsWithL ['<', '='] (a :: (A' ++ B)) || containsSub (A' ++ B) ['<', '=']) := rfl
    have hstart : startsWithL ['<', '='] (a :: (A' ++ B)) = false := by
      simp only [startsWithL]
      simp [ha]
    rw [hun, hstart, htail, Bool.false_or]

theorem versionShape_no_lt {mn : List Char} (h : versionShape mn = true) :
    ∀ c ∈ mn, c ≠ '<' := by
  obtain ⟨_, _, hchars⟩ := matchVer_sound (versionShape_eq.mp h)
  intro c hc hlt
  subst hlt
  rcases hchars '<' hc with hd | hd | hd | hd
  · exact absurd hd (by decide)
  · exact absurd hd (by decide)
  · exact absurd hd (by decide)
  · exact absurd hd (by decide)

theorem strIncludes_pattern (mn mx : List Char) (incl : Bool)
    (hmn : ∀ c ∈ mn, c ≠ '<') (hmx : ∀ c ∈ mx, c ≠ '<')
    (hhead : ∀ a t, mx = a :: t → a.isDigit = true) :
    strIncludes ⟨'>' :: '=' :: (mn ++ ' ' :: '<' :: (if incl then '=' :: mx else mx))⟩
      "<=" = incl := by
  show containsSub ('>' :: '=' :: (mn ++ ' ' :: '<' :: (if incl then '=' :: mx else mx)))
    ['<', '='] = incl
  have hA : ∀ c ∈ ('>' :: '=' :: (mn ++ [' '])), c ≠ '<' := by
    intro c hc
    simp only [List.mem_cons, List.mem_append, List.not_mem_nil, or_false] at hc
    rcases hc with rfl | rfl | hc | rfl
    · decide
    · decide
    · exact hmn c hc
    · decide
  have heq : ('>' :: '=' :: (mn ++ [' '])) ++
      ('<' :: (if incl then '=' :: mx else mx)) =
      '>' :: '=' :: (mn ++ ' ' :: '<' :: (if incl then '=' :: mx else mx)) := by
    simp
  rw [← heq, containsSub_append_no_lt _ _ hA]
  cases incl with
  | true =>
    show containsSub ('<' :: '=' :: mx) ['<', '='] = true
    have hun : containsSub ('<' :: '=' :: mx) ['<', '='] =
        (startsWithL ['<', '='] ('<' :: '=' :: mx) || containsSub ('=' :: mx) ['<', '=']) := rfl
    have hstart : startsWithL ['<', '='] ('<' :: '=' :: mx) = true := by
      simp only [startsWithL]
      simp
    rw [hun, hstart, Bool.true_or]
  | false =>
    show containsSub ('<' :: mx) ['<', '='] = false
    have hrest : containsSub mx ['<', '='] = false := containsSub_no_lt mx hmx
    cases hcons : mx with
    | nil => rfl
    | cons cx tx =>
      have hcx : cx.isDigit = true := hhead cx tx hcons
      have hcxne : cx ≠ '=' := by
        intro hc
        rw [hc] at hcx
        exact absurd hcx (by decide)
      rw [hcons] at hrest
      have hun : containsSub ('<' :: cx :: tx) ['<', '='] =
        (startsWithL ['<', '='] ('<' :: cx :: tx) || containsSub (cx :: tx) ['<', '=']) := rfl
      have hne2 : ('=' : Char) ≠ cx := Ne.symm hcxne
      have hstart : startsWithL ['<', '='] ('<' :: cx :: tx) = false := by
        simp only [startsWithL]
        simp [hne2]
      rw [hun, hstart, hrest]
      rfl

/-- C3: `createShorthand` on a string matching `>=MIN <MAX` (strictly) or
`>=MIN <=MAX` (inclusively) returns MIN itself when MIN equals MAX, the
hyphen range `MIN - MAX` when the max comparator is inclusive, the
zero-major rules when both majors are 0 (caret when both minors are 0,
tilde when only MIN's minor is 0, caret otherwise), `"0"` when the majors
differ with MIN's major 0, a caret when the majors differ otherwise, and a
tilde when the majors are equal; every input not matching the pattern is
returned unchanged. -/
theorem createShorthand_spec :
    (∀ (mn mx : List Char) (incl : Bool) (vmn vmx : SemV),
      versionShape mn = true → coreShape mx = true →
      parseSemVer ⟨mn⟩ = some vmn → parseSemVer ⟨mx⟩ = some vmx →
      createShorthand ⟨'>' :: '=' :: (mn ++ ' ' :: '<' :: (if incl then '=' :: mx else mx))⟩ =
        some (
          if mn = mx then (⟨mn⟩ : String)
          else if incl then ⟨mn⟩ ++ " - " ++ ⟨mx⟩
          else if vmn.major = 0 ∧ vmx.major = 0 then
            (if vmn.minor = 0 ∧ vmx.minor = 0 then "^" ++ ⟨mn⟩
             else if vmn.minor = 0 then "~" ++ ⟨mn⟩
             else "^" ++ ⟨mn⟩)
          else if vmn.major ≠ vmx.major then
            (if vmn.major = 0 then "0" else "^" ++ ⟨mn⟩)
          else "~" ++ ⟨mn⟩)) ∧
    (∀ s : String,
      (¬ ∃ (mn mx : List Char) (incl : Bool),
        versionShape mn = true ∧ coreShape mx = true ∧
        s.data = '>' :: '=' :: (mn ++ ' ' :: '<' :: (if incl then '=' :: mx else mx))) →
      createShorthand s = some s) := by
  constructor
  · intro mn mx incl vmn vmx hmn hmx hvmn hvmx
    obtain ⟨_, hmxhead, hmxchars, _⟩ := matchCore_sound (coreShape_eq.mp hmx)
    have hmxne : ∀ c ∈ mx, c ≠ '<' := by
      intro c hc hco
      subst hco
      rcases hmxchars '<' hc with hd | hd
      · exact absurd hd (by decide)
      · exact absurd hd (by decide)
    have hhead : ∀ a t, mx = a :: t → a.isDigit = true := by
      intro a t hat
      obtain ⟨c, t0, hc0, hdig⟩ := hmxhead
      rw [hc0] at hat
      injection hat with h1 _
      rw [← h1]
      exact hdig
    have hinc := strIncludes_pattern mn mx incl (versionShape_no_lt hmn) hmxne hhead
    have hexec := minMaxExec_complete mn mx incl hmn hmx
    simp only [createShorthand, hexec]
    by_cases heqs : (⟨mn⟩ : String) = ⟨mx⟩
    · have heql : mn = mx := congrArg String.data heqs
      rw [if_pos heqs, if_pos heql]
    · have heql : ¬ (mn = mx) := fun hc => heqs (by rw [hc])
      rw [if_neg heqs, if_neg heql, hinc]
      cases incl with
      | true =>
        rw [if_pos rfl, if_pos rfl]
      | false =>
        rw [if_neg (by simp), if_neg (by simp)]
        simp only [hvmn]
        by_cases h0n : vmn.major = 0
        · rw [if_pos h0n]
          simp only [hvmx]
          by_cases h0x : vmx.major = 0
          · rw [if_pos h0x, if_pos (⟨h0n, h0x⟩ : vmn.major = 0 ∧ vmx.major = 0)]
            by_cases hm0 : vmn.minor = 0
            · rw [if_pos hm0]
              by_cases hx0 : vmx.minor = 0
              · rw [if_pos hx0, if_pos (⟨hm0, hx0⟩ : vmn.minor = 0 ∧ vmx.minor = 0)]
              · rw [if_neg hx0, if_neg (fun hc => hx0 hc.2), if_pos hm0]
            · rw [if_neg hm0, if_neg (fun hc => hm0 hc.1), if_neg hm0]
          · rw [if_neg h0x, if_neg (fun hc => h0x hc.2)]
            have hne : vmn.major ≠ vmx.major := by
              rw [h0n]
              exact fun hc => h0x hc.symm
            rw [if_pos hne, if_pos h0n]
        · rw [if_neg h0n]
          simp only [hvmx]
          by_cases hne : vmn.major ≠ vmx.major
          · rw [if_pos hne, if_neg (fun hc => h0n hc.1), if_pos hne, if_neg h0n]
          · rw [if_neg hne, if_neg (fun hc => h0n hc.1), if_neg hne]
  · intro s hnot
    cases hm : minMaxExecL s.data with
    | none => simp only [createShorthand, hm]
    | some p =>
      obtain ⟨mnp, mxp⟩ := p
      obtain ⟨incl, hcs, hvs, hcs2⟩ := minMaxExec_shape hm
      exact absurd ⟨mnp, mxp, incl, hvs, hcs2, hcs⟩ hnot

/-- Witness for C3 at `>=1.2.3 <2.0.0` (rewritten to `^1.2.3`) and at the
non-matching input `^1.0.0` (returned unchanged). -/
theorem createShorthand_spec_witness :
    createShorthand ">=1.2.3 <2.0.0" = some "^1.2.3" ∧
    createShorthand "^1.0.0" = some "^1.0.0" := by
  constructor
  · have h := createShorthand_spec.1 ['1', '.', '2', '.', '3'] ['2', '.', '0', '.', '0'] false
      ⟨1, 2, 3, []⟩ ⟨2, 0, 0, []⟩ rfl rfl rfl rfl
    have h2 : (⟨'>' :: '=' :: (['1', '.', '2', '.', '3'] ++ ' ' :: '<' ::
        (if false then '=' :: ['2', '.', '0', '.', '0'] else ['2', '.', '0', '.', '0']))⟩ :
        String) = ">=1.2.3 <2.0.0" := rfl
    rw [h2] at h
    rw [h]
    decide
  · refine createShorthand_spec.2 "^1.0.0" ?_
    rintro ⟨mn, mx, incl, -, -, heq⟩
    have h3 : ("^1.0.0" : String).data = '^' :: ['1', '.', '0', '.', '0'] := rfl
    rw [h3] at heq
    injection heq with h1 _
    exact absurd h1 (by decide)

/-- C8 counterexample: with union arguments, both orders of `intersect`
succeed but return different strings (the surviving branch order follows
the argument order), so `intersect` is not commutative as claimed. -/
theorem intersect_comm_counterexample :
    intersect semverModel ["^4.0.0 || ^5.0.0", "^5.0.0 || ^4.0.0"] =
      Except.ok "^4.0.0 || ^5.0.0" ∧
    intersect semverModel ["^5.0.0 || ^4.0.0", "^4.0.0 || ^5.0.0"] =
      Except.ok "^5.0.0 || ^4.0.0" ∧
    ("^4.0.0 || ^5.0.0" : String) ≠ "^5.0.0 || ^4.0.0" := by
  refine ⟨by decide, by decide, by decide⟩

/-! ## Toolkit for the amended commutativity claim (C8)

Computation lemmas for the pipeline on single-comparator ranges. -/

theorem dropWhile_eq_self_of_none {p : Char → Bool} {l : List Char}
    (h : ∀ c ∈ l, p c = false) : l.dropWhile p = l := by
  cases l with
  | nil => rfl
  | cons c t =>
    exact List.dropWhile_cons_of_neg (by rw [h c (List.mem_cons_self c t)]; exact Bool.false_ne_true)

theorem trimL_no_space (cs : List Char) (h : ∀ c ∈ cs, isSpace c = false) :
    trimL cs = cs := by
  unfold trimL
  rw [dropWhile_eq_self_of_none h,
    dropWhile_eq_self_of_none (fun c hc => h c (List.mem_reverse.mp hc)),
    List.reverse_reverse]

theorem splitOnOrL_no_bar (cs : List Char) (h : ∀ c ∈ cs, c ≠ '|') :
    splitOnOrL cs = (cs, []) := by
  induction cs with
  | nil => rfl
  | cons c rest ih =>
    have hc : c ≠ '|' := h c (List.mem_cons_self c rest)
    have ht := ih (fun x hx => h x (List.mem_cons_of_mem c hx))
    unfold splitOnOrL
    split
    · rename_i heq
      exact absurd heq (by simp)
    · rename_i hne
      injection hne with h1 _
      exact absurd h1 hc
    · rename_i c2 rest2 hno heq
      injection heq with h1 h2
      subst h1
      subst h2
      simp only [ht]

theorem splitOnOr_no_bar (s : String) (h : ∀ c ∈ s.data, c ≠ '|') :
    splitOnOr s = [s] := by
  unfold splitOnOr
  rw [splitOnOrL_no_bar s.data h]
  rfl

theorem splitWs1_no_space (cs : List Char) (h : ∀ c ∈ cs, isSpace c = false) :
    splitWs1 cs = [cs] := by
  induction cs with
  | nil => rfl
  | cons c rest ih =>
    have hc : isSpace c = false := h c (List.mem_cons_self c rest)
    have ht := ih (fun x hx => h x (List.mem_cons_of_mem c hx))
    unfold splitWs1
    rw [if_neg (by rw [hc]; exact Bool.false_ne_true), ht]

theorem splitWs_no_space (s : String) (h : ∀ c ∈ s.data, isSpace c = false) :
    splitWs s = [s] := by
  unfold splitWs
  rw [splitWs1_no_space s.data h]
  rfl

theorem versionShape_cons_false (c : Char) (l : List Char)
    (h : c.isDigit = false) : versionShape (c :: l) = false := by
  have hcore : matchCore (c :: l) = none := by
    unfold matchCore
    rw [List.takeWhile_cons]
    rw [h]
    simp only [List.dropWhile_cons]
    rw [h]
    simp
  unfold versionShape matchVer
  rw [hcore]

theorem matchVer_of_core {r : List Char} (h : matchCore r = some (r, [])) :
    matchVer r = some (r, []) := by
  unfold matchVer
  rw [h]

theorem versionShape_of_core {r : List Char} (h : coreShape r = true) :
    versionShape r = true := by
  unfold versionShape
  rw [matchVer_of_core (coreShape_eq.mp h)]

theorem versionExecL_cons (c : Char) (l : List Char) :
    versionExecL (c :: l) =
      (if versionShape (c :: l) = true then some (c :: l) else versionExecL l) := by
  unfold versionExecL
  rw [List.tails_cons, List.find?_cons]
  cases hv : versionShape (c :: l) with
  | true => simp [hv]
  | false => simp [hv]

theorem versionExecL_self {r : List Char} (h : versionShape r = true) :
    versionExecL r = some r := by
  cases r with
  | nil =>
    have : versionShape ([] : List Char) = false := by decide
    rw [this] at h
    cases h
  | cons c t =>
    rw [versionExecL_cons, if_pos h]

theorem digit_not_cond {c : Char} (h : c.isDigit = true) : isCondChar c = false := by
  cases hcc : isCondChar c with
  | false => rfl
  | true =>
    simp only [isCondChar, Bool.or_eq_true, decide_eq_true_eq] at hcc
    rcases hcc with (rfl | rfl) | rfl
    · exact absurd h (by decide)
    · exact absurd h (by decide)
    · exact absurd h (by decide)

theorem condOf_prefixed (op r : List Char)
    (hop : ∀ c ∈ op, isCondChar c = true)
    (hr : ∀ a t, r = a :: t → isCondChar a = false) :
    condOf ⟨op ++ r⟩ = (if op = [] then "=" else (⟨op⟩ : String)) := by
  have htr : r.takeWhile isCondChar = [] := by
    cases hc : r with
    | nil => rfl
    | cons a t =>
      rw [List.takeWhile_cons, hr a t hc]
      rfl
  have htk : (op ++ r).takeWhile isCondChar = op := by
    rw [List.takeWhile_append_of_pos hop, htr, List.append_nil]
  show condOf ⟨op ++ r⟩ = _
  unfold condOf
  show (match (op ++ r).takeWhile isCondChar with
    | [] => "="
    | cs => (⟨cs⟩ : String)) = _
  rw [htk]
  cases op with
  | nil => rfl
  | cons o t => rfl

theorem digit_not_space {c : Char} (h : c.isDigit = true) : isSpace c = false := by
  cases hs : isSpace c with
  | false => rfl
  | true =>
    simp only [isSpace, Bool.or_eq_true, decide_eq_true_eq] at hs
    rcases hs with ((rfl | rfl) | rfl) | rfl <;> exact absurd h (by decide)

theorem op_chars {op : List Char}
    (hop : op ∈ [([] : List Char), ['>'], ['>', '='], ['<'], ['<', '=']]) :
    ∀ c ∈ op, c ≠ '|' ∧ isSpace c = false ∧ isCondChar c = true := by
  simp only [List.mem_cons, List.not_mem_nil, or_false] at hop
  rcases hop with rfl | rfl | rfl | rfl | rfl
  · intro c hc
    exact absurd hc (List.not_mem_nil c)
  · intro c hc
    simp only [List.mem_cons, List.not_mem_nil, or_false] at hc
    subst hc
    exact ⟨by decide, by decide, by decide⟩
  · intro c hc
    simp only [List.mem_cons, List.not_mem_nil, or_false] at hc
    rcases hc with rfl | rfl
    · exact ⟨by decide, by decide, by decide⟩
    · exact ⟨by decide, by decide, by decide⟩
  · intro c hc
    simp only [List.mem_cons, List.not_mem_nil, or_false] at hc
    subst hc
    exact ⟨by decide, by decide, by decide⟩
  · intro c hc
    simp only [List.mem_cons, List.not_mem_nil, or_false] at hc
    rcases hc with rfl | rfl
    · exact ⟨by decide, by decide, by decide⟩
    · exact ⟨by decide, by decide, by decide⟩

theorem core_char_facts {c : Char} (h : c.isDigit = true ∨ c = '.') :
    c ≠ '|' ∧ isSpace c = false ∧ isCondChar c = false := by
  rcases h with h | rfl
  · refine ⟨?_, digit_not_space h, digit_not_cond h⟩
    intro hc
    subst hc
    exact absurd h (by decide)
  · exact ⟨by decide, by decide, by decide⟩

theorem parseRange_single (op r : List Char) (v : SemV)
    (hop : op ∈ [([] : List Char), ['>'], ['>', '='], ['<'], ['<', '=']])
    (hr : coreShape r = true) (hv : parseSemVer ⟨r⟩ = some v) (hpre : v.pre = []) :
    parseRange ⟨op ++ r⟩ =
      some ⟨if op = [] then "=" else (⟨op⟩ : String), none, (⟨r⟩ : String)⟩ := by
  obtain ⟨_, ⟨c0, t0, hrc, hdg⟩, hall, _⟩ := matchCore_sound (coreShape_eq.mp hr)
  have hself : versionExecL r = some r := versionExecL_self (versionShape_of_core hr)
  have hvex : versionExecL (op ++ r) = some r := by
    have hop2 := hop
    simp only [List.mem_cons, List.not_mem_nil, or_false] at hop2
    rcases hop2 with rfl | rfl | rfl | rfl | rfl
    · simpa using hself
    · show versionExecL ('>' :: r) = some r
      rw [versionExecL_cons, versionShape_cons_false '>' r (by decide)]
      simpa using hself
    · show versionExecL ('>' :: '=' :: r) = some r
      rw [versionExecL_cons, versionShape_cons_false '>' ('=' :: r) (by decide)]
      rw [versionExecL_cons, versionShape_cons_false '=' r (by decide)] 
      simpa using hself
    · show versionExecL ('<' :: r) = some r
      rw [versionExecL_cons, versionShape_cons_false '<' r (by decide)]
      simpa using hself
    · show versionExecL ('<' :: '=' :: r) = some r
      rw [versionExecL_cons, versionShape_cons_false '<' ('=' :: r) (by decide)]
      rw [versionExecL_cons, versionShape_cons_false '=' r (by decide)]
      simpa using hself
  have hvex2 : versionExec ⟨op ++ r⟩ = some ⟨r⟩ := by
    unfold versionExec
    show (versionExecL (op ++ r)).map _ = _
    rw [hvex]
    rfl
  have hpo : prereleaseOf ⟨r⟩ = none := by
    simp only [prereleaseOf, hv, hpre]
    rfl
  have hco : condOf ⟨op ++ r⟩ = (if op = [] then "=" else ⟨op⟩) := by
    refine condOf_prefixed op r (fun c hc => (op_chars hop c hc).2.2) ?_
    intro a t hat
    rw [hrc] at hat
    injection hat with h1 _
    rw [← h1]
    exact digit_not_cond hdg
  unfold parseRange
  simp only [hvex2]
  rw [hco, hpo]

theorem parseOp_digit (c0 : Char) (t0 : List Char) (h : c0.isDigit = true) :
    parseOp (c0 :: t0) = ("", c0 :: t0) := by
  unfold parseOp
  split
  · rename_i r1 heq
    injection heq with h1 _
    rw [h1] at h
    exact absurd h (by decide)
  · rename_i r1 hno heq
    injection heq with h1 _
    rw [h1] at h
    exact absurd h (by decide)
  · rename_i r1 heq
    injection heq with h1 _
    rw [h1] at h
    exact absurd h (by decide)
  · rename_i r1 hno heq
    injection heq with h1 _
    rw [h1] at h
    exact absurd h (by decide)
  · rename_i r1 heq
    injection heq with h1 _
    rw [h1] at h
    exact absurd h (by decide)
  · rfl

theorem parseOp_gt (c0 : Char) (t0 : List Char) (h : c0.isDigit = true) :
    parseOp ('>' :: c0 :: t0) = (">", c0 :: t0) := by
  unfold parseOp
  split
  · rename_i r1 heq
    injection heq with h1 _
    exact absurd h1 (by decide)
  · rename_i r1 hno heq
    injection heq with h1 _
    exact absurd h1 (by decide)
  · rename_i r1 heq
    injection heq with _ h2
    injection h2 with h3 _
    rw [h3] at h
    exact absurd h (by decide)
  · rename_i r1 hno heq
    injection heq with _ h2
    rw [← h2]
  · rename_i r1 heq
    injection heq with h1 _
    exact absurd h1 (by decide)
  · rename_i n1 n2 n3 n4 n5
    exact (n4 (c0 :: t0) rfl).elim

theorem parseOp_lt (c0 : Char) (t0 : List Char) (h : c0.isDigit = true) :
    parseOp ('<' :: c0 :: t0) = ("<", c0 :: t0) := by
  unfold parseOp
  split
  · rename_i r1 heq
    injection heq with _ h2
    injection h2 with h3 _
    rw [h3] at h
    exact absurd h (by decide)
  · rename_i r1 hno heq
    injection heq with _ h2
    rw [← h2]
  · rename_i r1 heq
    injection heq with h1 _
    exact absurd h1 (by decide)
  · rename_i r1 hno heq
    injection heq with h1 _
    exact absurd h1 (by decide)
  · rename_i r1 heq
    injection heq with h1 _
    exact absurd h1 (by decide)
  · rename_i n1 n2 n3 n4 n5
    exact (n2 (c0 :: t0) rfl).elim

theorem parseCompTok_single (op r : List Char) (v : SemV)
    (hop : op ∈ [([] : List Char), ['>'], ['>', '='], ['<'], ['<', '=']])
    (hr : coreShape r = true) (hv : parseSemVer ⟨r⟩ = some v) :
    parseCompTok ⟨op ++ r⟩ =
      some ⟨if op = [] then "" else (⟨op⟩ : String), some v⟩ := by
  obtain ⟨_, ⟨c0, t0, hrc, hdg⟩, hall, _⟩ := matchCore_sound (coreShape_eq.mp hr)
  have hv0 : parseSemVerL r = some v := hv
  rw [hrc] at hv0
  have hop2 := hop
  simp only [List.mem_cons, List.not_mem_nil, or_false] at hop2
  rcases hop2 with rfl | rfl | rfl | rfl | rfl
  · show parseCompTok ⟨r⟩ = some ⟨"", some v⟩
    rw [hrc]
    unfold parseCompTok
    split
    · rename_i heq
      exact absurd heq (by simp)
    · rename_i heq
      injection heq with h1 _
      rw [h1] at hdg
      exact absurd hdg (by decide)
    · rename_i heq
      injection heq with h1 _
      rw [h1] at hdg
      exact absurd hdg (by decide)
    · rename_i heq
      injection heq with h1 _
      rw [h1] at hdg
      exact absurd hdg (by decide)
    · rename_i cs1 hn1 hn2 hn3 hn4 heq
      simp only [parseOp_digit c0 t0 hdg, hv0]
      rfl
  · show parseCompTok ⟨'>' :: r⟩ = some ⟨">", some v⟩
    rw [hrc]
    unfold parseCompTok
    split
    · rename_i heq
      exact absurd heq (by simp)
    · rename_i heq
      injection heq with h1 _
      exact absurd h1 (by decide)
    · rename_i heq
      injection heq with h1 _
      exact absurd h1 (by decide)
    · rename_i heq
      injection heq with h1 _
      exact absurd h1 (by decide)
    · rename_i cs1 hn1 hn2 hn3 hn4 heq
      simp only [parseOp_gt c0 t0 hdg, hv0]
      rfl
  · show parseCompTok ⟨'>' :: '=' :: r⟩ = some ⟨">=", some v⟩
    rw [hrc]
    unfold parseCompTok
    split
    · rename_i heq
      exact absurd heq (by simp)
    · rename_i heq
      injection heq with h1 _
      exact absurd h1 (by decide)
    · rename_i heq
      injection heq with h1 _
      exact absurd h1 (by decide)
    · rename_i heq
      injection heq with h1 _
      exact absurd h1 (by decide)
    · rename_i cs1 hn1 hn2 hn3 hn4 heq
      have hpo : parseOp ('>' :: '=' :: c0 :: t0) = (">=", c0 :: t0) := rfl
      simp only [hpo, hv0]
      rfl
  · show parseCompTok ⟨'<' :: r⟩ = some ⟨"<", some v⟩
    rw [hrc]
    unfold parseCompTok
    split
    · rename_i heq
      exact absurd heq (by simp)
    · rename_i heq
      injection heq with h1 _
      exact absurd h1 (by decide)
    · rename_i heq
      injection heq with h1 _
      exact absurd h1 (by decide)
    · rename_i heq
      injection heq with h1 _
      exact absurd h1 (by decide)
    · rename_i cs1 hn1 hn2 hn3 hn4 heq
      simp only [parseOp_lt c0 t0 hdg, hv0]
      rfl
  · show parseCompTok ⟨'<' :: '=' :: r⟩ = some ⟨"<=", some v⟩
    rw [hrc]
    unfold parseCompTok
    split
    · rename_i heq
      exact absurd heq (by simp)
    · rename_i heq
      injection heq with h1 _
      exact absurd h1 (by decide)
    · rename_i heq
      injection heq with h1 _
      exact absurd h1 (by decide)
    · rename_i heq
      injection heq with h1 _
      exact absurd h1 (by decide)
    · rename_i cs1 hn1 hn2 hn3 hn4 heq
      have hpo : parseOp ('<' :: '=' :: c0 :: t0) = ("<=", c0 :: t0) := rfl
      simp only [hpo, hv0]
      rfl

theorem parseRangeSets_single (op r : List Char) (v : SemV)
    (hop : op ∈ [([] : List Char), ['>'], ['>', '='], ['<'], ['<', '=']])
    (hr : coreShape r = true) (hv : parseSemVer ⟨r⟩ = some v) :
    parseRangeSets ⟨op ++ r⟩ =
      some [[⟨if op = [] then "" else (⟨op⟩ : String), some v⟩]] := by
  obtain ⟨_, ⟨c0, t0, hrc, hdg⟩, hall, _⟩ := matchCore_sound (coreShape_eq.mp hr)
  have hchars : ∀ c ∈ op ++ r, c ≠ '|' ∧ isSpace c = false := by
    intro c hc
    rw [List.mem_append] at hc
    rcases hc with hc | hc
    · exact ⟨(op_chars hop c hc).1, (op_chars hop c hc).2.1⟩
    · exact ⟨(core_char_facts (hall c hc)).1, (core_char_facts (hall c hc)).2.1⟩
  unfold parseRangeSets
  rw [splitOnOr_no_bar ⟨op ++ r⟩ (fun c hc => (hchars c hc).1)]
  simp only [List.map_cons, List.map_nil]
  rw [show trimL ((⟨op ++ r⟩ : String).data) = op ++ r from
    trimL_no_space _ (fun c hc => (hchars c hc).2)]
  simp only [List.mapM_cons, List.mapM_nil]
  rw [splitWs_no_space ⟨op ++ r⟩ (fun c hc => (hchars c hc).2)]
  simp only [List.mapM_cons, List.mapM_nil, parseCompTok_single op r v hop hr hv]
  rfl

theorem satisfies_single (op r rv : List Char) (v w : SemV)
    (hop : op ∈ [([] : List Char), ['>'], ['>', '='], ['<'], ['<', '=']])
    (hr : coreShape r = true) (hv : parseSemVer ⟨r⟩ = some v)
    (hw : parseSemVer ⟨rv⟩ = some w) (hwpre : w.pre = []) :
    satisfiesModel ⟨rv⟩ ⟨op ++ r⟩ =
      testComp w ⟨if op = [] then "" else (⟨op⟩ : String), some v⟩ := by
  unfold satisfiesModel
  simp only [hw, parseRangeSets_single op r v hop hr hv]
  simp only [List.any_cons, List.any_nil, Bool.or_false]
  unfold testSet preAllowed
  rw [hwpre]
  simp [List.all_cons, List.all_nil]

theorem digit_val {c : Char} (h : c.isDigit = true) : 48 ≤ c.toNat ∧ c.toNat ≤ 57 := by
  unfold Char.isDigit at h
  simp only [Bool.and_eq_true, decide_eq_true_eq] at h
  exact h

theorem char_toNat_inj {c d : Char} (h : c.toNat = d.toNat) : c = d :=
  Char.ext (UInt32.ext h)

theorem digit_char_inj {c d : Char} (hc : c.isDigit = true) (hd : d.isDigit = true)
    (h : c.toNat - 48 = d.toNat - 48) : c = d := by
  obtain ⟨hc1, _⟩ := digit_val hc
  obtain ⟨hd1, _⟩ := digit_val hd
  have : c.toNat = d.toNat := by omega
  exact char_toNat_inj this

theorem natOfDigits_append_last (d : List Char) (c : Char) :
    natOfDigits (d ++ [c]) = 10 * natOfDigits d + (c.toNat - 48) := by
  unfold natOfDigits
  rw [List.foldl_append]
  rfl

theorem natOfDigits_foldl_ge (t : List Char) (acc : Nat) (h : 1 ≤ acc) :
    1 ≤ t.foldl (fun acc c => 10 * acc + (c.toNat - 48)) acc := by
  induction t generalizing acc with
  | nil => exact h
  | cons c t ih =>
    rw [List.foldl_cons]
    apply ih
    omega

theorem natOfDigits_head_pos (c0 : Char) (t0 : List Char)
    (hdig : ∀ c ∈ c0 :: t0, c.isDigit = true) (h0 : c0 ≠ '0') :
    1 ≤ natOfDigits (c0 :: t0) := by
  have hrw : natOfDigits (c0 :: t0) =
      t0.foldl (fun acc c => 10 * acc + (c.toNat - 48)) (10 * 0 + (c0.toNat - 48)) := rfl
  have hge : 1 ≤ c0.toNat - 48 := by
    obtain ⟨ha, hb⟩ := digit_val (hdig c0 (List.mem_cons_self c0 t0))
    have hne : c0.toNat ≠ 48 := fun hc => h0 (char_toNat_inj (by rw [hc]; rfl))
    omega
  rw [hrw]
  apply natOfDigits_foldl_ge
  omega

theorem natOfDigits_inj (d : List Char) :
    ∀ (e : List Char),
    (∀ c ∈ d, c.isDigit = true) → (∀ c ∈ e, c.isDigit = true) →
    d ≠ [] → e ≠ [] →
    (∀ c0 t0, d = c0 :: t0 → t0 ≠ [] → c0 ≠ '0') →
    (∀ c0 t0, e = c0 :: t0 → t0 ≠ [] → c0 ≠ '0') →
    natOfDigits d = natOfDigits e → d = e := by
  induction d using List.reverseRecOn with
  | nil =>
    intro e _ _ hdne _ _ _ _
    exact absurd rfl hdne
  | append_singleton d' c ih =>
    intro e hd he _ hene hds hes h
    rcases (List.eq_nil_or_concat e) with rfl | ⟨e', c2, rfl⟩
    · exact absurd rfl hene
    · simp only [List.concat_eq_append] at he hene hes h ⊢
      rw [natOfDigits_append_last, natOfDigits_append_last] at h
      have hcdig : c.isDigit = true := hd c (by simp)
      have hc2dig : c2.isDigit = true := he c2 (by simp)
      have hb1 : c.toNat - 48 ≤ 9 := by
        obtain ⟨_, hx⟩ := digit_val hcdig
        omega
      have hb2 : c2.toNat - 48 ≤ 9 := by
        obtain ⟨_, hx⟩ := digit_val hc2dig
        omega
      have hceq : c = c2 := digit_char_inj hcdig hc2dig (by omega)
      have hval : natOfDigits d' = natOfDigits e' := by omega
      have hposd : ∀ h0 t0, d' = h0 :: t0 → h0 ≠ '0' := by
        intro h0 t0 hd0
        refine hds h0 (t0 ++ [c]) (by rw [hd0]; simp) (by simp)
      have hpose : ∀ h0 t0, e' = h0 :: t0 → h0 ≠ '0' := by
        intro h0 t0 he0
        refine hes h0 (t0 ++ [c2]) (by rw [he0]; simp) (by simp)
      cases hd' : d' with
      | nil =>
        cases he' : e' with
        | nil => rw [hceq]
        | cons h0 t0 =>
          rw [hd', he'] at hval
          have : 1 ≤ natOfDigits (h0 :: t0) :=
            natOfDigits_head_pos h0 t0
              (fun x hx => he x (by rw [he']; exact List.mem_append_left _ hx))
              (hpose h0 t0 he')
          have hz : natOfDigits ([] : List Char) = 0 := rfl
          rw [hz] at hval
          omega
      | cons h0 t0 =>
        cases he' : e' with
        | nil =>
          rw [hd', he'] at hval
          have : 1 ≤ natOfDigits (h0 :: t0) :=
            natOfDigits_head_pos h0 t0
              (fun x hx => hd x (by rw [hd']; exact List.mem_append_left _ hx))
              (hposd h0 t0 hd')
          have hz : natOfDigits ([] : List Char) = 0 := rfl
          rw [hz] at hval
          omega
        | cons g0 s0 =>
          have hde : d' = e' := by
            refine ih e' (fun x hx => hd x (List.mem_append_left _ hx))
              (fun x hx => he x (List.mem_append_left _ hx))
              (by rw [hd']; simp) (by rw [he']; simp) ?_ ?_ hval
            · intro x t hx _
              exact hposd x t hx
            · intro x t hx _
              exact hpose x t hx
          rw [hd', he'] at hde
          rw [hde, hceq]

theorem parseNumStrict_inv (d rest : List Char) (n : Nat) (rest2 : List Char)
    (hdig : ∀ c ∈ d, c.isDigit = true) (hd : d ≠ [])
    (hb : ∀ a t, rest = a :: t → a.isDigit = false)
    (h : parseNumStrict (d ++ rest) = some (n, rest2)) :
    n = natOfDigits d ∧ rest2 = rest ∧
      (∀ c0 t0, d = c0 :: t0 → t0 ≠ [] → c0 ≠ '0') := by
  have htk : (d ++ rest).takeWhile Char.isDigit = d := by
    rw [List.takeWhile_append_of_pos hdig]
    cases hr : rest with
    | nil => simp
    | cons a t =>
      rw [List.takeWhile_cons, hb a t hr]
      simp
  have hdr : (d ++ rest).dropWhile Char.isDigit = rest := by
    rw [List.dropWhile_append_of_pos hdig]
    cases hr : rest with
    | nil => rfl
    | cons a t =>
      exact List.dropWhile_cons_of_neg
        (by rw [hb a t hr]; exact Bool.false_ne_true)
  unfold parseNumStrict at h
  simp only [htk, hdr] at h
  cases d with
  | nil => exact absurd rfl hd
  | cons c0 t0 =>
    cases t0 with
    | nil =>
      simp only [Option.some_inj, Prod.mk.injEq] at h
      obtain ⟨h1, h2⟩ := h
      refine ⟨?_, h2.symm, ?_⟩
      · have hv : natOfDigits [c0] = 10 * 0 + (c0.toNat - 48) := rfl
        omega
      · intro x t hx ht
        injection hx with hx1 hx2
        rw [← hx2] at ht
        exact absurd rfl ht
    | cons c1 t1 =>
      have h9 : (if c0 = '0' then (none : Option (Nat × List Char))
          else some (natOfDigits (c0 :: c1 :: t1), rest)) = some (n, rest2) := h
      by_cases h0 : c0 = '0'
      · rw [if_pos h0] at h9
        exact absurd h9 (by simp)
      · rw [if_neg h0] at h9
        simp only [Option.some_inj, Prod.mk.injEq] at h9
        obtain ⟨h1, h2⟩ := h9
        refine ⟨h1.symm, h2.symm, ?_⟩
        intro x t hx _
        injection hx with hx1 _
        rw [← hx1]
        exact h0

theorem parseSemVer_core (d1 d2 d3 : List Char) (v : SemV)
    (h1 : d1 ≠ []) (h2 : d2 ≠ []) (h3 : d3 ≠ [])
    (hd1 : ∀ c ∈ d1, c.isDigit = true) (hd2 : ∀ c ∈ d2, c.isDigit = true)
    (hd3 : ∀ c ∈ d3, c.isDigit = true)
    (h : parseSemVerL (d1 ++ '.' :: (d2 ++ '.' :: d3)) = some v) :
    v = ⟨natOfDigits d1, natOfDigits d2, natOfDigits d3, []⟩ ∧
      (∀ c0 t0, d1 = c0 :: t0 → t0 ≠ [] → c0 ≠ '0') ∧
      (∀ c0 t0, d2 = c0 :: t0 → t0 ≠ [] → c0 ≠ '0') ∧
      (∀ c0 t0, d3 = c0 :: t0 → t0 ≠ [] → c0 ≠ '0') := by
  unfold parseSemVerL at h
  cases hp1 : parseNumStrict (d1 ++ '.' :: (d2 ++ '.' :: d3)) with
  | none =>
    rw [hp1] at h
    exact absurd h (by simp)
  | some p1 =>
    obtain ⟨ma, r1⟩ := p1
    obtain ⟨hma, hr1, hs1⟩ := parseNumStrict_inv d1 ('.' :: (d2 ++ '.' :: d3)) ma r1 hd1 h1
      (fun a t hat => by injection hat with ha _; rw [← ha]; decide) hp1
    rw [hp1] at h
    subst hr1
    simp only [Option.bind_eq_bind, Option.some_bind] at h
    cases hp2 : parseNumStrict (d2 ++ '.' :: d3) with
    | none =>
      rw [hp2] at h
      exact absurd h (by simp)
    | some p2 =>
      obtain ⟨mi, r3⟩ := p2
      obtain ⟨hmi, hr3, hs2⟩ := parseNumStrict_inv d2 ('.' :: d3) mi r3 hd2 h2
        (fun a t hat => by injection hat with ha _; rw [← ha]; decide) hp2
      rw [hp2] at h
      subst hr3
      simp only [Option.bind_eq_bind, Option.some_bind] at h
      cases hp3 : parseNumStrict d3 with
      | none =>
        rw [hp3] at h
        exact absurd h (by simp)
      | some p3 =>
        obtain ⟨pa, r5⟩ := p3
        have hp3b : parseNumStrict (d3 ++ []) = some (pa, r5) := by
          rw [List.append_nil]
          exact hp3
        obtain ⟨hpa, hr5, hs3⟩ := parseNumStrict_inv d3 [] pa r5 hd3 h3
          (fun a t hat => by cases hat) hp3b
        rw [hp3] at h
        subst hr5
        simp only [Option.bind_eq_bind, Option.some_bind] at h
        simp only [Option.some_inj] at h
        refine ⟨?_, hs1, hs2, hs3⟩
        rw [← h, hma, hmi, hpa]

theorem core_parse_inj {r1 r2 : List Char} {v : SemV}
    (hc1 : coreShape r1 = true) (hc2 : coreShape r2 = true)
    (h1 : parseSemVer ⟨r1⟩ = some v) (h2 : parseSemVer ⟨r2⟩ = some v) :
    r1 = r2 := by
  obtain ⟨d1, d2, d3, hcore1, _, hn1, hn2, hn3, hdg1, hdg2, hdg3, _⟩ :=
    matchCore_decomp (coreShape_eq.mp hc1)
  obtain ⟨e1, e2, e3, hcore2, _, hm1, hm2, hm3, heg1, heg2, heg3, _⟩ :=
    matchCore_decomp (coreShape_eq.mp hc2)
  have hv1 : parseSemVerL (d1 ++ '.' :: (d2 ++ '.' :: d3)) = some v := by
    rw [← hcore1]
    exact h1
  have hv2 : parseSemVerL (e1 ++ '.' :: (e2 ++ '.' :: e3)) = some v := by
    rw [← hcore2]
    exact h2
  obtain ⟨hveq1, hs11, hs12, hs13⟩ :=
    parseSemVer_core d1 d2 d3 v hn1 hn2 hn3 hdg1 hdg2 hdg3 hv1
  obtain ⟨hveq2, hs21, hs22, hs23⟩ :=
    parseSemVer_core e1 e2 e3 v hm1 hm2 hm3 heg1 heg2 heg3 hv2
  have hvv := hveq1.symm.trans hveq2
  have hq1 : natOfDigits d1 = natOfDigits e1 := congrArg SemV.major hvv
  have hq2 : natOfDigits d2 = natOfDigits e2 := congrArg SemV.minor hvv
  have hq3 : natOfDigits d3 = natOfDigits e3 := congrArg SemV.patch hvv
  have hde1 : d1 = e1 := natOfDigits_inj d1 e1 hdg1 heg1 hn1 hm1 hs11 hs21 hq1
  have hde2 : d2 = e2 := natOfDigits_inj d2 e2 hdg2 heg2 hn2 hm2 hs12 hs22 hq2
  have hde3 : d3 = e3 := natOfDigits_inj d3 e3 hdg3 heg3 hn3 hm3 hs13 hs23 hq3
  rw [hcore1, hcore2, hde1, hde2, hde3]

theorem compareVer_free {a b : SemV} (ha : a.pre = []) (hb : b.pre = []) :
    compareVer a b =
      (match compare a.major b.major with
       | .eq =>
         (match compare a.minor b.minor with
          | .eq => compare a.patch b.patch
          | o => o)
       | o => o) := by
  unfold compareVer
  rw [ha, hb]
  cases h1 : compare a.major b.major with
  | lt => rfl
  | gt => rfl
  | eq =>
    cases h2 : compare a.minor b.minor with
    | lt => rfl
    | gt => rfl
    | eq =>
      cases h3 : compare a.patch b.patch with
      | lt => rfl
      | gt => rfl
      | eq => rfl

theorem verEq_eq {a b : SemV} (ha : a.pre = []) (hb : b.pre = [])
    (h : verEqV a b = true) : a = b := by
  unfold verEqV at h
  rw [compareVer_free ha hb] at h
  simp only [decide_eq_true_eq] at h
  have hmaj : a.major = b.major := by
    cases h1 : compare a.major b.major with
    | lt => rw [h1] at h; cases h
    | gt => rw [h1] at h; cases h
    | eq => exact Nat.compare_eq_eq.mp h1
  rw [Nat.compare_eq_eq.mpr hmaj] at h
  have hmin : a.minor = b.minor := by
    cases h2 : compare a.minor b.minor with
    | lt => rw [h2] at h; cases h
    | gt => rw [h2] at h; cases h
    | eq => exact Nat.compare_eq_eq.mp h2
  rw [Nat.compare_eq_eq.mpr hmin] at h
  have hpat : a.patch = b.patch := Nat.compare_eq_eq.mp h
  obtain ⟨a1, a2, a3, a4⟩ := a
  obtain ⟨b1, b2, b3, b4⟩ := b
  simp only at hmaj hmin hpat ha hb
  rw [hmaj, hmin, hpat, ha, hb]

theorem compareVer_swap_free {a b : SemV} (ha : a.pre = []) (hb : b.pre = []) :
    compareVer b a = (compareVer a b).swap := by
  rw [compareVer_free ha hb, compareVer_free hb ha]
  rcases Nat.lt_trichotomy a.major b.major with h1 | h1 | h1
  · rw [Nat.compare_eq_lt.mpr h1, Nat.compare_eq_gt.mpr h1]
    rfl
  · rw [Nat.compare_eq_eq.mpr h1, Nat.compare_eq_eq.mpr h1.symm]
    rcases Nat.lt_trichotomy a.minor b.minor with h2 | h2 | h2
    · rw [Nat.compare_eq_lt.mpr h2, Nat.compare_eq_gt.mpr h2]
      rfl
    · rw [Nat.compare_eq_eq.mpr h2, Nat.compare_eq_eq.mpr h2.symm]
      rcases Nat.lt_trichotomy a.patch b.patch with h3 | h3 | h3
      · rw [Nat.compare_eq_lt.mpr h3, Nat.compare_eq_gt.mpr h3]
        rfl
      · rw [Nat.compare_eq_eq.mpr h3, Nat.compare_eq_eq.mpr h3.symm]
        rfl
      · rw [Nat.compare_eq_gt.mpr h3, Nat.compare_eq_lt.mpr h3]
        rfl
    · rw [Nat.compare_eq_gt.mpr h2, Nat.compare_eq_lt.mpr h2]
      rfl
  · rw [Nat.compare_eq_gt.mpr h1, Nat.compare_eq_lt.mpr h1]
    rfl

theorem verLt_of_not_gt_eq {a b : SemV} (hg : verGtV a b = false)
    (he : verEqV a b = false) : verLtV a b = true := by
  unfold verGtV verEqV verLtV at *
  cases h : compareVer a b with
  | lt => simp
  | eq => rw [h] at he; simp at he
  | gt => rw [h] at hg; simp at hg

theorem verGt_swap {a b : SemV} (ha : a.pre = []) (hb : b.pre = [])
    (h : verGtV a b = true) : verLtV b a = true := by
  unfold verGtV at h
  unfold verLtV
  rw [compareVer_swap_free ha hb]
  simp only [decide_eq_true_eq] at h ⊢
  rw [h]
  rfl

theorem verLt_swap {a b : SemV} (ha : a.pre = []) (hb : b.pre = [])
    (h : verLtV a b = true) : verGtV b a = true := by
  unfold verLtV at h
  unfold verGtV
  rw [compareVer_swap_free ha hb]
  simp only [decide_eq_true_eq] at h ⊢
  rw [h]
  rfl

theorem verEq_swap {a b : SemV} (ha : a.pre = []) (hb : b.pre = [])
    (h : verEqV a b = true) : verEqV b a = true := by
  unfold verEqV at h ⊢
  rw [compareVer_swap_free ha hb]
  simp only [decide_eq_true_eq] at h ⊢
  rw [h]
  rfl

theorem intersectStep_single (S : SemverLib) (b : Bound) (c : String) :
    intersectStep S [b] [[c]] =
      (match updateBounds S b c with
       | .ok u => .ok [u]
       | .error e => .error e) := by
  have hbf : branchFold S (b, [c]) = updateBounds S b c := by
    unfold branchFold
    simp only [List.foldlM_cons, List.foldlM_nil]
    cases hu : updateBounds S b c with
    | ok u => rfl
    | error e => rfl
  unfold intersectStep
  cases hu : updateBounds S b c with
  | ok u =>
    rw [hu] at hbf
    have hres : (allPairs [b] [[c]]).map (branchFold S) = [Except.ok u] := by
      show [branchFold S (b, [c])] = [Except.ok u]
      rw [hbf]
    rw [hres]
    rfl
  | error e =>
    rw [hu] at hbf
    have hres : (allPairs [b] [[c]]).map (branchFold S) = [Except.error e] := by
      show [branchFold S (b, [c])] = [Except.error e]
      rw [hbf]
    rw [hres]
    rfl

theorem checkBound_ok_forced (S : SemverLib) (x version bound : String)
    (hb : bound ≠ "")
    (h : checkBound S x none version bound = Except.ok ()) :
    (S.satisfies version bound && S.intersects x bound) = true := by
  unfold checkBound at h
  rw [if_neg hb] at h
  by_cases hs : (S.satisfies version bound && S.intersects x bound) = true
  · exact hs
  · rw [if_neg hs] at h
    exact absurd h (by simp)

theorem ensure_forced_two (S : SemverLib) (x b1 b2 : String) (pr : ParsedRange)
    (hpr : parseRange x = some pr)
    (h : ensureCompatible S x [b1, b2] = .ok ()) :
    checkBound S x pr.prerelease pr.version b1 = .ok () ∧
    checkBound S x pr.prerelease pr.version b2 = .ok () := by
  unfold ensureCompatible at h
  rw [hpr] at h
  simp only [List.foldlM_cons, List.foldlM_nil] at h
  cases hc1 : checkBound S x pr.prerelease pr.version b1 with
  | error e =>
    rw [hc1, exc_err_bind] at h
    exact absurd h (by simp)
  | ok u =>
    cases u
    rw [hc1, exc_ok_bind] at h
    cases hc2 : checkBound S x pr.prerelease pr.version b2 with
    | error e =>
      rw [hc2, exc_err_bind] at h
      exact absurd h (by simp)
    | ok u2 =>
      cases u2
      exact ⟨rfl, rfl⟩

theorem ensure_forced_one (S : SemverLib) (x b1 : String) (pr : ParsedRange)
    (hpr : parseRange x = some pr)
    (h : ensureCompatible S x [b1] = .ok ()) :
    checkBound S x pr.prerelease pr.version b1 = .ok () := by
  unfold ensureCompatible at h
  rw [hpr] at h
  simp only [List.foldlM_cons, List.foldlM_nil] at h
  cases hc1 : checkBound S x pr.prerelease pr.version b1 with
  | error e =>
    rw [hc1, exc_err_bind] at h
    exact absurd h (by simp)
  | ok u =>
    cases u
    rfl

theorem updateBounds_exact (S : SemverLib) (b : Bound) (x vstr : String)
    (hpr : parseRange x = some ⟨"=", none, vstr⟩) :
    updateBounds S b x =
      (ensureCompatible S x [b.lowerBound, b.upperBound] >>= fun _ =>
        .ok ⟨">=" ++ x, "<=" ++ x⟩) := by
  unfold updateBounds
  simp only [hpr]
  rfl

theorem updateBounds_gtc (S : SemverLib) (b : Bound) (x vstr cond : String)
    (hpr : parseRange x = some ⟨cond, none, vstr⟩)
    (hne : cond ≠ "=") (hcond : condStarts cond '>' = true) :
    updateBounds S b x =
      (ensureCompatible S x [b.upperBound] >>= fun _ =>
        (mergeBounds x b.lowerBound).map fun l => ⟨l, b.upperBound⟩) := by
  unfold updateBounds
  simp only [hpr]
  have hpre : (if (none : Option (List PreId)).isSome = true then
      ensureCompatible S x [b.lowerBound, b.upperBound] else .ok ()) = .ok () := rfl
  rw [hpre, exc_ok_bind, if_neg hne, if_pos hcond]

theorem updateBounds_ltc (S : SemverLib) (b : Bound) (x vstr cond : String)
    (hpr : parseRange x = some ⟨cond, none, vstr⟩)
    (hne : cond ≠ "=") (hgt : condStarts cond '>' = false)
    (hlt : condStarts cond '<' = true) :
    updateBounds S b x =
      (ensureCompatible S x [b.lowerBound] >>= fun _ =>
        (mergeBounds x b.upperBound).map fun u => ⟨b.lowerBound, u⟩) := by
  unfold updateBounds
  simp only [hpr]
  have hpre : (if (none : Option (List PreId)).isSome = true then
      ensureCompatible S x [b.lowerBound, b.upperBound] else .ok ()) = .ok () := rfl
  rw [hpre, exc_ok_bind, if_neg hne, if_neg (by rw [hgt]; exact Bool.false_ne_true),
    if_pos hlt]

theorem ensure_empty_two (S : SemverLib) (x : String) (pr : ParsedRange)
    (hpr : parseRange x = some pr) :
    ensureCompatible S x ["", ""] = .ok () := by
  unfold ensureCompatible
  rw [hpr]
  rfl

theorem ensure_empty_one (S : SemverLib) (x : String) (pr : ParsedRange)
    (hpr : parseRange x = some pr) :
    ensureCompatible S x [""] = .ok () := by
  unfold ensureCompatible
  rw [hpr]
  rfl

theorem mergeBounds_single (opx rx opy ry : List Char) (vx vy : SemV)
    (hopx : opx ∈ [([] : List Char), ['>'], ['>', '='], ['<'], ['<', '=']])
    (hopy : opy ∈ [([] : List Char), ['>'], ['>', '='], ['<'], ['<', '=']])
    (hrx : coreShape rx = true) (hry : coreShape ry = true)
    (hvx : parseSemVer ⟨rx⟩ = some vx) (hvy : parseSemVer ⟨ry⟩ = some vy)
    (hpx : vx.pre = []) (hpy : vy.pre = []) :
    mergeBounds ⟨opx ++ rx⟩ ⟨opy ++ ry⟩ =
      .ok (if (if condStarts (if opx = [] then "=" else (⟨opx⟩ : String)) '<'
               then verLtV vx vy else verGtV vx vy) = true
           then (⟨opx ++ rx⟩ : String)
           else if (((if opx = [] then "=" else (⟨opx⟩ : String)) = "<" ||
                     (if opx = [] then "=" else (⟨opx⟩ : String)) = ">") &&
                    verEqV vx vy) = true
           then (⟨opx ++ rx⟩ : String)
           else (⟨opy ++ ry⟩ : String)) := by
  have hyne : (⟨opy ++ ry⟩ : String) ≠ "" := by
    obtain ⟨_, ⟨c0, t0, hrc, _⟩, _, _⟩ := matchCore_sound (coreShape_eq.mp hry)
    intro hc
    have h0 : opy ++ ry = [] := congrArg String.data hc
    rcases List.append_eq_nil.mp h0 with ⟨_, h2⟩
    rw [hrc] at h2
    cases h2
  unfold mergeBounds
  rw [if_neg hyne]
  simp only [parseRange_single opx rx vx hopx hrx hvx hpx,
    parseRange_single opy ry vy hopy hry hvy hpy]
  simp only [hvx, hvy]
  by_cases hc1 : (if condStarts (if opx = [] then "=" else (⟨opx⟩ : String)) '<'
      then verLtV vx vy else verGtV vx vy) = true
  · rw [if_pos hc1, if_pos hc1]
  · rw [if_neg hc1, if_neg hc1]
    by_cases hc2 : (((if opx = [] then "=" else (⟨opx⟩ : String)) = "<" ||
        (if opx = [] then "=" else (⟨opx⟩ : String)) = ">") && verEqV vx vy) = true
    · rw [if_pos hc2, if_pos hc2]
    · rw [if_neg hc2, if_neg hc2]

theorem mergeBounds_G (opx rx opy ry : List Char) (vx vy : SemV)
    (hopx : opx ∈ [(['>'] : List Char), ['>', '=']])
    (hopy : opy ∈ [([] : List Char), ['>'], ['>', '='], ['<'], ['<', '=']])
    (hrx : coreShape rx = true) (hry : coreShape ry = true)
    (hvx : parseSemVer ⟨rx⟩ = some vx) (hvy : parseSemVer ⟨ry⟩ = some vy)
    (hpx : vx.pre = []) (hpy : vy.pre = []) :
    mergeBounds ⟨opx ++ rx⟩ ⟨opy ++ ry⟩ =
      .ok (if verGtV vx vy = true then (⟨opx ++ rx⟩ : String)
           else if (decide (opx = ['>']) && verEqV vx vy) = true
           then (⟨opx ++ rx⟩ : String)
           else (⟨opy ++ ry⟩ : String)) := by
  simp only [List.mem_cons, List.not_mem_nil, or_false] at hopx
  rcases hopx with rfl | rfl
  · rw [mergeBounds_single ['>'] rx opy ry vx vy (by simp) hopy hrx hry hvx hvy hpx hpy]
    rw [show (if (['>'] : List Char) = [] then "=" else (⟨['>']⟩ : String)) = ">" from rfl]
    rw [show condStarts ">" '<' = false from rfl]
    rw [show ((">" : String) = "<" || (">" : String) = ">") = true from rfl]
    simp
  · rw [mergeBounds_single ['>', '='] rx opy ry vx vy (by simp) hopy hrx hry hvx hvy hpx hpy]
    rw [show (if (['>', '='] : List Char) = [] then "=" else (⟨['>', '=']⟩ : String)) = ">="
      from rfl]
    rw [show condStarts ">=" '<' = false from rfl]
    rw [show ((">=" : String) = "<" || (">=" : String) = ">") = false from rfl]
    simp

theorem mergeBounds_L (opx rx opy ry : List Char) (vx vy : SemV)
    (hopx : opx ∈ [(['<'] : List Char), ['<', '=']])
    (hopy : opy ∈ [([] : List Char), ['>'], ['>', '='], ['<'], ['<', '=']])
    (hrx : coreShape rx = true) (hry : coreShape ry = true)
    (hvx : parseSemVer ⟨rx⟩ = some vx) (hvy : parseSemVer ⟨ry⟩ = some vy)
    (hpx : vx.pre = []) (hpy : vy.pre = []) :
    mergeBounds ⟨opx ++ rx⟩ ⟨opy ++ ry⟩ =
      .ok (if verLtV vx vy = true then (⟨opx ++ rx⟩ : String)
           else if (decide (opx = ['<']) && verEqV vx vy) = true
           then (⟨opx ++ rx⟩ : String)
           else (⟨opy ++ ry⟩ : String)) := by
  simp only [List.mem_cons, List.not_mem_nil, or_false] at hopx
  rcases hopx with rfl | rfl
  · rw [mergeBounds_single ['<'] rx opy ry vx vy (by simp) hopy hrx hry hvx hvy hpx hpy]
    rw [show (if (['<'] : List Char) = [] then "=" else (⟨['<']⟩ : String)) = "<" from rfl]
    rw [show condStarts "<" '<' = true from rfl]
    rw [show (("<" : String) = "<" || ("<" : String) = ">") = true from rfl]
    simp
  · rw [mergeBounds_single ['<', '='] rx opy ry vx vy (by simp) hopy hrx hry hvx hvy hpx hpy]
    rw [show (if (['<', '='] : List Char) = [] then "=" else (⟨['<', '=']⟩ : String)) = "<="
      from rfl]
    rw [show condStarts "<=" '<' = true from rfl]
    rw [show (("<=" : String) = "<" || ("<=" : String) = ">") = false from rfl]
    simp

theorem merge_comm_G (opx rx opy ry : List Char) (vx vy : SemV)
    (hopx : opx ∈ [(['>'] : List Char), ['>', '=']])
    (hopy : opy ∈ [(['>'] : List Char), ['>', '=']])
    (hrx : coreShape rx = true) (hry : coreShape ry = true)
    (hvx : parseSemVer ⟨rx⟩ = some vx) (hvy : parseSemVer ⟨ry⟩ = some vy)
    (hpx : vx.pre = []) (hpy : vy.pre = []) :
    mergeBounds ⟨opx ++ rx⟩ ⟨opy ++ ry⟩ = mergeBounds ⟨opy ++ ry⟩ ⟨opx ++ rx⟩ := by
  have widen : ∀ op : List Char, op ∈ [(['>'] : List Char), ['>', '=']] →
      op ∈ [([] : List Char), ['>'], ['>', '='], ['<'], ['<', '=']] := by
    intro op hop
    simp only [List.mem_cons, List.not_mem_nil, or_false] at hop ⊢
    rcases hop with rfl | rfl
    · exact Or.inr (Or.inl rfl)
    · exact Or.inr (Or.inr (Or.inl rfl))
  rw [mergeBounds_G opx rx opy ry vx vy hopx (widen opy hopy) hrx hry hvx hvy hpx hpy,
    mergeBounds_G opy ry opx rx vy vx hopy (widen opx hopx) hry hrx hvy hvx hpy hpx]
  simp only [Except.ok.injEq]
  cases h : compareVer vx vy with
  | lt =>
    have h2 : compareVer vy vx = .gt := by
      rw [compareVer_swap_free hpx hpy, h]
      rfl
    have a1 : verGtV vx vy = false := by unfold verGtV; rw [h]; rfl
    have a3 : verEqV vx vy = false := by unfold verEqV; rw [h]; rfl
    have b1 : verGtV vy vx = true := by unfold verGtV; rw [h2]; rfl
    simp [a1, a3, b1]
  | gt =>
    have h2 : compareVer vy vx = .lt := by
      rw [compareVer_swap_free hpx hpy, h]
      rfl
    have a1 : verGtV vx vy = true := by unfold verGtV; rw [h]; rfl
    have b1 : verGtV vy vx = false := by unfold verGtV; rw [h2]; rfl
    have b3 : verEqV vy vx = false := by unfold verEqV; rw [h2]; rfl
    simp [a1, b1, b3]
  | eq =>
    have hvv : vx = vy := verEq_eq hpx hpy (by unfold verEqV; rw [h]; rfl)
    subst hvv
    have hxy : rx = ry := core_parse_inj hrx hry hvx hvy
    subst hxy
    have a1 : verGtV vx vx = false := by unfold verGtV; rw [h]; rfl
    have a3 : verEqV vx vx = true := by unfold verEqV; rw [h]; rfl
    simp only [List.mem_cons, List.not_mem_nil, or_false] at hopx hopy
    rcases hopx with rfl | rfl <;> rcases hopy with rfl | rfl <;> simp [a1, a3]

theorem merge_comm_L (opx rx opy ry : List Char) (vx vy : SemV)
    (hopx : opx ∈ [(['<'] : List Char), ['<', '=']])
    (hopy : opy ∈ [(['<'] : List Char), ['<', '=']])
    (hrx : coreShape rx = true) (hry : coreShape ry = true)
    (hvx : parseSemVer ⟨rx⟩ = some vx) (hvy : parseSemVer ⟨ry⟩ = some vy)
    (hpx : vx.pre = []) (hpy : vy.pre = []) :
    mergeBounds ⟨opx ++ rx⟩ ⟨opy ++ ry⟩ = mergeBounds ⟨opy ++ ry⟩ ⟨opx ++ rx⟩ := by
  have widen : ∀ op : List Char, op ∈ [(['<'] : List Char), ['<', '=']] →
      op ∈ [([] : List Char), ['>'], ['>', '='], ['<'], ['<', '=']] := by
    intro op hop
    simp only [List.mem_cons, List.not_mem_nil, or_false] at hop ⊢
    rcases hop with rfl | rfl
    · exact Or.inr (Or.inr (Or.inr (Or.inl rfl)))
    · exact Or.inr (Or.inr (Or.inr (Or.inr rfl)))
  rw [mergeBounds_L opx rx opy ry vx vy hopx (widen opy hopy) hrx hry hvx hvy hpx hpy,
    mergeBounds_L opy ry opx rx vy vx hopy (widen opx hopx) hry hrx hvy hvx hpy hpx]
  simp only [Except.ok.injEq]
  cases h : compareVer vx vy with
  | lt =>
    have h2 : compareVer vy vx = .gt := by
      rw [compareVer_swap_free hpx hpy, h]
      rfl
    have a1 : verLtV vx vy = true := by unfold verLtV; rw [h]; rfl
    have b1 : verLtV vy vx = false := by unfold verLtV; rw [h2]; rfl
    have b3 : verEqV vy vx = false := by unfold verEqV; rw [h2]; rfl
    simp [a1, b1, b3]
  | gt =>
    have h2 : compareVer vy vx = .lt := by
      rw [compareVer_swap_free hpx hpy, h]
      rfl
    have a1 : verLtV vx vy = false := by unfold verLtV; rw [h]; rfl
    have a3 : verEqV vx vy = false := by unfold verEqV; rw [h]; rfl
    have b1 : verLtV vy vx = true := by unfold verLtV; rw [h2]; rfl
    simp [a1, a3, b1]
  | eq =>
    have hvv : vx = vy := verEq_eq hpx hpy (by unfold verEqV; rw [h]; rfl)
    subst hvv
    have hxy : rx = ry := core_parse_inj hrx hry hvx hvy
    subst hxy
    have a1 : verLtV vx vx = false := by unfold verLtV; rw [h]; rfl
    have a3 : verEqV vx vx = true := by unfold verEqV; rw [h]; rfl
    simp only [List.mem_cons, List.not_mem_nil, or_false] at hopx hopy
    rcases hopx with rfl | rfl <;> rcases hopy with rfl | rfl <;> simp [a1, a3]

theorem parseRange_E (r : List Char) (v : SemV)
    (hr : coreShape r = true) (hv : parseSemVer ⟨r⟩ = some v) (hpre : v.pre = []) :
    parseRange ⟨r⟩ = some ⟨"=", none, (⟨r⟩ : String)⟩ := by
  have h : parseRange ⟨[] ++ r⟩ =
      some ⟨if ([] : List Char) = [] then "=" else (⟨[]⟩ : String), none, (⟨r⟩ : String)⟩ :=
    parseRange_single [] r v (by simp) hr hv hpre
  exact h

theorem parseRange_G (op r : List Char) (v : SemV)
    (hop : op ∈ [(['>'] : List Char), ['>', '=']])
    (hr : coreShape r = true) (hv : parseSemVer ⟨r⟩ = some v) (hpre : v.pre = []) :
    parseRange ⟨op ++ r⟩ = some ⟨(⟨op⟩ : String), none, (⟨r⟩ : String)⟩ ∧
      (⟨op⟩ : String) ≠ "=" ∧ condStarts ⟨op⟩ '>' = true ∧
      condStarts ⟨op⟩ '<' = false := by
  simp only [List.mem_cons, List.not_mem_nil, or_false] at hop
  rcases hop with rfl | rfl
  · have h : parseRange ⟨['>'] ++ r⟩ = some ⟨(⟨['>']⟩ : String), none, (⟨r⟩ : String)⟩ :=
      parseRange_single ['>'] r v (by simp) hr hv hpre
    exact ⟨h, by decide, by decide, by decide⟩
  · have h : parseRange ⟨['>', '='] ++ r⟩ =
        some ⟨(⟨['>', '=']⟩ : String), none, (⟨r⟩ : String)⟩ :=
      parseRange_single ['>', '='] r v (by simp) hr hv hpre
    exact ⟨h, by decide, by decide, by decide⟩

theorem parseRange_L (op r : List Char) (v : SemV)
    (hop : op ∈ [(['<'] : List Char), ['<', '=']])
    (hr : coreShape r = true) (hv : parseSemVer ⟨r⟩ = some v) (hpre : v.pre = []) :
    parseRange ⟨op ++ r⟩ = some ⟨(⟨op⟩ : String), none, (⟨r⟩ : String)⟩ ∧
      (⟨op⟩ : String) ≠ "=" ∧ condStarts ⟨op⟩ '>' = false ∧
      condStarts ⟨op⟩ '<' = true := by
  simp only [List.mem_cons, List.not_mem_nil, or_false] at hop
  rcases hop with rfl | rfl
  · have h : parseRange ⟨['<'] ++ r⟩ = some ⟨(⟨['<']⟩ : String), none, (⟨r⟩ : String)⟩ :=
      parseRange_single ['<'] r v (by simp) hr hv hpre
    exact ⟨h, by decide, by decide, by decide⟩
  · have h : parseRange ⟨['<', '='] ++ r⟩ =
        some ⟨(⟨['<', '=']⟩ : String), none, (⟨r⟩ : String)⟩ :=
      parseRange_single ['<', '='] r v (by simp) hr hv hpre
    exact ⟨h, by decide, by decide, by decide⟩

theorem updateBounds0_E (S : SemverLib) (x vstr : String)
    (hpr : parseRange x = some ⟨"=", none, vstr⟩) :
    updateBounds S ⟨"", ""⟩ x = .ok ⟨">=" ++ x, "<=" ++ x⟩ := by
  have h0 : updateBounds S ⟨"", ""⟩ x =
      (ensureCompatible S x ["", ""] >>= fun _ => .ok ⟨">=" ++ x, "<=" ++ x⟩) :=
    updateBounds_exact S ⟨"", ""⟩ x vstr hpr
  rw [h0, ensure_empty_two S x ⟨"=", none, vstr⟩ hpr, exc_ok_bind]

theorem updateBounds0_G (S : SemverLib) (x vstr cond : String)
    (hpr : parseRange x = some ⟨cond, none, vstr⟩)
    (hne : cond ≠ "=") (hcond : condStarts cond '>' = true) :
    updateBounds S ⟨"", ""⟩ x = .ok ⟨x, ""⟩ := by
  have h0 : updateBounds S ⟨"", ""⟩ x =
      (ensureCompatible S x [""] >>= fun _ =>
        (mergeBounds x "").map fun l => ⟨l, ""⟩) :=
    updateBounds_gtc S ⟨"", ""⟩ x vstr cond hpr hne hcond
  rw [h0, ensure_empty_one S x ⟨cond, none, vstr⟩ hpr, exc_ok_bind]
  rfl

theorem updateBounds0_L (S : SemverLib) (x vstr cond : String)
    (hpr : parseRange x = some ⟨cond, none, vstr⟩)
    (hne : cond ≠ "=") (hgt : condStarts cond '>' = false)
    (hlt : condStarts cond '<' = true) :
    updateBounds S ⟨"", ""⟩ x = .ok ⟨"", x⟩ := by
  have h0 : updateBounds S ⟨"", ""⟩ x =
      (ensureCompatible S x [""] >>= fun _ =>
        (mergeBounds x "").map fun u => ⟨"", u⟩) :=
    updateBounds_ltc S ⟨"", ""⟩ x vstr cond hpr hne hgt hlt
  rw [h0, ensure_empty_one S x ⟨cond, none, vstr⟩ hpr, exc_ok_bind]
  rfl

theorem comp_ne_empty (op r : List Char) (hr : coreShape r = true) :
    (⟨op ++ r⟩ : String) ≠ "" := by
  obtain ⟨_, ⟨c0, t0, hrc, _⟩, _, _⟩ := matchCore_sound (coreShape_eq.mp hr)
  intro hc
  have h0 : op ++ r = [] := congrArg String.data hc
  rcases List.append_eq_nil.mp h0 with ⟨_, h2⟩
  rw [hrc] at h2
  cases h2

theorem fold_comm_GG (S : SemverLib) (opa ra opb rb : List Char) (va vb : SemV)
    (hopa : opa ∈ [(['>'] : List Char), ['>', '=']])
    (hopb : opb ∈ [(['>'] : List Char), ['>', '=']])
    (hra : coreShape ra = true) (hrb : coreShape rb = true)
    (hva : parseSemVer ⟨ra⟩ = some va) (hvb : parseSemVer ⟨rb⟩ = some vb)
    (hpa : va.pre = []) (hpb : vb.pre = [])
    (u1 v1 w1 w2 : Bound)
    (hu1 : updateBounds S ⟨"", ""⟩ ⟨opa ++ ra⟩ = .ok u1)
    (hw1 : updateBounds S u1 ⟨opb ++ rb⟩ = .ok w1)
    (hv1 : updateBounds S ⟨"", ""⟩ ⟨opb ++ rb⟩ = .ok v1)
    (hw2 : updateBounds S v1 ⟨opa ++ ra⟩ = .ok w2) :
    w1 = w2 := by
  obtain ⟨hpra, hnea, hgta, hlta⟩ := parseRange_G opa ra va hopa hra hva hpa
  obtain ⟨hprb, hneb, hgtb, hltb⟩ := parseRange_G opb rb vb hopb hrb hvb hpb
  rw [updateBounds0_G S ⟨opa ++ ra⟩ ⟨ra⟩ ⟨opa⟩ hpra hnea hgta] at hu1
  injection hu1 with hu1e
  subst hu1e
  rw [updateBounds0_G S ⟨opb ++ rb⟩ ⟨rb⟩ ⟨opb⟩ hprb hneb hgtb] at hv1
  injection hv1 with hv1e
  subst hv1e
  have hubB : updateBounds S ⟨⟨opa ++ ra⟩, ""⟩ ⟨opb ++ rb⟩ =
      (ensureCompatible S ⟨opb ++ rb⟩ [""] >>= fun _ =>
        (mergeBounds ⟨opb ++ rb⟩ ⟨opa ++ ra⟩).map fun l => ⟨l, ""⟩) :=
    updateBounds_gtc S ⟨⟨opa ++ ra⟩, ""⟩ ⟨opb ++ rb⟩ ⟨rb⟩ ⟨opb⟩ hprb hneb hgtb
  rw [hubB, ensure_empty_one S ⟨opb ++ rb⟩ ⟨⟨opb⟩, none, ⟨rb⟩⟩ hprb, exc_ok_bind] at hw1
  have hubA : updateBounds S ⟨⟨opb ++ rb⟩, ""⟩ ⟨opa ++ ra⟩ =
      (ensureCompatible S ⟨opa ++ ra⟩ [""] >>= fun _ =>
        (mergeBounds ⟨opa ++ ra⟩ ⟨opb ++ rb⟩).map fun l => ⟨l, ""⟩) :=
    updateBounds_gtc S ⟨⟨opb ++ rb⟩, ""⟩ ⟨opa ++ ra⟩ ⟨ra⟩ ⟨opa⟩ hpra hnea hgta
  rw [hubA, ensure_empty_one S ⟨opa ++ ra⟩ ⟨⟨opa⟩, none, ⟨ra⟩⟩ hpra, exc_ok_bind] at hw2
  rw [merge_comm_G opb rb opa ra vb va hopb hopa hrb hra hvb hva hpb hpa] at hw1
  have hh := hw1.symm.trans hw2
  injection hh

theorem fold_comm_LL (S : SemverLib) (opa ra opb rb : List Char) (va vb : SemV)
    (hopa : opa ∈ [(['<'] : List Char), ['<', '=']])
    (hopb : opb ∈ [(['<'] : List Char), ['<', '=']])
    (hra : coreShape ra = true) (hrb : coreShape rb = true)
    (hva : parseSemVer ⟨ra⟩ = some va) (hvb : parseSemVer ⟨rb⟩ = some vb)
    (hpa : va.pre = []) (hpb : vb.pre = [])
    (u1 v1 w1 w2 : Bound)
    (hu1 : updateBounds S ⟨"", ""⟩ ⟨opa ++ ra⟩ = .ok u1)
    (hw1 : updateBounds S u1 ⟨opb ++ rb⟩ = .ok w1)
    (hv1 : updateBounds S ⟨"", ""⟩ ⟨opb ++ rb⟩ = .ok v1)
    (hw2 : updateBounds S v1 ⟨opa ++ ra⟩ = .ok w2) :
    w1 = w2 := by
  obtain ⟨hpra, hnea, hgta, hlta⟩ := parseRange_L opa ra va hopa hra hva hpa
  obtain ⟨hprb, hneb, hgtb, hltb⟩ := parseRange_L opb rb vb hopb hrb hvb hpb
  rw [updateBounds0_L S ⟨opa ++ ra⟩ ⟨ra⟩ ⟨opa⟩ hpra hnea hgta hlta] at hu1
  injection hu1 with hu1e
  subst hu1e
  rw [updateBounds0_L S ⟨opb ++ rb⟩ ⟨rb⟩ ⟨opb⟩ hprb hneb hgtb hltb] at hv1
  injection hv1 with hv1e
  subst hv1e
  have hubB : updateBounds S ⟨"", ⟨opa ++ ra⟩⟩ ⟨opb ++ rb⟩ =
      (ensureCompatible S ⟨opb ++ rb⟩ [""] >>= fun _ =>
        (mergeBounds ⟨opb ++ rb⟩ ⟨opa ++ ra⟩).map fun u => ⟨"", u⟩) :=
    updateBounds_ltc S ⟨"", ⟨opa ++ ra⟩⟩ ⟨opb ++ rb⟩ ⟨rb⟩ ⟨opb⟩ hprb hneb hgtb hltb
  rw [hubB, ensure_empty_one S ⟨opb ++ rb⟩ ⟨⟨opb⟩, none, ⟨rb⟩⟩ hprb, exc_ok_bind] at hw1
  have hubA : updateBounds S ⟨"", ⟨opb ++ rb⟩⟩ ⟨opa ++ ra⟩ =
      (ensureCompatible S ⟨opa ++ ra⟩ [""] >>= fun _ =>
        (mergeBounds ⟨opa ++ ra⟩ ⟨opb ++ rb⟩).map fun u => ⟨"", u⟩) :=
    updateBounds_ltc S ⟨"", ⟨opb ++ rb⟩⟩ ⟨opa ++ ra⟩ ⟨ra⟩ ⟨opa⟩ hpra hnea hgta hlta
  rw [hubA, ensure_empty_one S ⟨opa ++ ra⟩ ⟨⟨opa⟩, none, ⟨ra⟩⟩ hpra, exc_ok_bind] at hw2
  rw [merge_comm_L opb rb opa ra vb va hopb hopa hrb hra hvb hva hpb hpa] at hw1
  have hh := hw1.symm.trans hw2
  injection hh

theorem fold_comm_GL (S : SemverLib) (opa ra opb rb : List Char) (va vb : SemV)
    (hopa : opa ∈ [(['>'] : List Char), ['>', '=']])
    (hopb : opb ∈ [(['<'] : List Char), ['<', '=']])
    (hra : coreShape ra = true) (hrb : coreShape rb = true)
    (hva : parseSemVer ⟨ra⟩ = some va) (hvb : parseSemVer ⟨rb⟩ = some vb)
    (hpa : va.pre = []) (hpb : vb.pre = [])
    (u1 v1 w1 w2 : Bound)
    (hu1 : updateBounds S ⟨"", ""⟩ ⟨opa ++ ra⟩ = .ok u1)
    (hw1 : updateBounds S u1 ⟨opb ++ rb⟩ = .ok w1)
    (hv1 : updateBounds S ⟨"", ""⟩ ⟨opb ++ rb⟩ = .ok v1)
    (hw2 : updateBounds S v1 ⟨opa ++ ra⟩ = .ok w2) :
    w1 = w2 := by
  obtain ⟨hpra, hnea, hgta, hlta⟩ := parseRange_G opa ra va hopa hra hva hpa
  obtain ⟨hprb, hneb, hgtb, hltb⟩ := parseRange_L opb rb vb hopb hrb hvb hpb
  rw [updateBounds0_G S ⟨opa ++ ra⟩ ⟨ra⟩ ⟨opa⟩ hpra hnea hgta] at hu1
  injection hu1 with hu1e
  subst hu1e
  rw [updateBounds0_L S ⟨opb ++ rb⟩ ⟨rb⟩ ⟨opb⟩ hprb hneb hgtb hltb] at hv1
  injection hv1 with hv1e
  subst hv1e
  have hubB : updateBounds S ⟨⟨opa ++ ra⟩, ""⟩ ⟨opb ++ rb⟩ =
      (ensureCompatible S ⟨opb ++ rb⟩ [⟨opa ++ ra⟩] >>= fun _ =>
        (mergeBounds ⟨opb ++ rb⟩ "").map fun u => ⟨⟨opa ++ ra⟩, u⟩) :=
    updateBounds_ltc S ⟨⟨opa ++ ra⟩, ""⟩ ⟨opb ++ rb⟩ ⟨rb⟩ ⟨opb⟩ hprb hneb hgtb hltb
  rw [hubB] at hw1
  cases hens1 : ensureCompatible S ⟨opb ++ rb⟩ [⟨opa ++ ra⟩] with
  | error e =>
    rw [hens1, exc_err_bind] at hw1
    exact absurd hw1 (by simp)
  | ok u =>
    cases u
    rw [hens1, exc_ok_bind] at hw1
    have hmb : (mergeBounds ⟨opb ++ rb⟩ "").map
        (fun u => (⟨⟨opa ++ ra⟩, u⟩ : Bound)) =
        .ok ⟨⟨opa ++ ra⟩, ⟨opb ++ rb⟩⟩ := rfl
    rw [hmb] at hw1
    injection hw1 with hw1e
    have hubA : updateBounds S ⟨"", ⟨opb ++ rb⟩⟩ ⟨opa ++ ra⟩ =
        (ensureCompatible S ⟨opa ++ ra⟩ [⟨opb ++ rb⟩] >>= fun _ =>
          (mergeBounds ⟨opa ++ ra⟩ "").map fun l => ⟨l, ⟨opb ++ rb⟩⟩) :=
      updateBounds_gtc S ⟨"", ⟨opb ++ rb⟩⟩ ⟨opa ++ ra⟩ ⟨ra⟩ ⟨opa⟩ hpra hnea hgta
    rw [hubA] at hw2
    cases hens2 : ensureCompatible S ⟨opa ++ ra⟩ [⟨opb ++ rb⟩] with
    | error e =>
      rw [hens2, exc_err_bind] at hw2
      exact absurd hw2 (by simp)
    | ok u2 =>
      cases u2
      rw [hens2, exc_ok_bind] at hw2
      have hmb2 : (mergeBounds ⟨opa ++ ra⟩ "").map
          (fun l => (⟨l, ⟨opb ++ rb⟩⟩ : Bound)) =
          .ok ⟨⟨opa ++ ra⟩, ⟨opb ++ rb⟩⟩ := rfl
      rw [hmb2] at hw2
      injection hw2 with hw2e
      rw [← hw1e, ← hw2e]

theorem and_true_left {a b : Bool} (h : (a && b) = true) : a = true := by
  simp only [Bool.and_eq_true] at h
  exact h.1

set_option maxHeartbeats 1600000 in
theorem fold_comm_EE (ra rb : List Char) (va vb : SemV)
    (hra : coreShape ra = true) (hrb : coreShape rb = true)
    (hva : parseSemVer ⟨ra⟩ = some va) (hvb : parseSemVer ⟨rb⟩ = some vb)
    (hpa : va.pre = []) (hpb : vb.pre = [])
    (u1 v1 w1 w2 : Bound)
    (hu1 : updateBounds semverModel ⟨"", ""⟩ ⟨ra⟩ = .ok u1)
    (hw1 : updateBounds semverModel u1 ⟨rb⟩ = .ok w1)
    (hv1 : updateBounds semverModel ⟨"", ""⟩ ⟨rb⟩ = .ok v1)
    (hw2 : updateBounds semverModel v1 ⟨ra⟩ = .ok w2) :
    w1 = w2 := by
  have hpra := parseRange_E ra va hra hva hpa
  have hprb := parseRange_E rb vb hrb hvb hpb
  rw [updateBounds0_E semverModel ⟨ra⟩ ⟨ra⟩ hpra] at hu1
  injection hu1 with hu1e
  subst hu1e
  rw [updateBounds0_E semverModel ⟨rb⟩ ⟨rb⟩ hprb] at hv1
  injection hv1 with hv1e
  subst hv1e
  have hw1b : updateBounds semverModel ⟨⟨['>', '='] ++ ra⟩, ⟨['<', '='] ++ ra⟩⟩ ⟨rb⟩ =
      .ok w1 := hw1
  have hw2b : updateBounds semverModel ⟨⟨['>', '='] ++ rb⟩, ⟨['<', '='] ++ rb⟩⟩ ⟨ra⟩ =
      .ok w2 := hw2
  have hubB : updateBounds semverModel ⟨⟨['>', '='] ++ ra⟩, ⟨['<', '='] ++ ra⟩⟩ ⟨rb⟩ =
      (ensureCompatible semverModel ⟨rb⟩ [⟨['>', '='] ++ ra⟩, ⟨['<', '='] ++ ra⟩] >>=
        fun _ => .ok ⟨">=" ++ ⟨rb⟩, "<=" ++ ⟨rb⟩⟩) :=
    updateBounds_exact semverModel _ ⟨rb⟩ ⟨rb⟩ hprb
  rw [hubB] at hw1b
  cases hens1 : ensureCompatible semverModel ⟨rb⟩ [⟨['>', '='] ++ ra⟩, ⟨['<', '='] ++ ra⟩] with
  | error e =>
    rw [hens1, exc_err_bind] at hw1b
    exact absurd hw1b (by simp)
  | ok u =>
    cases u
    rw [hens1, exc_ok_bind] at hw1b
    injection hw1b with hw1e
    obtain ⟨hc1, hc2⟩ := ensure_forced_two semverModel ⟨rb⟩ ⟨['>', '='] ++ ra⟩
      ⟨['<', '='] ++ ra⟩ ⟨"=", none, (⟨rb⟩ : String)⟩ hprb hens1
    have hfor1 := checkBound_ok_forced semverModel ⟨rb⟩ ⟨rb⟩ ⟨['>', '='] ++ ra⟩
      (comp_ne_empty ['>', '='] ra hra) hc1
    have hfor2 := checkBound_ok_forced semverModel ⟨rb⟩ ⟨rb⟩ ⟨['<', '='] ++ ra⟩
      (comp_ne_empty ['<', '='] ra hra) hc2
    have hsat1 : satisfiesModel ⟨rb⟩ ⟨['>', '='] ++ ra⟩ = true := and_true_left hfor1
    have hsat2 : satisfiesModel ⟨rb⟩ ⟨['<', '='] ++ ra⟩ = true := and_true_left hfor2
    have hnlt : (!verLtV vb va) = true := by
      have hq := satisfies_single ['>', '='] ra rb va vb (by simp) hra hva hvb hpb
      rw [hq] at hsat1
      exact hsat1
    have hngt : (!verGtV vb va) = true := by
      have hq := satisfies_single ['<', '='] ra rb va vb (by simp) hra hva hvb hpb
      rw [hq] at hsat2
      exact hsat2
    have hlt : verLtV vb va = false := by simpa using hnlt
    have hgt : verGtV vb va = false := by simpa using hngt
    have hcmp : compareVer vb va = .eq := by
      cases hcv : compareVer vb va with
      | eq => rfl
      | lt =>
        unfold verLtV at hlt
        rw [hcv] at hlt
        simp at hlt
      | gt =>
        unfold verGtV at hgt
        rw [hcv] at hgt
        simp at hgt
    have hveq : vb = va := verEq_eq hpb hpa (by unfold verEqV; rw [hcmp]; rfl)
    have hreq : rb = ra := core_parse_inj hrb hra hvb (by rw [hveq]; exact hva)
    have hubA : updateBounds semverModel ⟨⟨['>', '='] ++ rb⟩, ⟨['<', '='] ++ rb⟩⟩ ⟨ra⟩ =
        (ensureCompatible semverModel ⟨ra⟩ [⟨['>', '='] ++ rb⟩, ⟨['<', '='] ++ rb⟩] >>=
          fun _ => .ok ⟨">=" ++ ⟨ra⟩, "<=" ++ ⟨ra⟩⟩) :=
      updateBounds_exact semverModel _ ⟨ra⟩ ⟨ra⟩ hpra
    rw [hubA] at hw2b
    cases hens2 : ensureCompatible semverModel ⟨ra⟩ [⟨['>', '='] ++ rb⟩, ⟨['<', '='] ++ rb⟩] with
    | error e =>
      rw [hens2, exc_err_bind] at hw2b
      exact absurd hw2b (by simp)
    | ok u2 =>
      cases u2
      rw [hens2, exc_ok_bind] at hw2b
      injection hw2b with hw2e
      rw [← hw1e, ← hw2e, hreq]

set_option maxHeartbeats 1600000 in
theorem fold_comm_EG (ra opb rb : List Char) (va vb : SemV)
    (hopb : opb ∈ [(['>'] : List Char), ['>', '=']])
    (hra : coreShape ra = true) (hrb : coreShape rb = true)
    (hva : parseSemVer ⟨ra⟩ = some va) (hvb : parseSemVer ⟨rb⟩ = some vb)
    (hpa : va.pre = []) (hpb : vb.pre = [])
    (u1 v1 w1 w2 : Bound)
    (hu1 : updateBounds semverModel ⟨"", ""⟩ ⟨ra⟩ = .ok u1)
    (hw1 : updateBounds semverModel u1 ⟨opb ++ rb⟩ = .ok w1)
    (hv1 : updateBounds semverModel ⟨"", ""⟩ ⟨opb ++ rb⟩ = .ok v1)
    (hw2 : updateBounds semverModel v1 ⟨ra⟩ = .ok w2) :
    w1 = w2 := by
  have hpra := parseRange_E ra va hra hva hpa
  obtain ⟨hprb, hneb, hgtb, hltb⟩ := parseRange_G opb rb vb hopb hrb hvb hpb
  rw [updateBounds0_E semverModel ⟨ra⟩ ⟨ra⟩ hpra] at hu1
  injection hu1 with hu1e
  subst hu1e
  rw [updateBounds0_G semverModel ⟨opb ++ rb⟩ ⟨rb⟩ ⟨opb⟩ hprb hneb hgtb] at hv1
  injection hv1 with hv1e
  subst hv1e
  have hubA : updateBounds semverModel ⟨⟨opb ++ rb⟩, ""⟩ ⟨ra⟩ =
      (ensureCompatible semverModel ⟨ra⟩ [⟨opb ++ rb⟩, ""] >>= fun _ =>
        .ok ⟨">=" ++ ⟨ra⟩, "<=" ++ ⟨ra⟩⟩) :=
    updateBounds_exact semverModel _ ⟨ra⟩ ⟨ra⟩ hpra
  rw [hubA] at hw2
  cases hens2 : ensureCompatible semverModel ⟨ra⟩ [⟨opb ++ rb⟩, ""] with
  | error e =>
    rw [hens2, exc_err_bind] at hw2
    exact absurd hw2 (by simp)
  | ok u2 =>
    cases u2
    rw [hens2, exc_ok_bind] at hw2
    injection hw2 with hw2e
    obtain ⟨hc1, _⟩ := ensure_forced_two semverModel ⟨ra⟩ ⟨opb ++ rb⟩ ""
      ⟨"=", none, (⟨ra⟩ : String)⟩ hpra hens2
    have hfor := checkBound_ok_forced semverModel ⟨ra⟩ ⟨ra⟩ ⟨opb ++ rb⟩
      (comp_ne_empty opb rb hrb) hc1
    have hsat : satisfiesModel ⟨ra⟩ ⟨opb ++ rb⟩ = true := and_true_left hfor
    have hubB : updateBounds semverModel ⟨">=" ++ ⟨ra⟩, "<=" ++ ⟨ra⟩⟩ ⟨opb ++ rb⟩ =
        (ensureCompatible semverModel ⟨opb ++ rb⟩ ["<=" ++ ⟨ra⟩] >>= fun _ =>
          (mergeBounds ⟨opb ++ rb⟩ (">=" ++ ⟨ra⟩)).map fun l => ⟨l, "<=" ++ ⟨ra⟩⟩) :=
      updateBounds_gtc semverModel _ ⟨opb ++ rb⟩ ⟨rb⟩ ⟨opb⟩ hprb hneb hgtb
    rw [hubB] at hw1
    cases hens1 : ensureCompatible semverModel ⟨opb ++ rb⟩ ["<=" ++ ⟨ra⟩] with
    | error e =>
      rw [hens1, exc_err_bind] at hw1
      exact absurd hw1 (by simp)
    | ok u =>
      cases u
      rw [hens1, exc_ok_bind] at hw1
      have hmrg : mergeBounds ⟨opb ++ rb⟩ (">=" ++ ⟨ra⟩) =
          .ok (if verGtV vb va = true then (⟨opb ++ rb⟩ : String)
               else if (decide (opb = ['>']) && verEqV vb va) = true
               then (⟨opb ++ rb⟩ : String)
               else (⟨['>', '='] ++ ra⟩ : String)) :=
        mergeBounds_G opb rb ['>', '='] ra vb va hopb (by simp) hrb hra hvb hva hpb hpa
      have hq := satisfies_single opb rb ra vb va
        (by
          simp only [List.mem_cons, List.not_mem_nil, or_false] at hopb ⊢
          rcases hopb with rfl | rfl
          · exact Or.inr (Or.inl rfl)
          · exact Or.inr (Or.inr (Or.inl rfl)))
        hrb hvb hva hpa
      rw [hq] at hsat
      have hmval : (if verGtV vb va = true then (⟨opb ++ rb⟩ : String)
           else if (decide (opb = ['>']) && verEqV vb va) = true
           then (⟨opb ++ rb⟩ : String)
           else (⟨['>', '='] ++ ra⟩ : String)) = ⟨['>', '='] ++ ra⟩ := by
        simp only [List.mem_cons, List.not_mem_nil, or_false] at hopb
        rcases hopb with rfl | rfl
        · have hs2 : verGtV va vb = true := hsat
          have hcv : compareVer vb va = .lt := by
            unfold verGtV at hs2
            simp only [decide_eq_true_eq] at hs2
            rw [compareVer_swap_free hpa hpb, hs2]
            rfl
          rw [show verGtV vb va = false from by unfold verGtV; rw [hcv]; rfl]
          rw [show verEqV vb va = false from by unfold verEqV; rw [hcv]; rfl]
          simp
        · have hs2 : (!verLtV va vb) = true := hsat
          have hltf : verLtV va vb = false := by simpa using hs2
          have hng : verGtV vb va = false := by
            unfold verGtV
            cases hcv : compareVer vb va with
            | lt => rfl
            | eq => rfl
            | gt =>
              have hswap : compareVer va vb = Ordering.lt := by
                rw [compareVer_swap_free hpb hpa, hcv]
                rfl
              unfold verLtV at hltf
              rw [hswap] at hltf
              simp at hltf
          rw [hng]
          rw [show decide ((['>', '='] : List Char) = ['>']) = false from by decide]
          simp
      rw [hmrg, hmval] at hw1
      injection hw1 with hw1e
      rw [← hw1e, ← hw2e]
      rfl

set_option maxHeartbeats 1600000 in
theorem fold_comm_EL (ra opb rb : List Char) (va vb : SemV)
    (hopb : opb ∈ [(['<'] : List Char), ['<', '=']])
    (hra : coreShape ra = true) (hrb : coreShape rb = true)
    (hva : parseSemVer ⟨ra⟩ = some va) (hvb : parseSemVer ⟨rb⟩ = some vb)
    (hpa : va.pre = []) (hpb : vb.pre = [])
    (u1 v1 w1 w2 : Bound)
    (hu1 : updateBounds semverModel ⟨"", ""⟩ ⟨ra⟩ = .ok u1)
    (hw1 : updateBounds semverModel u1 ⟨opb ++ rb⟩ = .ok w1)
    (hv1 : updateBounds semverModel ⟨"", ""⟩ ⟨opb ++ rb⟩ = .ok v1)
    (hw2 : updateBounds semverModel v1 ⟨ra⟩ = .ok w2) :
    w1 = w2 := by
  have hpra := parseRange_E ra va hra hva hpa
  obtain ⟨hprb, hneb, hgtb, hltb⟩ := parseRange_L opb rb vb hopb hrb hvb hpb
  rw [updateBounds0_E semverModel ⟨ra⟩ ⟨ra⟩ hpra] at hu1
  injection hu1 with hu1e
  subst hu1e
  rw [updateBounds0_L semverModel ⟨opb ++ rb⟩ ⟨rb⟩ ⟨opb⟩ hprb hneb hgtb hltb] at hv1
  injection hv1 with hv1e
  subst hv1e
  have hubA : updateBounds semverModel ⟨"", ⟨opb ++ rb⟩⟩ ⟨ra⟩ =
      (ensureCompatible semverModel ⟨ra⟩ ["", ⟨opb ++ rb⟩] >>= fun _ =>
        .ok ⟨">=" ++ ⟨ra⟩, "<=" ++ ⟨ra⟩⟩) :=
    updateBounds_exact semverModel _ ⟨ra⟩ ⟨ra⟩ hpra
  rw [hubA] at hw2
  cases hens2 : ensureCompatible semverModel ⟨ra⟩ ["", ⟨opb ++ rb⟩] with
  | error e =>
    rw [hens2, exc_err_bind] at hw2
    exact absurd hw2 (by simp)
  | ok u2 =>
    cases u2
    rw [hens2, exc_ok_bind] at hw2
    injection hw2 with hw2e
    obtain ⟨_, hc2⟩ := ensure_forced_two semverModel ⟨ra⟩ "" ⟨opb ++ rb⟩
      ⟨"=", none, (⟨ra⟩ : String)⟩ hpra hens2
    have hfor := checkBound_ok_forced semverModel ⟨ra⟩ ⟨ra⟩ ⟨opb ++ rb⟩
      (comp_ne_empty opb rb hrb) hc2
    have hsat : satisfiesModel ⟨ra⟩ ⟨opb ++ rb⟩ = true := and_true_left hfor
    have hubB : updateBounds semverModel ⟨">=" ++ ⟨ra⟩, "<=" ++ ⟨ra⟩⟩ ⟨opb ++ rb⟩ =
        (ensureCompatible semverModel ⟨opb ++ rb⟩ [">=" ++ ⟨ra⟩] >>= fun _ =>
          (mergeBounds ⟨opb ++ rb⟩ ("<=" ++ ⟨ra⟩)).map fun u => ⟨">=" ++ ⟨ra⟩, u⟩) :=
      updateBounds_ltc semverModel _ ⟨opb ++ rb⟩ ⟨rb⟩ ⟨opb⟩ hprb hneb hgtb hltb
    rw [hubB] at hw1
    cases hens1 : ensureCompatible semverModel ⟨opb ++ rb⟩ [">=" ++ ⟨ra⟩] with
    | error e =>
      rw [hens1, exc_err_bind] at hw1
      exact absurd hw1 (by simp)
    | ok u =>
      cases u
      rw [hens1, exc_ok_bind] at hw1
      have hmrg : mergeBounds ⟨opb ++ rb⟩ ("<=" ++ ⟨ra⟩) =
          .ok (if verLtV vb va = true then (⟨opb ++ rb⟩ : String)
               else if (decide (opb = ['<']) && verEqV vb va) = true
               then (⟨opb ++ rb⟩ : String)
               else (⟨['<', '='] ++ ra⟩ : String)) :=
        mergeBounds_L opb rb ['<', '='] ra vb va hopb (by simp) hrb hra hvb hva hpb hpa
      have hq := satisfies_single opb rb ra vb va
        (by
          simp only [List.mem_cons, List.not_mem_nil, or_false] at hopb ⊢
          rcases hopb with rfl | rfl
          · exact Or.inr (Or.inr (Or.inr (Or.inl rfl)))
          · exact Or.inr (Or.inr (Or.inr (Or.inr rfl))))
        hrb hvb hva hpa
      rw [hq] at hsat
      have hmval : (if verLtV vb va = true then (⟨opb ++ rb⟩ : String)
           else if (decide (opb = ['<']) && verEqV vb va) = true
           then (⟨opb ++ rb⟩ : String)
           else (⟨['<', '='] ++ ra⟩ : String)) = ⟨['<', '='] ++ ra⟩ := by
        simp only [List.mem_cons, List.not_mem_nil, or_false] at hopb
        rcases hopb with rfl | rfl
        · have hs2 : verLtV va vb = true := hsat
          have hcv : compareVer vb va = .gt := by
            unfold verLtV at hs2
            simp only [decide_eq_true_eq] at hs2
            rw [compareVer_swap_free hpa hpb, hs2]
            rfl
          rw [show verLtV vb va = false from by unfold verLtV; rw [hcv]; rfl]
          rw [show verEqV vb va = false from by unfold verEqV; rw [hcv]; rfl]
          simp
        · have hs2 : (!verGtV va vb) = true := hsat
          have hgtf : verGtV va vb = false := by simpa using hs2
          have hnl : verLtV vb va = false := by
            unfold verLtV
            cases hcv : compareVer vb va with
            | gt => rfl
            | eq => rfl
            | lt =>
              have hswap : compareVer va vb = Ordering.gt := by
                rw [compareVer_swap_free hpb hpa, hcv]
                rfl
              unfold verGtV at hgtf
              rw [hswap] at hgtf
              simp at hgtf
          rw [hnl]
          rw [show decide ((['<', '='] : List Char) = ['<']) = false from by decide]
          simp
      rw [hmrg, hmval] at hw1
      injection hw1 with hw1e
      rw [← hw1e, ← hw2e]
      rfl

theorem exc_pure_bind {α β : Type} (a : α) (f : α → Except String β) :
    (pure a >>= f : Except String β) = f a := rfl

theorem intersect_two_decomp (S : SemverLib) (A B x y r : String)
    (hexp : expandRanges S [A, B] = .ok [[[x]], [[y]]])
    (h : intersect S [A, B] = .ok r) :
    ∃ u w s, updateBounds S ⟨"", ""⟩ x = .ok u ∧ updateBounds S u y = .ok w ∧
      formatBranch w = some s ∧ r = String.intercalate " || " [s] := by
  rw [intersect, hexp, exc_ok_bind] at h
  simp only [List.foldlM_cons, List.foldlM_nil] at h
  cases hu : updateBounds S ⟨"", ""⟩ x with
  | error e =>
    have hstep : intersectStep S [⟨"", ""⟩] [[x]] = .error e := by
      rw [intersectStep_single, hu]
    rw [hstep] at h
    simp only [exc_err_bind] at h
    exact absurd h (by simp)
  | ok u =>
    have hstep : intersectStep S [⟨"", ""⟩] [[x]] = .ok [u] := by
      rw [intersectStep_single, hu]
    rw [hstep] at h
    simp only [exc_ok_bind] at h
    cases hw : updateBounds S u y with
    | error e =>
      have hstep2 : intersectStep S [u] [[y]] = .error e := by
        rw [intersectStep_single, hw]
      rw [hstep2] at h
      simp only [exc_err_bind] at h
      exact absurd h (by simp)
    | ok w =>
      have hstep2 : intersectStep S [u] [[y]] = .ok [w] := by
        rw [intersectStep_single, hw]
      rw [hstep2] at h
      simp only [exc_ok_bind, exc_pure_bind] at h
      simp only [List.mapM_cons, List.mapM_nil] at h
      cases hf : formatBranch w with
      | none =>
        have hfmt : (match formatBranch w with
            | some s => (Except.ok s : Except String String)
            | none => Except.error invalidVersionMsg) = Except.error invalidVersionMsg := by
          rw [hf]
        rw [hfmt] at h
        simp only [exc_err_bind] at h
        exact absurd h (by simp)
      | some s0 =>
        have hfmt : (match formatBranch w with
            | some s => (Except.ok s : Except String String)
            | none => Except.error invalidVersionMsg) = Except.ok s0 := by
          rw [hf]
        rw [hfmt] at h
        simp only [exc_ok_bind] at h
        refine ⟨u, w, s0, rfl, hw, hf, ?_⟩
        injection h with he
        rw [he]


/-! ## Order theory of the semver precedence comparison

Symmetry, identity-of-equals and transitivity for the comparison chain
`compareChars`/`compareId`/`compareIdList`/`compareVer`, now on arbitrary
versions (prerelease identifiers included). -/

theorem compareChars_swap (a : List Char) : ∀ (b : List Char),
    compareChars b a = (compareChars a b).swap := by
  induction a with
  | nil =>
    intro b
    cases b with
    | nil => rfl
    | cons y ys => rfl
  | cons x xs ih =>
    intro b
    cases b with
    | nil => rfl
    | cons y ys =>
      simp only [compareChars]
      rcases Nat.lt_trichotomy x.toNat y.toNat with h | h | h
      · rw [if_neg (by omega), if_pos h, if_pos h]
        rfl
      · rw [if_neg (by omega), if_neg (by omega), if_neg (by omega), if_neg (by omega)]
        exact ih ys
      · rw [if_pos h, if_neg (by omega), if_pos h]
        rfl

theorem compareChars_eq_imp (a : List Char) : ∀ (b : List Char),
    compareChars a b = .eq → a = b := by
  induction a with
  | nil =>
    intro b h
    cases b with
    | nil => rfl
    | cons y ys => cases h
  | cons x xs ih =>
    intro b h
    cases b with
    | nil => cases h
    | cons y ys =>
      simp only [compareChars] at h
      by_cases h1 : x.toNat < y.toNat
      · rw [if_pos h1] at h
        cases h
      · rw [if_neg h1] at h
        by_cases h2 : y.toNat < x.toNat
        · rw [if_pos h2] at h
          cases h
        · rw [if_neg h2] at h
          have hxy : x = y := char_toNat_inj (by omega)
          rw [hxy, ih ys h]

theorem compareChars_lt_trans (a : List Char) : ∀ (b c : List Char),
    compareChars a b = .lt → compareChars b c = .lt → compareChars a c = .lt := by
  induction a with
  | nil =>
    intro b c h1 h2
    cases b with
    | nil => cases h1
    | cons y ys =>
      cases c with
      | nil => cases h2
      | cons z zs => rfl
  | cons x xs ih =>
    intro b c h1 h2
    cases b with
    | nil => cases h1
    | cons y ys =>
      cases c with
      | nil => cases h2
      | cons z zs =>
        simp only [compareChars] at h1 h2 ⊢
        by_cases hxy : x.toNat < y.toNat
        · -- x < y; find y ≤ z from h2
          by_cases hyz : y.toNat < z.toNat
          · rw [if_pos (by omega)]
          · rw [if_neg hyz] at h2
            by_cases hzy : z.toNat < y.toNat
            · rw [if_pos hzy] at h2
              cases h2
            · rw [if_pos (by omega)]
        · rw [if_neg hxy] at h1
          by_cases hyx : y.toNat < x.toNat
          · rw [if_pos hyx] at h1
            cases h1
          · rw [if_neg hyx] at h1
            by_cases hyz : y.toNat < z.toNat
            · rw [if_pos (by omega)]
            · rw [if_neg hyz] at h2
              by_cases hzy : z.toNat < y.toNat
              · rw [if_pos hzy] at h2
                cases h2
              · rw [if_neg hzy] at h2
                rw [if_neg (by omega), if_neg (by omega)]
                exact ih ys zs h1 h2

theorem compareId_swap (a b : PreId) : compareId b a = (compareId a b).swap := by
  cases a with
  | num n =>
    cases b with
    | num m =>
      show compare m n = (compare n m).swap
      rcases Nat.lt_trichotomy n m with h | h | h
      · rw [Nat.compare_eq_lt.mpr h, Nat.compare_eq_gt.mpr h]
        rfl
      · rw [Nat.compare_eq_eq.mpr h, Nat.compare_eq_eq.mpr h.symm]
        rfl
      · rw [Nat.compare_eq_gt.mpr h, Nat.compare_eq_lt.mpr h]
        rfl
    | alnum cs => rfl
  | alnum cs =>
    cases b with
    | num m => rfl
    | alnum ds => exact compareChars_swap cs ds

theorem compareId_eq_imp (a b : PreId) (h : compareId a b = .eq) : a = b := by
  cases a with
  | num n =>
    cases b with
    | num m =>
      have hm : n = m := Nat.compare_eq_eq.mp h
      rw [hm]
    | alnum cs => cases h
  | alnum cs =>
    cases b with
    | num m => cases h
    | alnum ds => rw [compareChars_eq_imp cs ds h]

theorem compareId_lt_trans (a b c : PreId) (h1 : compareId a b = .lt)
    (h2 : compareId b c = .lt) : compareId a c = .lt := by
  cases a with
  | num n =>
    cases b with
    | num m =>
      cases c with
      | num k =>
        have hnm : n < m := Nat.compare_eq_lt.mp h1
        have hmk : m < k := Nat.compare_eq_lt.mp h2
        exact Nat.compare_eq_lt.mpr (by omega)
      | alnum ds => rfl
    | alnum cs =>
      cases c with
      | num k => cases h2
      | alnum ds => rfl
  | alnum cs =>
    cases b with
    | num m => cases h1
    | alnum ds =>
      cases c with
      | num k => cases h2
      | alnum es => exact compareChars_lt_trans cs ds es h1 h2

theorem compareIdList_swap (a : List PreId) : ∀ (b : List PreId),
    compareIdList b a = (compareIdList a b).swap := by
  induction a with
  | nil =>
    intro b
    cases b with
    | nil => rfl
    | cons y ys => rfl
  | cons x xs ih =>
    intro b
    cases b with
    | nil => rfl
    | cons y ys =>
      simp only [compareIdList]
      cases hxy : compareId x y with
      | eq =>
        have hyx : compareId y x = .eq := by
          rw [compareId_swap x y, hxy]
          rfl
        rw [hyx]
        exact ih ys
      | lt =>
        have hyx : compareId y x = .gt := by
          rw [compareId_swap x y, hxy]
          rfl
        rw [hyx]
        rfl
      | gt =>
        have hyx : compareId y x = .lt := by
          rw [compareId_swap x y, hxy]
          rfl
        rw [hyx]
        rfl

theorem compareIdList_eq_imp (a : List PreId) : ∀ (b : List PreId),
    compareIdList a b = .eq → a = b := by
  induction a with
  | nil =>
    intro b h
    cases b with
    | nil => rfl
    | cons y ys => cases h
  | cons x xs ih =>
    intro b h
    cases b with
    | nil => cases h
    | cons y ys =>
      have h0 : (match compareId x y with
        | .eq => compareIdList xs ys
        | o => o) = .eq := h
      cases hxy : compareId x y with
      | eq =>
        rw [hxy] at h0
        rw [compareId_eq_imp x y hxy, ih ys h0]
      | lt =>
        rw [hxy] at h0
        cases h0
      | gt =>
        rw [hxy] at h0
        cases h0

theorem compareIdList_lt_trans (a : List PreId) : ∀ (b c : List PreId),
    compareIdList a b = .lt → compareIdList b c = .lt → compareIdList a c = .lt := by
  induction a with
  | nil =>
    intro b c h1 h2
    cases b with
    | nil => cases h1
    | cons y ys =>
      cases c with
      | nil => cases h2
      | cons z zs => rfl
  | cons x xs ih =>
    intro b c h1 h2
    cases b with
    | nil => cases h1
    | cons y ys =>
      cases c with
      | nil => cases h2
      | cons z zs =>
        simp only [compareIdList] at h1 h2 ⊢
        cases hxy : compareId x y with
        | gt =>
          rw [hxy] at h1
          cases h1
        | lt =>
          cases hyz : compareId y z with
          | gt =>
            rw [hyz] at h2
            cases h2
          | lt =>
            rw [compareId_lt_trans x y z hxy hyz]
          | eq =>
            have hyzeq : y = z := compareId_eq_imp y z hyz
            rw [← hyzeq, hxy]
        | eq =>
          rw [hxy] at h1
          have hxyeq : x = y := compareId_eq_imp x y hxy
          cases hyz : compareId y z with
          | gt =>
            rw [hyz] at h2
            cases h2
          | lt =>
            rw [hxyeq, hyz]
          | eq =>
            rw [hyz] at h2
            rw [hxyeq, hyz]
            exact ih ys zs h1 h2

theorem compareVer_swap (a b : SemV) : compareVer b a = (compareVer a b).swap := by
  unfold compareVer
  rcases Nat.lt_trichotomy a.major b.major with h1 | h1 | h1
  · rw [Nat.compare_eq_lt.mpr h1, Nat.compare_eq_gt.mpr h1]
    rfl
  · rw [Nat.compare_eq_eq.mpr h1, Nat.compare_eq_eq.mpr h1.symm]
    rcases Nat.lt_trichotomy a.minor b.minor with h2 | h2 | h2
    · rw [Nat.compare_eq_lt.mpr h2, Nat.compare_eq_gt.mpr h2]
      rfl
    · rw [Nat.compare_eq_eq.mpr h2, Nat.compare_eq_eq.mpr h2.symm]
      rcases Nat.lt_trichotomy a.patch b.patch with h3 | h3 | h3
      · rw [Nat.compare_eq_lt.mpr h3, Nat.compare_eq_gt.mpr h3]
        rfl
      · rw [Nat.compare_eq_eq.mpr h3, Nat.compare_eq_eq.mpr h3.symm]
        cases ha : a.pre with
        | nil =>
          cases hb : b.pre with
          | nil => rfl
          | cons q qs => rfl
        | cons p ps =>
          cases hb : b.pre with
          | nil => rfl
          | cons q qs =>
            exact compareIdList_swap (p :: ps) (q :: qs)
      · rw [Nat.compare_eq_gt.mpr h3, Nat.compare_eq_lt.mpr h3]
        rfl
    · rw [Nat.compare_eq_gt.mpr h2, Nat.compare_eq_lt.mpr h2]
      rfl
  · rw [Nat.compare_eq_gt.mpr h1, Nat.compare_eq_lt.mpr h1]
    rfl

theorem compareVer_eq_imp {a b : SemV} (h : compareVer a b = .eq) : a = b := by
  obtain ⟨a1, a2, a3, ap⟩ := a
  obtain ⟨b1, b2, b3, bp⟩ := b
  unfold compareVer at h
  dsimp only at h
  rcases hab : compare a1 b1 with _ | _ | _ <;> rw [hab] at h
  · cases h
  · have e1 : a1 = b1 := Nat.compare_eq_eq.mp hab
    rcases hab2 : compare a2 b2 with _ | _ | _ <;> rw [hab2] at h
    · cases h
    · have e2 : a2 = b2 := Nat.compare_eq_eq.mp hab2
      rcases hab3 : compare a3 b3 with _ | _ | _ <;> rw [hab3] at h
      · cases h
      · have e3 : a3 = b3 := Nat.compare_eq_eq.mp hab3
        cases ap with
        | nil =>
          cases bp with
          | nil => rw [e1, e2, e3]
          | cons q qs => cases h
        | cons p ps =>
          cases bp with
          | nil => cases h
          | cons q qs =>
            have e4 : p :: ps = q :: qs := compareIdList_eq_imp (p :: ps) (q :: qs) h
            rw [e1, e2, e3, e4]
      · cases h
    · cases h
  · cases h

theorem compareVer_lt_trans {a b c : SemV} (h1 : compareVer a b = .lt)
    (h2 : compareVer b c = .lt) : compareVer a c = .lt := by
  obtain ⟨a1, a2, a3, ap⟩ := a
  obtain ⟨b1, b2, b3, bp⟩ := b
  obtain ⟨c1, c2, c3, cp⟩ := c
  unfold compareVer at h1 h2 ⊢
  dsimp only at h1 h2 ⊢
  rcases hab : compare a1 b1 with _ | _ | _ <;> rw [hab] at h1
  · have hab2 : a1 < b1 := Nat.compare_eq_lt.mp hab
    rcases hbc : compare b1 c1 with _ | _ | _ <;> rw [hbc] at h2
    · have : b1 < c1 := Nat.compare_eq_lt.mp hbc
      rw [Nat.compare_eq_lt.mpr (by omega)]
    · have : b1 = c1 := Nat.compare_eq_eq.mp hbc
      rw [Nat.compare_eq_lt.mpr (by omega)]
    · cases h2
  · have hab2 : a1 = b1 := Nat.compare_eq_eq.mp hab
    rcases hbc : compare b1 c1 with _ | _ | _ <;> rw [hbc] at h2
    · have : b1 < c1 := Nat.compare_eq_lt.mp hbc
      rw [Nat.compare_eq_lt.mpr (by omega)]
    · have hbc2 : b1 = c1 := Nat.compare_eq_eq.mp hbc
      rw [Nat.compare_eq_eq.mpr (by omega)]
      rcases hab3 : compare a2 b2 with _ | _ | _ <;> rw [hab3] at h1
      · have hab4 : a2 < b2 := Nat.compare_eq_lt.mp hab3
        rcases hbc3 : compare b2 c2 with _ | _ | _ <;> rw [hbc3] at h2
        · have : b2 < c2 := Nat.compare_eq_lt.mp hbc3
          rw [Nat.compare_eq_lt.mpr (by omega)]
        · have : b2 = c2 := Nat.compare_eq_eq.mp hbc3
          rw [Nat.compare_eq_lt.mpr (by omega)]
        · cases h2
      · have hab4 : a2 = b2 := Nat.compare_eq_eq.mp hab3
        rcases hbc3 : compare b2 c2 with _ | _ | _ <;> rw [hbc3] at h2
        · have : b2 < c2 := Nat.compare_eq_lt.mp hbc3
          rw [Nat.compare_eq_lt.mpr (by omega)]
        · have hbc4 : b2 = c2 := Nat.compare_eq_eq.mp hbc3
          rw [Nat.compare_eq_eq.mpr (by omega)]
          rcases hab5 : compare a3 b3 with _ | _ | _ <;> rw [hab5] at h1
          · have hab6 : a3 < b3 := Nat.compare_eq_lt.mp hab5
            rcases hbc5 : compare b3 c3 with _ | _ | _ <;> rw [hbc5] at h2
            · have : b3 < c3 := Nat.compare_eq_lt.mp hbc5
              rw [Nat.compare_eq_lt.mpr (by omega)]
            · have : b3 = c3 := Nat.compare_eq_eq.mp hbc5
              rw [Nat.compare_eq_lt.mpr (by omega)]
            · cases h2
          · have hab6 : a3 = b3 := Nat.compare_eq_eq.mp hab5
            rcases hbc5 : compare b3 c3 with _ | _ | _ <;> rw [hbc5] at h2
            · have : b3 < c3 := Nat.compare_eq_lt.mp hbc5
              rw [Nat.compare_eq_lt.mpr (by omega)]
            · have hbc6 : b3 = c3 := Nat.compare_eq_eq.mp hbc5
              rw [Nat.compare_eq_eq.mpr (by omega)]
              cases ap with
              | nil =>
                cases bp with
                | nil => cases h1
                | cons q qs => cases h1
              | cons p ps =>
                cases bp with
                | nil =>
                  cases cp with
                  | nil => cases h2
                  | cons z zs => cases h2
                | cons q qs =>
                  cases cp with
                  | nil => rfl
                  | cons z zs =>
                    exact compareIdList_lt_trans (p :: ps) (q :: qs) (z :: zs) h1 h2
            · cases h2
          · cases h1
        · cases h2
      · cases h1
    · cases h2
  · cases h1

theorem compareVer_refl (a : SemV) : compareVer a a = .eq := by
  have h := compareVer_swap a a
  cases hx : compareVer a a with
  | lt =>
    rw [hx] at h
    cases h
  | gt =>
    rw [hx] at h
    cases h
  | eq => rfl

theorem verEq_imp {a b : SemV} (h : verEqV a b = true) : a = b := by
  simp only [verEqV, decide_eq_true_eq] at h
  exact compareVer_eq_imp h

theorem verGt_to_lt {a b : SemV} (h : verGtV a b = true) : verLtV b a = true := by
  simp only [verGtV, decide_eq_true_eq] at h
  simp only [verLtV, decide_eq_true_eq]
  rw [compareVer_swap a b, h]
  rfl

theorem verLt_to_gt {a b : SemV} (h : verLtV a b = true) : verGtV b a = true := by
  simp only [verLtV, decide_eq_true_eq] at h
  simp only [verGtV, decide_eq_true_eq]
  rw [compareVer_swap a b, h]
  rfl

theorem ver_trichotomy {a b : SemV} (hg : verGtV a b = false)
    (hl : verLtV a b = false) : a = b := by
  cases hc : compareVer a b with
  | lt =>
    simp only [verLtV, hc] at hl
    cases hl
  | gt =>
    simp only [verGtV, hc] at hg
    cases hg
  | eq => exact compareVer_eq_imp hc

theorem verLt_self (a : SemV) : verLtV a a = false := by
  simp only [verLtV, compareVer_refl]
  rfl

theorem verGt_self (a : SemV) : verGtV a a = false := by
  simp only [verGtV, compareVer_refl]
  rfl

theorem verEq_self (a : SemV) : verEqV a a = true := by
  simp only [verEqV, compareVer_refl]
  rfl

theorem verLt_trans {a b c : SemV} (h1 : verLtV a b = true)
    (h2 : verLtV b c = true) : verLtV a c = true := by
  simp only [verLtV, decide_eq_true_eq] at h1 h2 ⊢
  exact compareVer_lt_trans h1 h2


/-! ## Injectivity of the strict version parse, prerelease included

Two version strings of the `ver` shape that parse to the same `SemV`
are equal: the numeric components are injective with no leading zeros,
and the prerelease identifier list determines its source characters. -/

theorem splitAllOn_cons_pos (sep c : Char) (rest : List Char) (hc : c = sep) :
    splitAllOn sep (c :: rest) = [] :: splitAllOn sep rest := by
  simp only [splitAllOn]
  rw [if_pos hc]

theorem splitAllOn_head (sep : Char) (cs : List Char) :
    ∃ s ss, splitAllOn sep cs = s :: ss := by
  induction cs with
  | nil => exact ⟨[], [], rfl⟩
  | cons c rest ih =>
    unfold splitAllOn
    by_cases hc : c = sep
    · rw [if_pos hc]
      exact ⟨[], splitAllOn sep rest, rfl⟩
    · rw [if_neg hc]
      obtain ⟨s, ss, hrec⟩ := ih
      rw [hrec]
      exact ⟨c :: s, ss, rfl⟩

theorem splitAllOn_cons_neg (sep c : Char) (rest s : List Char)
    (ss : List (List Char)) (hc : ¬ c = sep)
    (h : splitAllOn sep rest = s :: ss) :
    splitAllOn sep (c :: rest) = (c :: s) :: ss := by
  simp only [splitAllOn]
  rw [if_neg hc, h]

theorem splitAllOn_inj (sep : Char) (p1 : List Char) : ∀ (p2 : List Char),
    splitAllOn sep p1 = splitAllOn sep p2 → p1 = p2 := by
  induction p1 with
  | nil =>
    intro p2 h
    cases p2 with
    | nil => rfl
    | cons d rest2 =>
      obtain ⟨s2, ss2, hs2⟩ := splitAllOn_head sep rest2
      by_cases hd : d = sep
      · rw [splitAllOn_cons_pos sep d rest2 hd] at h
        have h0 : ([[]] : List (List Char)) = [] :: splitAllOn sep rest2 := h
        injection h0 with ha hb
        exact absurd hb.symm (by rw [hs2]; simp)
      · rw [splitAllOn_cons_neg sep d rest2 s2 ss2 hd hs2] at h
        have h0 : ([[]] : List (List Char)) = (d :: s2) :: ss2 := h
        injection h0 with ha hb
        cases ha
  | cons c rest ih =>
    intro p2 h
    obtain ⟨s1, ss1, hs1⟩ := splitAllOn_head sep rest
    cases p2 with
    | nil =>
      by_cases hc : c = sep
      · rw [splitAllOn_cons_pos sep c rest hc] at h
        have h0 : ([] : List Char) :: splitAllOn sep rest = [[]] := h
        injection h0 with ha hb
        exact absurd hb (by rw [hs1]; simp)
      · rw [splitAllOn_cons_neg sep c rest s1 ss1 hc hs1] at h
        have h0 : (c :: s1) :: ss1 = [[]] := h
        injection h0 with ha hb
        cases ha
    | cons d rest2 =>
      obtain ⟨s2, ss2, hs2⟩ := splitAllOn_head sep rest2
      by_cases hc : c = sep <;> by_cases hd : d = sep
      · rw [splitAllOn_cons_pos sep c rest hc,
          splitAllOn_cons_pos sep d rest2 hd] at h
        injection h with ha hb
        have : rest = rest2 := ih rest2 hb
        rw [hc, hd, this]
      · rw [splitAllOn_cons_pos sep c rest hc,
          splitAllOn_cons_neg sep d rest2 s2 ss2 hd hs2] at h
        injection h with ha hb
        cases ha
      · rw [splitAllOn_cons_neg sep c rest s1 ss1 hc hs1,
          splitAllOn_cons_pos sep d rest2 hd] at h
        injection h with ha hb
        cases ha
      · rw [splitAllOn_cons_neg sep c rest s1 ss1 hc hs1,
          splitAllOn_cons_neg sep d rest2 s2 ss2 hd hs2] at h
        injection h with ha hb
        injection ha with ha1 ha2
        have hrest : rest = rest2 := by
          apply ih
          rw [hs1, hs2, ha2, hb]
        rw [ha1, hrest]

theorem natOfDigits_single (d : Char) : natOfDigits [d] = d.toNat - 48 := by
  show 10 * 0 + (d.toNat - 48) = d.toNat - 48
  omega

theorem classifyId_num (a : List Char) (n : Nat)
    (h : classifyId a = some (.num n)) :
    (∀ c ∈ a, c.isDigit = true) ∧ a ≠ [] ∧ n = natOfDigits a ∧
    (∀ c0 t0, a = c0 :: t0 → t0 ≠ [] → c0 ≠ '0') := by
  unfold classifyId at h
  by_cases hall : a.all Char.isDigit = true
  · rw [if_pos hall] at h
    have hmem : ∀ c ∈ a, c.isDigit = true := by
      intro c hc
      exact List.all_eq_true.mp hall c hc
    cases a with
    | nil => cases h
    | cons c0 t0 =>
      cases t0 with
      | nil =>
        have h0 : some (PreId.num (c0.toNat - 48)) = some (.num n) := h
        injection h0 with h1
        injection h1 with h2
        refine ⟨hmem, by simp, ?_, ?_⟩
        · rw [natOfDigits_single, h2]
        · intro x t hx ht
          injection hx with hx1 hx2
          rw [← hx2] at ht
          exact absurd rfl ht
      | cons c1 t1 =>
        have hcoerce : (if c0 = '0' then (none : Option PreId)
            else some (PreId.num (natOfDigits (c0 :: c1 :: t1)))) = some (.num n) := h
        by_cases h0 : c0 = '0'
        · rw [if_pos h0] at hcoerce
          cases hcoerce
        · rw [if_neg h0] at hcoerce
          injection hcoerce with h2
          injection h2 with h3
          refine ⟨hmem, by simp, h3.symm, ?_⟩
          intro x t hx ht
          injection hx with hx1 hx2
          rw [← hx1]
          exact h0
  · rw [if_neg hall] at h
    have h0 : some (PreId.alnum a) = some (.num n) := h
    injection h0 with h1
    cases h1

theorem classifyId_alnum (a cs : List Char)
    (h : classifyId a = some (.alnum cs)) : a = cs := by
  unfold classifyId at h
  by_cases hall : a.all Char.isDigit = true
  · rw [if_pos hall] at h
    cases a with
    | nil => cases h
    | cons c0 t0 =>
      cases t0 with
      | nil =>
        have h0 : some (PreId.num (c0.toNat - 48)) = some (.alnum cs) := h
        injection h0 with h1
        cases h1
      | cons c1 t1 =>
        have hcoerce : (if c0 = '0' then (none : Option PreId)
            else some (PreId.num (natOfDigits (c0 :: c1 :: t1)))) = some (.alnum cs) := h
        by_cases h0 : c0 = '0'
        · rw [if_pos h0] at hcoerce
          cases hcoerce
        · rw [if_neg h0] at hcoerce
          injection hcoerce with h2
          cases h2
  · rw [if_neg hall] at h
    have h0 : some (PreId.alnum a) = some (.alnum cs) := h
    injection h0 with h1
    injection h1

theorem classifyId_inj (a b : List Char) (i : PreId)
    (ha : classifyId a = some i) (hb : classifyId b = some i) : a = b := by
  cases i with
  | num n =>
    obtain ⟨hda, hna, hva, hsa⟩ := classifyId_num a n ha
    obtain ⟨hdb, hnb, hvb, hsb⟩ := classifyId_num b n hb
    exact natOfDigits_inj a b hda hdb hna hnb hsa hsb (by rw [← hva, ← hvb])
  | alnum cs =>
    rw [classifyId_alnum a cs ha, classifyId_alnum b cs hb]

theorem classify_mapM_inj (l1 : List (List Char)) :
    ∀ (l2 : List (List Char)) (ids : List PreId),
    l1.mapM classifyId = some ids → l2.mapM classifyId = some ids → l1 = l2 := by
  induction l1 with
  | nil =>
    intro l2 ids h1 h2
    simp only [List.mapM_nil] at h1
    have hids : ids = [] := by
      have h0 : (some [] : Option (List PreId)) = some ids := h1
      injection h0 with h3
      exact h3.symm
    subst hids
    cases l2 with
    | nil => rfl
    | cons b t2 =>
      simp only [List.mapM_cons] at h2
      cases hcb : classifyId b with
      | none =>
        rw [hcb] at h2
        cases h2
      | some j =>
        rw [hcb] at h2
        cases hmt : t2.mapM classifyId with
        | none =>
          rw [hmt] at h2
          cases h2
        | some js =>
          rw [hmt] at h2
          cases h2
  | cons a t ih =>
    intro l2 ids h1 h2
    simp only [List.mapM_cons] at h1
    cases hca : classifyId a with
    | none =>
      rw [hca] at h1
      cases h1
    | some i =>
      rw [hca] at h1
      cases hmt : t.mapM classifyId with
      | none =>
        rw [hmt] at h1
        cases h1
      | some is =>
        rw [hmt] at h1
        have h1b : some (i :: is) = some ids := h1
        injection h1b with h1c
        subst h1c
        cases l2 with
        | nil =>
          simp only [List.mapM_nil] at h2
          cases h2
        | cons b t2 =>
          simp only [List.mapM_cons] at h2
          cases hcb : classifyId b with
          | none =>
            rw [hcb] at h2
            cases h2
          | some j =>
            rw [hcb] at h2
            cases hmt2 : t2.mapM classifyId with
            | none =>
              rw [hmt2] at h2
              cases h2
            | some js =>
              rw [hmt2] at h2
              have h2b : some (j :: js) = some (i :: is) := h2
              simp only [Option.some.injEq, List.cons.injEq] at h2b
              obtain ⟨h2d, h2e⟩ := h2b
              have hcb2 : classifyId b = some i := by
                rw [hcb, h2d]
              have hmt22 : t2.mapM classifyId = some is := by
                rw [hmt2, h2e]
              rw [classifyId_inj a b i hca hcb2, ih t2 is hmt hmt22]

theorem parseIds_inj (p1 p2 : List Char) (ids : List PreId)
    (h1 : parseIds p1 = some ids) (h2 : parseIds p2 = some ids) : p1 = p2 := by
  unfold parseIds at h1 h2
  by_cases hall1 : p1.all (fun c => isIdentChar c || c = '.') = true
  · rw [if_pos hall1] at h1
    by_cases hall2 : p2.all (fun c => isIdentChar c || c = '.') = true
    · rw [if_pos hall2] at h2
      exact splitAllOn_inj '.' p1 p2 (classify_mapM_inj _ _ ids h1 h2)
    · rw [if_neg hall2] at h2
      cases h2
  · rw [if_neg hall1] at h1
    cases h1

theorem parseIds_ne_nil (p : List Char) (ids : List PreId)
    (h : parseIds p = some ids) : ids ≠ [] := by
  unfold parseIds at h
  by_cases hall : p.all (fun c => isIdentChar c || c = '.') = true
  · rw [if_pos hall] at h
    obtain ⟨s, ss, hsp⟩ := splitAllOn_head '.' p
    rw [hsp] at h
    simp only [List.mapM_cons] at h
    cases hcs : classifyId s with
    | none =>
      rw [hcs] at h
      cases h
    | some i =>
      rw [hcs] at h
      cases hms : ss.mapM classifyId with
      | none =>
        rw [hms] at h
        cases h
      | some is =>
        rw [hms] at h
        have h0 : some (i :: is) = some ids := h
        injection h0 with h1
        rw [← h1]
        simp
  · rw [if_neg hall] at h
    cases h


theorem parseSemVer_tail (d1 d2 d3 tail : List Char) (v : SemV)
    (h1 : d1 ≠ []) (h2 : d2 ≠ []) (h3 : d3 ≠ [])
    (hd1 : ∀ c ∈ d1, c.isDigit = true) (hd2 : ∀ c ∈ d2, c.isDigit = true)
    (hd3 : ∀ c ∈ d3, c.isDigit = true)
    (ht : ∀ a t, tail = a :: t → a.isDigit = false)
    (h : parseSemVerL (d1 ++ '.' :: (d2 ++ '.' :: (d3 ++ tail))) = some v) :
    v.major = natOfDigits d1 ∧ v.minor = natOfDigits d2 ∧ v.patch = natOfDigits d3 ∧
    (∀ c0 t0, d1 = c0 :: t0 → t0 ≠ [] → c0 ≠ '0') ∧
    (∀ c0 t0, d2 = c0 :: t0 → t0 ≠ [] → c0 ≠ '0') ∧
    (∀ c0 t0, d3 = c0 :: t0 → t0 ≠ [] → c0 ≠ '0') ∧
    ((tail = [] ∧ v.pre = []) ∨ (∃ p, tail = '-' :: p ∧ parseIds p = some v.pre)) := by
  unfold parseSemVerL at h
  cases hp1 : parseNumStrict (d1 ++ '.' :: (d2 ++ '.' :: (d3 ++ tail))) with
  | none =>
    rw [hp1] at h
    exact absurd h (by simp)
  | some p1 =>
    obtain ⟨ma, r1⟩ := p1
    obtain ⟨hma, hr1, hs1⟩ := parseNumStrict_inv d1 ('.' :: (d2 ++ '.' :: (d3 ++ tail)))
      ma r1 hd1 h1
      (fun a t hat => by injection hat with ha _; rw [← ha]; decide) hp1
    rw [hp1] at h
    subst hr1
    simp only [Option.bind_eq_bind, Option.some_bind] at h
    cases hp2 : parseNumStrict (d2 ++ '.' :: (d3 ++ tail)) with
    | none =>
      rw [hp2] at h
      exact absurd h (by simp)
    | some p2 =>
      obtain ⟨mi, r3⟩ := p2
      obtain ⟨hmi, hr3, hs2⟩ := parseNumStrict_inv d2 ('.' :: (d3 ++ tail)) mi r3 hd2 h2
        (fun a t hat => by injection hat with ha _; rw [← ha]; decide) hp2
      rw [hp2] at h
      subst hr3
      simp only [Option.bind_eq_bind, Option.some_bind] at h
      cases hp3 : parseNumStrict (d3 ++ tail) with
      | none =>
        rw [hp3] at h
        exact absurd h (by simp)
      | some p3 =>
        obtain ⟨pa, r5⟩ := p3
        obtain ⟨hpa, hr5, hs3⟩ := parseNumStrict_inv d3 tail pa r5 hd3 h3 ht hp3
        rw [hp3] at h
        subst hr5
        simp only [Option.bind_eq_bind, Option.some_bind] at h
        cases r5 with
        | nil =>
          have hv : some (⟨ma, mi, pa, []⟩ : SemV) = some v := h
          injection hv with hv1
          rw [← hv1]
          exact ⟨hma, hmi, hpa, hs1, hs2, hs3, Or.inl ⟨rfl, rfl⟩⟩
        | cons a t =>
          by_cases ha : a = '-'
          · subst ha
            have h6 : (parseIds t >>= fun ids =>
                some (⟨ma, mi, pa, ids⟩ : SemV)) = some v := h
            cases hpi : parseIds t with
            | none =>
              rw [hpi] at h6
              exact absurd h6 (by simp)
            | some ids =>
              rw [hpi] at h6
              have h7 : some (⟨ma, mi, pa, ids⟩ : SemV) = some v := h6
              injection h7 with h8
              rw [← h8]
              exact ⟨hma, hmi, hpa, hs1, hs2, hs3, Or.inr ⟨t, rfl, hpi⟩⟩
          · exfalso
            split at h
            · rename_i heq
              cases heq
            · rename_i heq
              injection heq with heq1 _
              exact ha heq1
            · cases h

theorem versionShape_decomp {r : List Char} (h : versionShape r = true) :
    ∃ d1 d2 d3 tail,
      r = d1 ++ '.' :: (d2 ++ '.' :: (d3 ++ tail)) ∧
      d1 ≠ [] ∧ d2 ≠ [] ∧ d3 ≠ [] ∧
      (∀ c ∈ d1, c.isDigit = true) ∧ (∀ c ∈ d2, c.isDigit = true) ∧
      (∀ c ∈ d3, c.isDigit = true) ∧
      (∀ a t, tail = a :: t → a.isDigit = false) ∧
      (tail = [] ∨ ∃ p, tail = '-' :: p) := by
  have hm := versionShape_eq.mp h
  rcases matchVer_cases hm with hcore | ⟨core, r6, hcore, hv, hne, hrest⟩
  · obtain ⟨d1, d2, d3, hceq, hcs, hn1, hn2, hn3, hg1, hg2, hg3, hb⟩ :=
      matchCore_decomp hcore
    refine ⟨d1, d2, d3, [], ?_, hn1, hn2, hn3, hg1, hg2, hg3, ?_, Or.inl rfl⟩
    · rw [List.append_nil]
      exact hceq
    · intro a t hat
      cases hat
  · have hr6 : r6.takeWhile isWordDot = r6 := by
      have hJ := List.takeWhile_append_dropWhile (p := isWordDot) (l := r6)
      rw [← hrest, List.append_nil] at hJ
      exact hJ
    obtain ⟨d1, d2, d3, hceq, hcs, hn1, hn2, hn3, hg1, hg2, hg3, hb⟩ :=
      matchCore_decomp hcore
    refine ⟨d1, d2, d3, '-' :: r6, ?_, hn1, hn2, hn3, hg1, hg2, hg3, ?_,
      Or.inr ⟨r6, rfl⟩⟩
    · rw [hv, hr6, hceq]
      simp [List.append_assoc]
    · intro a t hat
      injection hat with ha1 _
      rw [← ha1]
      decide

theorem ver_inj {r1 r2 : List Char} {v : SemV}
    (hs1 : versionShape r1 = true) (hs2 : versionShape r2 = true)
    (h1 : parseSemVer ⟨r1⟩ = some v) (h2 : parseSemVer ⟨r2⟩ = some v) :
    r1 = r2 := by
  obtain ⟨d1, d2, d3, tl, hre, hn1, hn2, hn3, hg1, hg2, hg3, hbd, _⟩ :=
    versionShape_decomp hs1
  obtain ⟨e1, e2, e3, tl2, hre2, hm1, hm2, hm3, hh1, hh2, hh3, hbd2, _⟩ :=
    versionShape_decomp hs2
  have hp1 : parseSemVerL (d1 ++ '.' :: (d2 ++ '.' :: (d3 ++ tl))) = some v := by
    rw [← hre]
    exact h1
  have hp2 : parseSemVerL (e1 ++ '.' :: (e2 ++ '.' :: (e3 ++ tl2))) = some v := by
    rw [← hre2]
    exact h2
  obtain ⟨hA1, hA2, hA3, hS1, hS2, hS3, hQ⟩ :=
    parseSemVer_tail d1 d2 d3 tl v hn1 hn2 hn3 hg1 hg2 hg3 hbd hp1
  obtain ⟨hB1, hB2, hB3, hT1, hT2, hT3, hR⟩ :=
    parseSemVer_tail e1 e2 e3 tl2 v hm1 hm2 hm3 hh1 hh2 hh3 hbd2 hp2
  have hde1 : d1 = e1 := natOfDigits_inj d1 e1 hg1 hh1 hn1 hm1 hS1 hT1 (by rw [← hA1, ← hB1])
  have hde2 : d2 = e2 := natOfDigits_inj d2 e2 hg2 hh2 hn2 hm2 hS2 hT2 (by rw [← hA2, ← hB2])
  have hde3 : d3 = e3 := natOfDigits_inj d3 e3 hg3 hh3 hn3 hm3 hS3 hT3 (by rw [← hA3, ← hB3])
  have htl : tl = tl2 := by
    rcases hQ with ⟨hq1, hq2⟩ | ⟨p, hq1, hq2⟩
    · rcases hR with ⟨hr1b, hr2b⟩ | ⟨q, hr1b, hr2b⟩
      · rw [hq1, hr1b]
      · exact absurd hq2 (parseIds_ne_nil q v.pre hr2b)
    · rcases hR with ⟨hr1b, hr2b⟩ | ⟨q, hr1b, hr2b⟩
      · exact absurd hr2b (parseIds_ne_nil p v.pre hq2)
      · rw [hq1, hr1b, parseIds_inj p q v.pre hq2 hr2b]
  rw [hre, hre2, hde1, hde2, hde3, htl]


/-! ## Parse computations for normalized comparators with prerelease

The `_single` computation lemmas above require a plain `core` version;
these generalize them to the full `ver` shape (optional prerelease),
which `validRange` emits for prerelease inputs. -/

theorem mk_cons_ne (c : Char) (l : List Char) : (⟨c :: l⟩ : String) ≠ "" := by
  intro hc
  have h0 : c :: l = [] := congrArg String.data hc
  cases h0

theorem strEq_of_data {s t : String} (h : s.data = t.data) : s = t := by
  cases s
  cases t
  simp only at h
  rw [h]

theorem ver_char_facts {c : Char}
    (h : c.isDigit = true ∨ c = '.' ∨ c = '-' ∨ isWordDot c = true) :
    c ≠ '|' ∧ isSpace c = false ∧ isCondChar c = false := by
  rcases h with h | h | h | h
  · exact core_char_facts (Or.inl h)
  · exact core_char_facts (Or.inr h)
  · rw [h]
    exact ⟨by decide, by decide, by decide⟩
  · simp only [isWordDot, Bool.or_eq_true, decide_eq_true_eq] at h
    rcases h with (h | h) | h
    · refine ⟨?_, ?_, ?_⟩
      · intro hc
        rw [hc] at h
        exact absurd h (by decide)
      · cases hs : isSpace c with
        | false => rfl
        | true =>
          simp only [isSpace, Bool.or_eq_true, decide_eq_true_eq] at hs
          rcases hs with ((rfl | rfl) | rfl) | rfl <;> exact absurd h (by decide)
      · cases hs : isCondChar c with
        | false => rfl
        | true =>
          simp only [isCondChar, Bool.or_eq_true, decide_eq_true_eq] at hs
          rcases hs with (rfl | rfl) | rfl <;> exact absurd h (by decide)
    · rw [h]
      exact ⟨by decide, by decide, by decide⟩
    · rw [h]
      exact ⟨by decide, by decide, by decide⟩

theorem verShape_facts {rv : List Char} (h : versionShape rv = true) :
    (∃ c t, rv = c :: t ∧ c.isDigit = true) ∧
    (∀ c ∈ rv, c ≠ '|' ∧ isSpace c = false ∧ isCondChar c = false) := by
  have hm := versionShape_eq.mp h
  obtain ⟨_, hhead, hchars⟩ := matchVer_sound hm
  exact ⟨hhead, fun c hc => ver_char_facts (hchars c hc)⟩

theorem wf_ne_empty (op rv : List Char) (hr : versionShape rv = true) :
    (⟨op ++ rv⟩ : String) ≠ "" := by
  obtain ⟨⟨c0, t0, hrc, _⟩, _⟩ := verShape_facts hr
  cases op with
  | nil =>
    rw [List.nil_append, hrc]
    exact mk_cons_ne c0 t0
  | cons o t =>
    rw [List.cons_append]
    exact mk_cons_ne o (t ++ rv)

theorem parseRange_wf (op rv : List Char) (v : SemV)
    (hop : op ∈ [([] : List Char), ['>'], ['>', '='], ['<'], ['<', '=']])
    (hr : versionShape rv = true) (hv : parseSemVer ⟨rv⟩ = some v) :
    parseRange ⟨op ++ rv⟩ =
      some ⟨if op = [] then "=" else (⟨op⟩ : String),
        (if v.pre.isEmpty then none else some v.pre), (⟨rv⟩ : String)⟩ := by
  obtain ⟨⟨c0, t0, hrc, hdg⟩, hall⟩ := verShape_facts hr
  have hself : versionExecL rv = some rv := versionExecL_self hr
  have hvex : versionExecL (op ++ rv) = some rv := by
    have hop2 := hop
    simp only [List.mem_cons, List.not_mem_nil, or_false] at hop2
    rcases hop2 with rfl | rfl | rfl | rfl | rfl
    · simpa using hself
    · show versionExecL ('>' :: rv) = some rv
      rw [versionExecL_cons, versionShape_cons_false '>' rv (by decide)]
      simpa using hself
    · show versionExecL ('>' :: '=' :: rv) = some rv
      rw [versionExecL_cons, versionShape_cons_false '>' ('=' :: rv) (by decide)]
      rw [versionExecL_cons, versionShape_cons_false '=' rv (by decide)]
      simpa using hself
    · show versionExecL ('<' :: rv) = some rv
      rw [versionExecL_cons, versionShape_cons_false '<' rv (by decide)]
      simpa using hself
    · show versionExecL ('<' :: '=' :: rv) = some rv
      rw [versionExecL_cons, versionShape_cons_false '<' ('=' :: rv) (by decide)]
      rw [versionExecL_cons, versionShape_cons_false '=' rv (by decide)]
      simpa using hself
  have hvex2 : versionExec ⟨op ++ rv⟩ = some ⟨rv⟩ := by
    unfold versionExec
    show (versionExecL (op ++ rv)).map _ = _
    rw [hvex]
    rfl
  have hpo : prereleaseOf ⟨rv⟩ = (if v.pre.isEmpty then none else some v.pre) := by
    simp only [prereleaseOf, hv]
  have hco : condOf ⟨op ++ rv⟩ = (if op = [] then "=" else ⟨op⟩) := by
    refine condOf_prefixed op rv (fun c hc => (op_chars hop c hc).2.2) ?_
    intro a t hat
    rw [hrc] at hat
    injection hat with h1 _
    rw [← h1]
    exact digit_not_cond hdg
  unfold parseRange
  simp only [hvex2]
  rw [hco, hpo]

theorem parseRange_wfE (rv : List Char) (v : SemV)
    (hr : versionShape rv = true) (hv : parseSemVer ⟨rv⟩ = some v) :
    parseRange ⟨rv⟩ =
      some ⟨"=", (if v.pre.isEmpty then none else some v.pre), (⟨rv⟩ : String)⟩ := by
  have h := parseRange_wf [] rv v (by simp) hr hv
  simpa using h

theorem parseRange_wfG (op rv : List Char) (v : SemV)
    (hop : op ∈ [(['>'] : List Char), ['>', '=']])
    (hr : versionShape rv = true) (hv : parseSemVer ⟨rv⟩ = some v) :
    parseRange ⟨op ++ rv⟩ =
      some ⟨(⟨op⟩ : String), (if v.pre.isEmpty then none else some v.pre),
        (⟨rv⟩ : String)⟩ ∧
    (⟨op⟩ : String) ≠ "=" ∧ condStarts ⟨op⟩ '>' = true ∧
    condStarts ⟨op⟩ '<' = false ∧
    condOf ⟨op ++ rv⟩ = (⟨op⟩ : String) := by
  simp only [List.mem_cons, List.not_mem_nil, or_false] at hop
  rcases hop with rfl | rfl
  · have h := parseRange_wf ['>'] rv v (by simp) hr hv
    refine ⟨by simpa using h, by decide, by decide, by decide, ?_⟩
    unfold parseRange at h
    cases hve : versionExec ⟨['>'] ++ rv⟩ with
    | none =>
      rw [hve] at h
      cases h
    | some vs =>
      rw [hve] at h
      have h2 : some (⟨condOf ⟨['>'] ++ rv⟩, prereleaseOf vs, vs⟩ : ParsedRange) =
          some ⟨if (['>'] : List Char) = [] then "=" else (⟨['>']⟩ : String),
            if v.pre.isEmpty then none else some v.pre, (⟨rv⟩ : String)⟩ := h
      injection h2 with h3
      have h4 := congrArg ParsedRange.condition h3
      simpa using h4
  · have h := parseRange_wf ['>', '='] rv v (by simp) hr hv
    refine ⟨by simpa using h, by decide, by decide, by decide, ?_⟩
    unfold parseRange at h
    cases hve : versionExec ⟨['>', '='] ++ rv⟩ with
    | none =>
      rw [hve] at h
      cases h
    | some vs =>
      rw [hve] at h
      have h2 : some (⟨condOf ⟨['>', '='] ++ rv⟩, prereleaseOf vs, vs⟩ : ParsedRange) =
          some ⟨if (['>', '='] : List Char) = [] then "=" else (⟨['>', '=']⟩ : String),
            if v.pre.isEmpty then none else some v.pre, (⟨rv⟩ : String)⟩ := h
      injection h2 with h3
      have h4 := congrArg ParsedRange.condition h3
      simpa using h4

theorem parseRange_wfL (op rv : List Char) (v : SemV)
    (hop : op ∈ [(['<'] : List Char), ['<', '=']])
    (hr : versionShape rv = true) (hv : parseSemVer ⟨rv⟩ = some v) :
    parseRange ⟨op ++ rv⟩ =
      some ⟨(⟨op⟩ : String), (if v.pre.isEmpty then none else some v.pre),
        (⟨rv⟩ : String)⟩ ∧
    (⟨op⟩ : String) ≠ "=" ∧ condStarts ⟨op⟩ '>' = false ∧
    condStarts ⟨op⟩ '<' = true ∧
    condOf ⟨op ++ rv⟩ = (⟨op⟩ : String) := by
  simp only [List.mem_cons, List.not_mem_nil, or_false] at hop
  rcases hop with rfl | rfl
  · have h := parseRange_wf ['<'] rv v (by simp) hr hv
    refine ⟨by simpa using h, by decide, by decide, by decide, ?_⟩
    unfold parseRange at h
    cases hve : versionExec ⟨['<'] ++ rv⟩ with
    | none =>
      rw [hve] at h
      cases h
    | some vs =>
      rw [hve] at h
      have h2 : some (⟨condOf ⟨['<'] ++ rv⟩, prereleaseOf vs, vs⟩ : ParsedRange) =
          some ⟨if (['<'] : List Char) = [] then "=" else (⟨['<']⟩ : String),
            if v.pre.isEmpty then none else some v.pre, (⟨rv⟩ : String)⟩ := h
      injection h2 with h3
      have h4 := congrArg ParsedRange.condition h3
      simpa using h4
  · have h := parseRange_wf ['<', '='] rv v (by simp) hr hv
    refine ⟨by simpa using h, by decide, by decide, by decide, ?_⟩
    unfold parseRange at h
    cases hve : versionExec ⟨['<', '='] ++ rv⟩ with
    | none =>
      rw [hve] at h
      cases h
    | some vs =>
      rw [hve] at h
      have h2 : some (⟨condOf ⟨['<', '='] ++ rv⟩, prereleaseOf vs, vs⟩ : ParsedRange) =
          some ⟨if (['<', '='] : List Char) = [] then "=" else (⟨['<', '=']⟩ : String),
            if v.pre.isEmpty then none else some v.pre, (⟨rv⟩ : String)⟩ := h
      injection h2 with h3
      have h4 := congrArg ParsedRange.condition h3
      simpa using h4

theorem condOf_wfE (rv : List Char) (v : SemV)
    (hr : versionShape rv = true) (hv : parseSemVer ⟨rv⟩ = some v) :
    condOf ⟨rv⟩ = "=" := by
  obtain ⟨⟨c0, t0, hrc, hdg⟩, _⟩ := verShape_facts hr
  have h := condOf_prefixed [] rv (by intro c hc; cases hc) ?_
  · simpa using h
  · intro a t hat
    rw [hrc] at hat
    injection hat with h1 _
    rw [← h1]
    exact digit_not_cond hdg


theorem parseCompTok_wf (op rv : List Char) (v : SemV)
    (hop : op ∈ [([] : List Char), ['>'], ['>', '='], ['<'], ['<', '=']])
    (hr : versionShape rv = true) (hv : parseSemVer ⟨rv⟩ = some v) :
    parseCompTok ⟨op ++ rv⟩ =
      some ⟨if op = [] then "" else (⟨op⟩ : String), some v⟩ := by
  obtain ⟨⟨c0, t0, hrc, hdg⟩, hall⟩ := verShape_facts hr
  have hv0 : parseSemVerL rv = some v := hv
  rw [hrc] at hv0
  have hop2 := hop
  simp only [List.mem_cons, List.not_mem_nil, or_false] at hop2
  rcases hop2 with rfl | rfl | rfl | rfl | rfl
  · show parseCompTok ⟨rv⟩ = some ⟨"", some v⟩
    rw [hrc]
    unfold parseCompTok
    split
    · rename_i heq
      exact absurd heq (by simp)
    · rename_i heq
      injection heq with h1 _
      rw [h1] at hdg
      exact absurd hdg (by decide)
    · rename_i heq
      injection heq with h1 _
      rw [h1] at hdg
      exact absurd hdg (by decide)
    · rename_i heq
      injection heq with h1 _
      rw [h1] at hdg
      exact absurd hdg (by decide)
    · simp only [parseOp_digit c0 t0 hdg, hv0]
      rfl
  · show parseCompTok ⟨'>' :: rv⟩ = some ⟨">", some v⟩
    rw [hrc]
    unfold parseCompTok
    split
    · rename_i heq
      exact absurd heq (by simp)
    · rename_i heq
      injection heq with h1 _
      exact absurd h1 (by decide)
    · rename_i heq
      injection heq with h1 _
      exact absurd h1 (by decide)
    · rename_i heq
      injection heq with h1 _
      exact absurd h1 (by decide)
    · simp only [parseOp_gt c0 t0 hdg, hv0]
      rfl
  · show parseCompTok ⟨'>' :: '=' :: rv⟩ = some ⟨">=", some v⟩
    rw [hrc]
    unfold parseCompTok
    split
    · rename_i heq
      exact absurd heq (by simp)
    · rename_i heq
      injection heq with h1 _
      exact absurd h1 (by decide)
    · rename_i heq
      injection heq with h1 _
      exact absurd h1 (by decide)
    · rename_i heq
      injection heq with h1 _
      exact absurd h1 (by decide)
    · have hpo : parseOp ('>' :: '=' :: c0 :: t0) = (">=", c0 :: t0) := rfl
      simp only [hpo, hv0]
      rfl
  · show parseCompTok ⟨'<' :: rv⟩ = some ⟨"<", some v⟩
    rw [hrc]
    unfold parseCompTok
    split
    · rename_i heq
      exact absurd heq (by simp)
    · rename_i heq
      injection heq with h1 _
      exact absurd h1 (by decide)
    · rename_i heq
      injection heq with h1 _
      exact absurd h1 (by decide)
    · rename_i heq
      injection heq with h1 _
      exact absurd h1 (by decide)
    · simp only [parseOp_lt c0 t0 hdg, hv0]
      rfl
  · show parseCompTok ⟨'<' :: '=' :: rv⟩ = some ⟨"<=", some v⟩
    rw [hrc]
    unfold parseCompTok
    split
    · rename_i heq
      exact absurd heq (by simp)
    · rename_i heq
      injection heq with h1 _
      exact absurd h1 (by decide)
    · rename_i heq
      injection heq with h1 _
      exact absurd h1 (by decide)
    · rename_i heq
      injection heq with h1 _
      exact absurd h1 (by decide)
    · have hpo : parseOp ('<' :: '=' :: c0 :: t0) = ("<=", c0 :: t0) := rfl
      simp only [hpo, hv0]
      rfl

theorem parseRangeSets_wf (op rv : List Char) (v : SemV)
    (hop : op ∈ [([] : List Char), ['>'], ['>', '='], ['<'], ['<', '=']])
    (hr : versionShape rv = true) (hv : parseSemVer ⟨rv⟩ = some v) :
    parseRangeSets ⟨op ++ rv⟩ =
      some [[⟨if op = [] then "" else (⟨op⟩ : String), some v⟩]] := by
  obtain ⟨⟨c0, t0, hrc, hdg⟩, hall⟩ := verShape_facts hr
  have hchars : ∀ c ∈ op ++ rv, c ≠ '|' ∧ isSpace c = false := by
    intro c hc
    rw [List.mem_append] at hc
    rcases hc with hc | hc
    · exact ⟨(op_chars hop c hc).1, (op_chars hop c hc).2.1⟩
    · exact ⟨(hall c hc).1, (hall c hc).2.1⟩
  unfold parseRangeSets
  rw [splitOnOr_no_bar ⟨op ++ rv⟩ (fun c hc => (hchars c hc).1)]
  simp only [List.map_cons, List.map_nil]
  rw [show trimL ((⟨op ++ rv⟩ : String).data) = op ++ rv from
    trimL_no_space _ (fun c hc => (hchars c hc).2)]
  simp only [List.mapM_cons, List.mapM_nil]
  rw [splitWs_no_space ⟨op ++ rv⟩ (fun c hc => (hchars c hc).2)]
  simp only [List.mapM_cons, List.mapM_nil, parseCompTok_wf op rv v hop hr hv]
  rfl

theorem satisfies_wfc (op rv rw : List Char) (v w : SemV)
    (hop : op ∈ [([] : List Char), ['>'], ['>', '='], ['<'], ['<', '=']])
    (hr : versionShape rv = true) (hv : parseSemVer ⟨rv⟩ = some v)
    (hw : parseSemVer ⟨rw⟩ = some w) :
    satisfiesModel ⟨rw⟩ ⟨op ++ rv⟩ =
      (testComp w ⟨if op = [] then "" else (⟨op⟩ : String), some v⟩ &&
       preAllowed w [⟨if op = [] then "" else (⟨op⟩ : String), some v⟩]) := by
  unfold satisfiesModel
  simp only [hw, parseRangeSets_wf op rv v hop hr hv]
  simp only [List.any_cons, List.any_nil, Bool.or_false]
  unfold testSet
  simp only [List.all_cons, List.all_nil, Bool.and_true]

theorem splitWs1_mid (l1 l2 : List Char)
    (h1 : ∀ c ∈ l1, isSpace c = false) (h2 : ∀ c ∈ l2, isSpace c = false) :
    splitWs1 (l1 ++ ' ' :: l2) = [l1, l2] := by
  induction l1 with
  | nil =>
    show splitWs1 (' ' :: l2) = [[], l2]
    unfold splitWs1
    rw [if_pos (by decide), splitWs1_no_space l2 h2]
  | cons c t ih =>
    have hc : isSpace c = false := h1 c (List.mem_cons_self c t)
    have ht := ih (fun x hx => h1 x (List.mem_cons_of_mem c hx))
    show splitWs1 (c :: (t ++ ' ' :: l2)) = [c :: t, l2]
    unfold splitWs1
    rw [if_neg (by rw [hc]; exact Bool.false_ne_true), ht]

theorem trimL_mid (l1 l2 : List Char) (hne1 : l1 ≠ []) (hne2 : l2 ≠ [])
    (h1 : ∀ c ∈ l1, isSpace c = false) (h2 : ∀ c ∈ l2, isSpace c = false) :
    trimL (l1 ++ ' ' :: l2) = l1 ++ ' ' :: l2 := by
  obtain ⟨c1, t1, rfl⟩ : ∃ c t, l1 = c :: t := by
    cases l1 with
    | nil => exact absurd rfl hne1
    | cons c t => exact ⟨c, t, rfl⟩
  rcases List.eq_nil_or_concat l2 with rfl | ⟨ys, c2, rfl⟩
  · exact absurd rfl hne2
  simp only [List.concat_eq_append] at h2 ⊢
  unfold trimL
  have hd1 : ((c1 :: t1) ++ ' ' :: (ys ++ [c2])).dropWhile isSpace =
      (c1 :: t1) ++ ' ' :: (ys ++ [c2]) := by
    rw [List.cons_append]
    exact List.dropWhile_cons_of_neg
      (by rw [h1 c1 (List.mem_cons_self c1 t1)]; exact Bool.false_ne_true)
  rw [hd1]
  have hc2 : isSpace c2 = false := h2 c2 (by simp)
  have hrev : ((c1 :: t1) ++ ' ' :: (ys ++ [c2])).reverse =
      c2 :: (ys.reverse ++ ' ' :: (c1 :: t1).reverse) := by
    simp [List.reverse_append]
  rw [hrev]
  rw [List.dropWhile_cons_of_neg (by rw [hc2]; exact Bool.false_ne_true)]
  rw [← hrev, List.reverse_reverse]

theorem parseRangeSets_wf2 (op1 r1 op2 r2 : List Char) (v1 v2 : SemV)
    (hop1 : op1 ∈ [([] : List Char), ['>'], ['>', '='], ['<'], ['<', '=']])
    (hop2 : op2 ∈ [([] : List Char), ['>'], ['>', '='], ['<'], ['<', '=']])
    (hr1 : versionShape r1 = true) (hr2 : versionShape r2 = true)
    (hv1 : parseSemVer ⟨r1⟩ = some v1) (hv2 : parseSemVer ⟨r2⟩ = some v2) :
    parseRangeSets ⟨(op1 ++ r1) ++ ' ' :: (op2 ++ r2)⟩ =
      some [[⟨if op1 = [] then "" else (⟨op1⟩ : String), some v1⟩,
             ⟨if op2 = [] then "" else (⟨op2⟩ : String), some v2⟩]] := by
  obtain ⟨⟨c0, t0, hrc1, hdg1⟩, hall1⟩ := verShape_facts hr1
  obtain ⟨⟨d0, u0, hrc2, hdg2⟩, hall2⟩ := verShape_facts hr2
  have hch1 : ∀ c ∈ op1 ++ r1, c ≠ '|' ∧ isSpace c = false := by
    intro c hc
    rw [List.mem_append] at hc
    rcases hc with hc | hc
    · exact ⟨(op_chars hop1 c hc).1, (op_chars hop1 c hc).2.1⟩
    · exact ⟨(hall1 c hc).1, (hall1 c hc).2.1⟩
  have hch2 : ∀ c ∈ op2 ++ r2, c ≠ '|' ∧ isSpace c = false := by
    intro c hc
    rw [List.mem_append] at hc
    rcases hc with hc | hc
    · exact ⟨(op_chars hop2 c hc).1, (op_chars hop2 c hc).2.1⟩
    · exact ⟨(hall2 c hc).1, (hall2 c hc).2.1⟩
  have hne1 : op1 ++ r1 ≠ [] := by
    rw [hrc1]
    cases op1 <;> simp
  have hne2 : op2 ++ r2 ≠ [] := by
    rw [hrc2]
    cases op2 <;> simp
  have hbar : ∀ c ∈ (op1 ++ r1) ++ ' ' :: (op2 ++ r2), c ≠ '|' := by
    intro c hc
    rw [List.mem_append] at hc
    rcases hc with hc | hc
    · exact (hch1 c hc).1
    · rcases List.mem_cons.mp hc with rfl | hc
      · decide
      · exact (hch2 c hc).1
  unfold parseRangeSets
  rw [splitOnOr_no_bar ⟨(op1 ++ r1) ++ ' ' :: (op2 ++ r2)⟩ hbar]
  simp only [List.map_cons, List.map_nil]
  rw [show trimL ((⟨(op1 ++ r1) ++ ' ' :: (op2 ++ r2)⟩ : String).data) =
      (op1 ++ r1) ++ ' ' :: (op2 ++ r2) from
    trimL_mid (op1 ++ r1) (op2 ++ r2) hne1 hne2
      (fun c hc => (hch1 c hc).2) (fun c hc => (hch2 c hc).2)]
  simp only [List.mapM_cons, List.mapM_nil]
  have hsw : splitWs ⟨(op1 ++ r1) ++ ' ' :: (op2 ++ r2)⟩ =
      [(⟨op1 ++ r1⟩ : String), (⟨op2 ++ r2⟩ : String)] := by
    unfold splitWs
    rw [show ((⟨(op1 ++ r1) ++ ' ' :: (op2 ++ r2)⟩ : String)).data =
        (op1 ++ r1) ++ ' ' :: (op2 ++ r2) from rfl]
    rw [splitWs1_mid (op1 ++ r1) (op2 ++ r2)
      (fun c hc => (hch1 c hc).2) (fun c hc => (hch2 c hc).2)]
    rfl
  rw [hsw]
  simp only [List.mapM_cons, List.mapM_nil,
    parseCompTok_wf op1 r1 v1 hop1 hr1 hv1,
    parseCompTok_wf op2 r2 v2 hop2 hr2 hv2]
  rfl

theorem satisfies_wfc2 (op1 r1 op2 r2 rw : List Char) (v1 v2 w : SemV)
    (hop1 : op1 ∈ [([] : List Char), ['>'], ['>', '='], ['<'], ['<', '=']])
    (hop2 : op2 ∈ [([] : List Char), ['>'], ['>', '='], ['<'], ['<', '=']])
    (hr1 : versionShape r1 = true) (hr2 : versionShape r2 = true)
    (hv1 : parseSemVer ⟨r1⟩ = some v1) (hv2 : parseSemVer ⟨r2⟩ = some v2)
    (hw : parseSemVer ⟨rw⟩ = some w) :
    satisfiesModel ⟨rw⟩ ⟨(op1 ++ r1) ++ ' ' :: (op2 ++ r2)⟩ =
      ((testComp w ⟨if op1 = [] then "" else (⟨op1⟩ : String), some v1⟩ &&
        testComp w ⟨if op2 = [] then "" else (⟨op2⟩ : String), some v2⟩) &&
       preAllowed w [⟨if op1 = [] then "" else (⟨op1⟩ : String), some v1⟩,
                     ⟨if op2 = [] then "" else (⟨op2⟩ : String), some v2⟩]) := by
  unfold satisfiesModel
  simp only [hw, parseRangeSets_wf2 op1 r1 op2 r2 v1 v2 hop1 hop2 hr1 hr2 hv1 hv2]
  simp only [List.any_cons, List.any_nil, Bool.or_false]
  unfold testSet
  simp only [List.all_cons, List.all_nil, Bool.and_true]

theorem str_mid (a b : String) : a ++ " " ++ b = (⟨a.data ++ ' ' :: b.data⟩ : String) := by
  apply strEq_of_data
  rw [strData_append, strData_append]
  simp

theorem compInt_gt_le (v : SemV) :
    compIntersects ⟨">", some v⟩ ⟨"<=", some v⟩ = false := by
  unfold compIntersects
  dsimp only
  rw [if_neg (by decide), if_neg (by decide)]
  simp [verLt_self, verGt_self]

theorem compInt_lt_ge (v : SemV) :
    compIntersects ⟨"<", some v⟩ ⟨">=", some v⟩ = false := by
  unfold compIntersects
  dsimp only
  rw [if_neg (by decide), if_neg (by decide)]
  simp [verLt_self, verGt_self]

theorem intersects_gt_le (rv : List Char) (v : SemV)
    (hr : versionShape rv = true) (hv : parseSemVer ⟨rv⟩ = some v) :
    intersectsModel ⟨'>' :: rv⟩ ⟨'<' :: '=' :: rv⟩ = false := by
  unfold intersectsModel
  have hp1 : parseRangeSets ⟨'>' :: rv⟩ = some [[⟨">", some v⟩]] := by
    have h := parseRangeSets_wf ['>'] rv v (by simp) hr hv
    simpa using h
  have hp2 : parseRangeSets ⟨'<' :: '=' :: rv⟩ = some [[⟨"<=", some v⟩]] := by
    have h := parseRangeSets_wf ['<', '='] rv v (by simp) hr hv
    simpa using h
  simp only [hp1, hp2]
  simp [compInt_gt_le v]

theorem intersects_lt_ge (rv : List Char) (v : SemV)
    (hr : versionShape rv = true) (hv : parseSemVer ⟨rv⟩ = some v) :
    intersectsModel ⟨'<' :: rv⟩ ⟨'>' :: '=' :: rv⟩ = false := by
  unfold intersectsModel
  have hp1 : parseRangeSets ⟨'<' :: rv⟩ = some [[⟨"<", some v⟩]] := by
    have h := parseRangeSets_wf ['<'] rv v (by simp) hr hv
    simpa using h
  have hp2 : parseRangeSets ⟨'>' :: '=' :: rv⟩ = some [[⟨">=", some v⟩]] := by
    have h := parseRangeSets_wf ['>', '='] rv v (by simp) hr hv
    simpa using h
  simp only [hp1, hp2]
  simp [compInt_lt_ge v]


/-! ## The merge selection on normalized comparators, prerelease included -/

theorem mergeBounds_empty (c : String) : mergeBounds c "" = .ok c := by
  unfold mergeBounds
  rw [if_pos rfl]

theorem mergeBounds_wf (opx rx opy ry : List Char) (vx vy : SemV)
    (hopx : opx ∈ [([] : List Char), ['>'], ['>', '='], ['<'], ['<', '=']])
    (hopy : opy ∈ [([] : List Char), ['>'], ['>', '='], ['<'], ['<', '=']])
    (hrx : versionShape rx = true) (hry : versionShape ry = true)
    (hvx : parseSemVer ⟨rx⟩ = some vx) (hvy : parseSemVer ⟨ry⟩ = some vy) :
    mergeBounds ⟨opx ++ rx⟩ ⟨opy ++ ry⟩ =
      .ok (if (if condStarts (if opx = [] then "=" else (⟨opx⟩ : String)) '<'
               then verLtV vx vy else verGtV vx vy) = true
           then (⟨opx ++ rx⟩ : String)
           else if (((if opx = [] then "=" else (⟨opx⟩ : String)) = "<" ||
                     (if opx = [] then "=" else (⟨opx⟩ : String)) = ">") &&
                    verEqV vx vy) = true
           then (⟨opx ++ rx⟩ : String)
           else (⟨opy ++ ry⟩ : String)) := by
  have hyne : (⟨opy ++ ry⟩ : String) ≠ "" := wf_ne_empty opy ry hry
  unfold mergeBounds
  rw [if_neg hyne]
  simp only [parseRange_wf opx rx vx hopx hrx hvx,
    parseRange_wf opy ry vy hopy hry hvy]
  simp only [hvx, hvy]
  by_cases hc1 : (if condStarts (if opx = [] then "=" else (⟨opx⟩ : String)) '<'
      then verLtV vx vy else verGtV vx vy) = true
  · rw [if_pos hc1, if_pos hc1]
  · rw [if_neg hc1, if_neg hc1]
    by_cases hc2 : (((if opx = [] then "=" else (⟨opx⟩ : String)) = "<" ||
        (if opx = [] then "=" else (⟨opx⟩ : String)) = ">") && verEqV vx vy) = true
    · rw [if_pos hc2, if_pos hc2]
    · rw [if_neg hc2, if_neg hc2]

theorem mergeBounds_wfG (opx rx opy ry : List Char) (vx vy : SemV)
    (hopx : opx ∈ [(['>'] : List Char), ['>', '=']])
    (hopy : opy ∈ [([] : List Char), ['>'], ['>', '='], ['<'], ['<', '=']])
    (hrx : versionShape rx = true) (hry : versionShape ry = true)
    (hvx : parseSemVer ⟨rx⟩ = some vx) (hvy : parseSemVer ⟨ry⟩ = some vy) :
    mergeBounds ⟨opx ++ rx⟩ ⟨opy ++ ry⟩ =
      .ok (if verGtV vx vy = true then (⟨opx ++ rx⟩ : String)
           else if (decide (opx = ['>']) && verEqV vx vy) = true
           then (⟨opx ++ rx⟩ : String)
           else (⟨opy ++ ry⟩ : String)) := by
  simp only [List.mem_cons, List.not_mem_nil, or_false] at hopx
  rcases hopx with rfl | rfl
  · rw [mergeBounds_wf ['>'] rx opy ry vx vy (by simp) hopy hrx hry hvx hvy]
    rw [show (if (['>'] : List Char) = [] then "=" else (⟨['>']⟩ : String)) = ">" from rfl]
    rw [show condStarts ">" '<' = false from rfl]
    rw [show ((">" : String) = "<" || (">" : String) = ">") = true from rfl]
    simp
  · rw [mergeBounds_wf ['>', '='] rx opy ry vx vy (by simp) hopy hrx hry hvx hvy]
    rw [show (if (['>', '='] : List Char) = [] then "=" else (⟨['>', '=']⟩ : String)) = ">="
      from rfl]
    rw [show condStarts ">=" '<' = false from rfl]
    rw [show ((">=" : String) = "<" || (">=" : String) = ">") = false from rfl]
    simp

theorem mergeBounds_wfL (opx rx opy ry : List Char) (vx vy : SemV)
    (hopx : opx ∈ [(['<'] : List Char), ['<', '=']])
    (hopy : opy ∈ [([] : List Char), ['>'], ['>', '='], ['<'], ['<', '=']])
    (hrx : versionShape rx = true) (hry : versionShape ry = true)
    (hvx : parseSemVer ⟨rx⟩ = some vx) (hvy : parseSemVer ⟨ry⟩ = some vy) :
    mergeBounds ⟨opx ++ rx⟩ ⟨opy ++ ry⟩ =
      .ok (if verLtV vx vy = true then (⟨opx ++ rx⟩ : String)
           else if (decide (opx = ['<']) && verEqV vx vy) = true
           then (⟨opx ++ rx⟩ : String)
           else (⟨opy ++ ry⟩ : String)) := by
  simp only [List.mem_cons, List.not_mem_nil, or_false] at hopx
  rcases hopx with rfl | rfl
  · rw [mergeBounds_wf ['<'] rx opy ry vx vy (by simp) hopy hrx hry hvx hvy]
    rw [show (if (['<'] : List Char) = [] then "=" else (⟨['<']⟩ : String)) = "<" from rfl]
    rw [show condStarts "<" '<' = true from rfl]
    rw [show (("<" : String) = "<" || ("<" : String) = ">") = true from rfl]
    simp
  · rw [mergeBounds_wf ['<', '='] rx opy ry vx vy (by simp) hopy hrx hry hvx hvy]
    rw [show (if (['<', '='] : List Char) = [] then "=" else (⟨['<', '=']⟩ : String)) = "<="
      from rfl]
    rw [show condStarts "<=" '<' = true from rfl]
    rw [show (("<=" : String) = "<" || ("<=" : String) = ">") = false from rfl]
    simp

theorem widenG {op : List Char} (hop : op ∈ [(['>'] : List Char), ['>', '=']]) :
    op ∈ [([] : List Char), ['>'], ['>', '='], ['<'], ['<', '=']] := by
  simp only [List.mem_cons, List.not_mem_nil, or_false] at hop ⊢
  rcases hop with rfl | rfl
  · exact Or.inr (Or.inl rfl)
  · exact Or.inr (Or.inr (Or.inl rfl))

theorem widenL {op : List Char} (hop : op ∈ [(['<'] : List Char), ['<', '=']]) :
    op ∈ [([] : List Char), ['>'], ['>', '='], ['<'], ['<', '=']] := by
  simp only [List.mem_cons, List.not_mem_nil, or_false] at hop ⊢
  rcases hop with rfl | rfl
  · exact Or.inr (Or.inr (Or.inr (Or.inl rfl)))
  · exact Or.inr (Or.inr (Or.inr (Or.inr rfl)))

theorem mergeG_self (op r : List Char) (v : SemV)
    (hop : op ∈ [(['>'] : List Char), ['>', '=']])
    (hr : versionShape r = true) (hv : parseSemVer ⟨r⟩ = some v) :
    mergeBounds ⟨op ++ r⟩ ⟨op ++ r⟩ = .ok ⟨op ++ r⟩ := by
  rw [mergeBounds_wfG op r op r v v hop (widenG hop) hr hr hv hv]
  rw [verGt_self]
  rw [if_neg (by simp)]
  by_cases h2 : (decide (op = ['>']) && verEqV v v) = true
  · rw [if_pos h2]
  · rw [if_neg h2]

theorem mergeL_self (op r : List Char) (v : SemV)
    (hop : op ∈ [(['<'] : List Char), ['<', '=']])
    (hr : versionShape r = true) (hv : parseSemVer ⟨r⟩ = some v) :
    mergeBounds ⟨op ++ r⟩ ⟨op ++ r⟩ = .ok ⟨op ++ r⟩ := by
  rw [mergeBounds_wfL op r op r v v hop (widenL hop) hr hr hv hv]
  rw [verLt_self]
  rw [if_neg (by simp)]
  by_cases h2 : (decide (op = ['<']) && verEqV v v) = true
  · rw [if_pos h2]
  · rw [if_neg h2]

theorem mergeG_keep_inv (opx rx opm rm : List Char) (vx vm : SemV)
    (hopx : opx ∈ [(['>'] : List Char), ['>', '=']])
    (hopm : opm ∈ [(['>'] : List Char), ['>', '=']])
    (hrx : versionShape rx = true) (hrm : versionShape rm = true)
    (hvx : parseSemVer ⟨rx⟩ = some vx) (hvm : parseSemVer ⟨rm⟩ = some vm)
    (h : mergeBounds ⟨opx ++ rx⟩ ⟨opm ++ rm⟩ = .ok ⟨opm ++ rm⟩) :
    (⟨opx ++ rx⟩ : String) = ⟨opm ++ rm⟩ ∨
    (verGtV vx vm = false ∧ (decide (opx = ['>']) && verEqV vx vm) = false) := by
  rw [mergeBounds_wfG opx rx opm rm vx vm hopx (widenG hopm) hrx hrm hvx hvm] at h
  injection h with h0
  by_cases h1 : verGtV vx vm = true
  · rw [if_pos h1] at h0
    exact Or.inl h0
  · rw [if_neg h1] at h0
    by_cases h2 : (decide (opx = ['>']) && verEqV vx vm) = true
    · rw [if_pos h2] at h0
      exact Or.inl h0
    · exact Or.inr ⟨Bool.not_eq_true _ ▸ Bool.of_not_eq_true h1,
        Bool.of_not_eq_true h2⟩

theorem mergeG_win_inv (opx rx opm rm : List Char) (vx vm : SemV)
    (hopx : opx ∈ [(['>'] : List Char), ['>', '=']])
    (hopm : opm ∈ [(['>'] : List Char), ['>', '=']])
    (hrx : versionShape rx = true) (hrm : versionShape rm = true)
    (hvx : parseSemVer ⟨rx⟩ = some vx) (hvm : parseSemVer ⟨rm⟩ = some vm)
    (h : mergeBounds ⟨opx ++ rx⟩ ⟨opm ++ rm⟩ = .ok ⟨opx ++ rx⟩) :
    (⟨opx ++ rx⟩ : String) = ⟨opm ++ rm⟩ ∨
    (verGtV vx vm = true ∨ (decide (opx = ['>']) && verEqV vx vm) = true) := by
  rw [mergeBounds_wfG opx rx opm rm vx vm hopx (widenG hopm) hrx hrm hvx hvm] at h
  injection h with h0
  by_cases h1 : verGtV vx vm = true
  · exact Or.inr (Or.inl h1)
  · rw [if_neg h1] at h0
    by_cases h2 : (decide (opx = ['>']) && verEqV vx vm) = true
    · exact Or.inr (Or.inr h2)
    · rw [if_neg h2] at h0
      exact Or.inl h0.symm

theorem mergeL_keep_inv (opx rx opm rm : List Char) (vx vm : SemV)
    (hopx : opx ∈ [(['<'] : List Char), ['<', '=']])
    (hopm : opm ∈ [(['<'] : List Char), ['<', '=']])
    (hrx : versionShape rx = true) (hrm : versionShape rm = true)
    (hvx : parseSemVer ⟨rx⟩ = some vx) (hvm : parseSemVer ⟨rm⟩ = some vm)
    (h : mergeBounds ⟨opx ++ rx⟩ ⟨opm ++ rm⟩ = .ok ⟨opm ++ rm⟩) :
    (⟨opx ++ rx⟩ : String) = ⟨opm ++ rm⟩ ∨
    (verLtV vx vm = false ∧ (decide (opx = ['<']) && verEqV vx vm) = false) := by
  rw [mergeBounds_wfL opx rx opm rm vx vm hopx (widenL hopm) hrx hrm hvx hvm] at h
  injection h with h0
  by_cases h1 : verLtV vx vm = true
  · rw [if_pos h1] at h0
    exact Or.inl h0
  · rw [if_neg h1] at h0
    by_cases h2 : (decide (opx = ['<']) && verEqV vx vm) = true
    · rw [if_pos h2] at h0
      exact Or.inl h0
    · exact Or.inr ⟨Bool.of_not_eq_true h1, Bool.of_not_eq_true h2⟩

theorem mergeL_win_inv (opx rx opm rm : List Char) (vx vm : SemV)
    (hopx : opx ∈ [(['<'] : List Char), ['<', '=']])
    (hopm : opm ∈ [(['<'] : List Char), ['<', '=']])
    (hrx : versionShape rx = true) (hrm : versionShape rm = true)
    (hvx : parseSemVer ⟨rx⟩ = some vx) (hvm : parseSemVer ⟨rm⟩ = some vm)
    (h : mergeBounds ⟨opx ++ rx⟩ ⟨opm ++ rm⟩ = .ok ⟨opx ++ rx⟩) :
    (⟨opx ++ rx⟩ : String) = ⟨opm ++ rm⟩ ∨
    (verLtV vx vm = true ∨ (decide (opx = ['<']) && verEqV vx vm) = true) := by
  rw [mergeBounds_wfL opx rx opm rm vx vm hopx (widenL hopm) hrx hrm hvx hvm] at h
  injection h with h0
  by_cases h1 : verLtV vx vm = true
  · exact Or.inr (Or.inl h1)
  · rw [if_neg h1] at h0
    by_cases h2 : (decide (opx = ['<']) && verEqV vx vm) = true
    · exact Or.inr (Or.inr h2)
    · rw [if_neg h2] at h0
      exact Or.inl h0.symm


theorem vgt_false_cases {a b : SemV} (h : verGtV a b = false) :
    compareVer a b = .lt ∨ a = b := by
  cases hc : compareVer a b with
  | lt => exact Or.inl rfl
  | eq => exact Or.inr (compareVer_eq_imp hc)
  | gt => simp [verGtV, hc] at h

theorem vlt_false_cases {a b : SemV} (h : verLtV a b = false) :
    compareVer a b = .gt ∨ a = b := by
  cases hc : compareVer a b with
  | gt => exact Or.inl rfl
  | eq => exact Or.inr (compareVer_eq_imp hc)
  | lt => simp [verLtV, hc] at h

theorem compareVer_gt_trans {a b c : SemV} (h1 : compareVer a b = .gt)
    (h2 : compareVer b c = .gt) : compareVer a c = .gt := by
  have l1 : compareVer b a = .lt := by
    rw [compareVer_swap a b, h1]
    rfl
  have l2 : compareVer c b = .lt := by
    rw [compareVer_swap b c, h2]
    rfl
  have l3 := compareVer_lt_trans l2 l1
  have l4 : compareVer a c = (compareVer c a).swap := compareVer_swap c a
  rw [l4, l3]
  rfl

theorem and_true_right {a b : Bool} (h : (a && b) = true) : b = true := by
  simp only [Bool.and_eq_true] at h
  exact h.2

set_option maxHeartbeats 800000 in
theorem mergeG_trans (opx rx opm rm opz rz : List Char) (vx vm vz : SemV)
    (hopx : opx ∈ [(['>'] : List Char), ['>', '=']])
    (hopm : opm ∈ [(['>'] : List Char), ['>', '=']])
    (hopz : opz ∈ [(['>'] : List Char), ['>', '=']])
    (hrx : versionShape rx = true) (hrm : versionShape rm = true)
    (hrz : versionShape rz = true)
    (hvx : parseSemVer ⟨rx⟩ = some vx) (hvm : parseSemVer ⟨rm⟩ = some vm)
    (hvz : parseSemVer ⟨rz⟩ = some vz)
    (hxm : mergeBounds ⟨opx ++ rx⟩ ⟨opm ++ rm⟩ = .ok ⟨opm ++ rm⟩)
    (hmz : mergeBounds ⟨opm ++ rm⟩ ⟨opz ++ rz⟩ = .ok ⟨opz ++ rz⟩) :
    mergeBounds ⟨opx ++ rx⟩ ⟨opz ++ rz⟩ = .ok ⟨opz ++ rz⟩ := by
  rcases mergeG_keep_inv opx rx opm rm vx vm hopx hopm hrx hrm hvx hvm hxm with
    heq | ⟨hg1, he1⟩
  · rw [heq]
    exact hmz
  rcases mergeG_keep_inv opm rm opz rz vm vz hopm hopz hrm hrz hvm hvz hmz with
    heq2 | ⟨hg2, he2⟩
  · rw [← heq2]
    exact hxm
  rw [mergeBounds_wfG opx rx opz rz vx vz hopx (widenG hopz) hrx hrz hvx hvz]
  rcases vgt_false_cases hg1 with hlt1 | heqv1
  · rcases vgt_false_cases hg2 with hlt2 | heqv2
    · have hlt : compareVer vx vz = .lt := compareVer_lt_trans hlt1 hlt2
      rw [if_neg (by simp [verGtV, hlt]), if_neg (by simp [verEqV, hlt])]
    · have hlt : compareVer vx vz = .lt := by
        rw [← heqv2]
        exact hlt1
      rw [if_neg (by simp [verGtV, hlt]), if_neg (by simp [verEqV, hlt])]
  · have hver : verEqV vx vm = true := by
      rw [heqv1]
      exact verEq_self vm
    have hopx2 : decide (opx = ['>']) = false := by
      cases hd : decide (opx = ['>']) with
      | false => rfl
      | true =>
        rw [hd, hver] at he1
        cases he1
    rcases vgt_false_cases hg2 with hlt2 | heqv2
    · have hlt : compareVer vx vz = .lt := by
        rw [heqv1]
        exact hlt2
      rw [if_neg (by simp [verGtV, hlt]), if_neg (by simp [hopx2])]
    · have heq3 : vx = vz := heqv1.trans heqv2
      rw [if_neg (by simp [verGtV, heq3, compareVer_refl]),
        if_neg (by simp [hopx2])]

set_option maxHeartbeats 800000 in
theorem mergeL_trans (opx rx opm rm opz rz : List Char) (vx vm vz : SemV)
    (hopx : opx ∈ [(['<'] : List Char), ['<', '=']])
    (hopm : opm ∈ [(['<'] : List Char), ['<', '=']])
    (hopz : opz ∈ [(['<'] : List Char), ['<', '=']])
    (hrx : versionShape rx = true) (hrm : versionShape rm = true)
    (hrz : versionShape rz = true)
    (hvx : parseSemVer ⟨rx⟩ = some vx) (hvm : parseSemVer ⟨rm⟩ = some vm)
    (hvz : parseSemVer ⟨rz⟩ = some vz)
    (hxm : mergeBounds ⟨opx ++ rx⟩ ⟨opm ++ rm⟩ = .ok ⟨opm ++ rm⟩)
    (hmz : mergeBounds ⟨opm ++ rm⟩ ⟨opz ++ rz⟩ = .ok ⟨opz ++ rz⟩) :
    mergeBounds ⟨opx ++ rx⟩ ⟨opz ++ rz⟩ = .ok ⟨opz ++ rz⟩ := by
  rcases mergeL_keep_inv opx rx opm rm vx vm hopx hopm hrx hrm hvx hvm hxm with
    heq | ⟨hg1, he1⟩
  · rw [heq]
    exact hmz
  rcases mergeL_keep_inv opm rm opz rz vm vz hopm hopz hrm hrz hvm hvz hmz with
    heq2 | ⟨hg2, he2⟩
  · rw [← heq2]
    exact hxm
  rw [mergeBounds_wfL opx rx opz rz vx vz hopx (widenL hopz) hrx hrz hvx hvz]
  rcases vlt_false_cases hg1 with hgt1 | heqv1
  · rcases vlt_false_cases hg2 with hgt2 | heqv2
    · have hgt : compareVer vx vz = .gt := compareVer_gt_trans hgt1 hgt2
      rw [if_neg (by simp [verLtV, hgt]), if_neg (by simp [verEqV, hgt])]
    · have hgt : compareVer vx vz = .gt := by
        rw [← heqv2]
        exact hgt1
      rw [if_neg (by simp [verLtV, hgt]), if_neg (by simp [verEqV, hgt])]
  · have hver : verEqV vx vm = true := by
      rw [heqv1]
      exact verEq_self vm
    have hopx2 : decide (opx = ['<']) = false := by
      cases hd : decide (opx = ['<']) with
      | false => rfl
      | true =>
        rw [hd, hver] at he1
        cases he1
    rcases vlt_false_cases hg2 with hgt2 | heqv2
    · have hgt : compareVer vx vz = .gt := by
        rw [heqv1]
        exact hgt2
      rw [if_neg (by simp [verLtV, hgt]), if_neg (by simp [hopx2])]
    · have heq3 : vx = vz := heqv1.trans heqv2
      rw [if_neg (by simp [verLtV, heq3, compareVer_refl]),
        if_neg (by simp [hopx2])]

set_option maxHeartbeats 800000 in
theorem mergeG_losertrans (opx rx opm rm opz rz : List Char) (vx vm vz : SemV)
    (hopx : opx ∈ [(['>'] : List Char), ['>', '=']])
    (hopm : opm ∈ [(['>'] : List Char), ['>', '=']])
    (hopz : opz ∈ [(['>'] : List Char), ['>', '=']])
    (hrx : versionShape rx = true) (hrm : versionShape rm = true)
    (hrz : versionShape rz = true)
    (hvx : parseSemVer ⟨rx⟩ = some vx) (hvm : parseSemVer ⟨rm⟩ = some vm)
    (hvz : parseSemVer ⟨rz⟩ = some vz)
    (hxm : mergeBounds ⟨opx ++ rx⟩ ⟨opm ++ rm⟩ = .ok ⟨opx ++ rx⟩)
    (hxz : mergeBounds ⟨opx ++ rx⟩ ⟨opz ++ rz⟩ = .ok ⟨opz ++ rz⟩) :
    mergeBounds ⟨opm ++ rm⟩ ⟨opz ++ rz⟩ = .ok ⟨opz ++ rz⟩ := by
  rcases mergeG_win_inv opx rx opm rm vx vm hopx hopm hrx hrm hvx hvm hxm with
    heq | hbeat
  · rw [← heq]
    exact hxz
  rcases mergeG_keep_inv opx rx opz rz vx vz hopx hopz hrx hrz hvx hvz hxz with
    heq2 | ⟨hg3, he3⟩
  · -- the x comparator IS the z comparator
    rw [← heq2]
    rw [mergeBounds_wfG opm rm opx rx vm vx hopm (widenG hopx) hrm hrx hvm hvx]
    rcases hbeat with hg | he
    · have hlt : compareVer vm vx = .lt := by
        simpa [verLtV] using verGt_to_lt hg
      rw [if_neg (by simp [verGtV, hlt]), if_neg (by simp [verEqV, hlt])]
    · have hopxs : opx = ['>'] := of_decide_eq_true (and_true_left he)
      have hveq : vx = vm := verEq_imp (and_true_right he)
      simp only [List.mem_cons, List.not_mem_nil, or_false] at hopm
      rcases hopm with rfl | rfl
      · -- both strict with equal versions: the strings coincide
        have hrmx : rm = rx := by
          refine ver_inj hrm hrx hvm ?_
          rw [← hveq]
          exact hvx
        rw [hrmx, hopxs, ← hveq]
        rw [if_neg (by simp [verGtV, compareVer_refl]),
          if_pos (by simp [verEqV, compareVer_refl])]
      · rw [if_neg (by simp [verGtV, hveq, compareVer_refl]),
          if_neg (by simp)]
  · rw [mergeBounds_wfG opm rm opz rz vm vz hopm (widenG hopz) hrm hrz hvm hvz]
    rcases hbeat with hg | he
    · have hmx : compareVer vm vx = .lt := by
        simpa [verLtV] using verGt_to_lt hg
      rcases vgt_false_cases hg3 with hlt3 | heq3
      · have h5 : compareVer vm vz = .lt := compareVer_lt_trans hmx hlt3
        rw [if_neg (by simp [verGtV, h5]), if_neg (by simp [verEqV, h5])]
      · have h5 : compareVer vm vz = .lt := by
          rw [← heq3]
          exact hmx
        rw [if_neg (by simp [verGtV, h5]), if_neg (by simp [verEqV, h5])]
    · have hopxs : opx = ['>'] := of_decide_eq_true (and_true_left he)
      have hveq : vx = vm := verEq_imp (and_true_right he)
      have hne : verEqV vx vz = false := by
        rw [hopxs] at he3
        simpa using he3
      have hlt : compareVer vx vz = .lt := by
        rcases vgt_false_cases hg3 with h | h
        · exact h
        · rw [h] at hne
          rw [verEq_self] at hne
          cases hne
      have h5 : compareVer vm vz = .lt := by
        rw [← hveq]
        exact hlt
      rw [if_neg (by simp [verGtV, h5]), if_neg (by simp [verEqV, h5])]

set_option maxHeartbeats 800000 in
theorem mergeL_losertrans (opx rx opm rm opz rz : List Char) (vx vm vz : SemV)
    (hopx : opx ∈ [(['<'] : List Char), ['<', '=']])
    (hopm : opm ∈ [(['<'] : List Char), ['<', '=']])
    (hopz : opz ∈ [(['<'] : List Char), ['<', '=']])
    (hrx : versionShape rx = true) (hrm : versionShape rm = true)
    (hrz : versionShape rz = true)
    (hvx : parseSemVer ⟨rx⟩ = some vx) (hvm : parseSemVer ⟨rm⟩ = some vm)
    (hvz : parseSemVer ⟨rz⟩ = some vz)
    (hxm : mergeBounds ⟨opx ++ rx⟩ ⟨opm ++ rm⟩ = .ok ⟨opx ++ rx⟩)
    (hxz : mergeBounds ⟨opx ++ rx⟩ ⟨opz ++ rz⟩ = .ok ⟨opz ++ rz⟩) :
    mergeBounds ⟨opm ++ rm⟩ ⟨opz ++ rz⟩ = .ok ⟨opz ++ rz⟩ := by
  rcases mergeL_win_inv opx rx opm rm vx vm hopx hopm hrx hrm hvx hvm hxm with
    heq | hbeat
  · rw [← heq]
    exact hxz
  rcases mergeL_keep_inv opx rx opz rz vx vz hopx hopz hrx hrz hvx hvz hxz with
    heq2 | ⟨hg3, he3⟩
  · rw [← heq2]
    rw [mergeBounds_wfL opm rm opx rx vm vx hopm (widenL hopx) hrm hrx hvm hvx]
    rcases hbeat with hg | he
    · have hgt : compareVer vm vx = .gt := by
        have h0 : verGtV vm vx = true := verLt_to_gt hg
        simpa [verGtV] using h0
      rw [if_neg (by simp [verLtV, hgt]), if_neg (by simp [verEqV, hgt])]
    · have hopxs : opx = ['<'] := of_decide_eq_true (and_true_left he)
      have hveq : vx = vm := verEq_imp (and_true_right he)
      simp only [List.mem_cons, List.not_mem_nil, or_false] at hopm
      rcases hopm with rfl | rfl
      · have hrmx : rm = rx := by
          refine ver_inj hrm hrx hvm ?_
          rw [← hveq]
          exact hvx
        rw [hrmx, hopxs, ← hveq]
        rw [if_neg (by simp [verLtV, compareVer_refl]),
          if_pos (by simp [verEqV, compareVer_refl])]
      · rw [if_neg (by simp [verLtV, hveq, compareVer_refl]),
          if_neg (by simp)]
  · rw [mergeBounds_wfL opm rm opz rz vm vz hopm (widenL hopz) hrm hrz hvm hvz]
    rcases hbeat with hg | he
    · have hmx : compareVer vm vx = .gt := by
        have h0 : verGtV vm vx = true := verLt_to_gt hg
        simpa [verGtV] using h0
      rcases vlt_false_cases hg3 with hgt3 | heq3
      · have h5 : compareVer vm vz = .gt := compareVer_gt_trans hmx hgt3
        rw [if_neg (by simp [verLtV, h5]), if_neg (by simp [verEqV, h5])]
      · have h5 : compareVer vm vz = .gt := by
          rw [← heq3]
          exact hmx
        rw [if_neg (by simp [verLtV, h5]), if_neg (by simp [verEqV, h5])]
    · have hopxs : opx = ['<'] := of_decide_eq_true (and_true_left he)
      have hveq : vx = vm := verEq_imp (and_true_right he)
      have hne : verEqV vx vz = false := by
        rw [hopxs] at he3
        simpa using he3
      have hgt : compareVer vx vz = .gt := by
        rcases vlt_false_cases hg3 with h | h
        · exact h
        · rw [h] at hne
          rw [verEq_self] at hne
          cases hne
      have h5 : compareVer vm vz = .gt := by
        rw [← hveq]
        exact hgt
      rw [if_neg (by simp [verLtV, h5]), if_neg (by simp [verEqV, h5])]

theorem mergeG_uniq (op1 r1 op2 r2 : List Char) (v1 v2 : SemV)
    (hop1 : op1 ∈ [(['>'] : List Char), ['>', '=']])
    (hop2 : op2 ∈ [(['>'] : List Char), ['>', '=']])
    (hr1 : versionShape r1 = true) (hr2 : versionShape r2 = true)
    (hv1 : parseSemVer ⟨r1⟩ = some v1) (hv2 : parseSemVer ⟨r2⟩ = some v2)
    (h12 : mergeBounds ⟨op1 ++ r1⟩ ⟨op2 ++ r2⟩ = .ok ⟨op2 ++ r2⟩)
    (h21 : mergeBounds ⟨op2 ++ r2⟩ ⟨op1 ++ r1⟩ = .ok ⟨op1 ++ r1⟩) :
    (⟨op1 ++ r1⟩ : String) = ⟨op2 ++ r2⟩ := by
  rcases mergeG_keep_inv op1 r1 op2 r2 v1 v2 hop1 hop2 hr1 hr2 hv1 hv2 h12 with
    heq | ⟨hg1, he1⟩
  · exact heq
  rcases mergeG_keep_inv op2 r2 op1 r1 v2 v1 hop2 hop1 hr2 hr1 hv2 hv1 h21 with
    heq2 | ⟨hg2, he2⟩
  · exact heq2.symm
  have hveq : v1 = v2 := by
    rcases vgt_false_cases hg1 with hlt | heq
    · exfalso
      have h0 : verGtV v2 v1 = true := verLt_to_gt (by simpa [verLtV] using hlt)
      rw [h0] at hg2
      cases hg2
    · exact heq
  have hver : verEqV v1 v2 = true := by
    rw [hveq]
    exact verEq_self v2
  have hd1 : decide (op1 = ['>']) = false := by
    cases hd : decide (op1 = ['>']) with
    | false => rfl
    | true =>
      rw [hd, hver] at he1
      cases he1
  have hver2 : verEqV v2 v1 = true := by
    rw [hveq]
    exact verEq_self v2
  have hd2 : decide (op2 = ['>']) = false := by
    cases hd : decide (op2 = ['>']) with
    | false => rfl
    | true =>
      rw [hd, hver2] at he2
      cases he2
  have hop1e : op1 = ['>', '='] := by
    simp only [List.mem_cons, List.not_mem_nil, or_false] at hop1
    rcases hop1 with rfl | rfl
    · simp at hd1
    · rfl
  have hop2e : op2 = ['>', '='] := by
    simp only [List.mem_cons, List.not_mem_nil, or_false] at hop2
    rcases hop2 with rfl | rfl
    · simp at hd2
    · rfl
  have hr12 : r1 = r2 := by
    refine ver_inj hr1 hr2 hv1 ?_
    rw [hveq]
    exact hv2
  rw [hop1e, hop2e, hr12]

theorem mergeL_uniq (op1 r1 op2 r2 : List Char) (v1 v2 : SemV)
    (hop1 : op1 ∈ [(['<'] : List Char), ['<', '=']])
    (hop2 : op2 ∈ [(['<'] : List Char), ['<', '=']])
    (hr1 : versionShape r1 = true) (hr2 : versionShape r2 = true)
    (hv1 : parseSemVer ⟨r1⟩ = some v1) (hv2 : parseSemVer ⟨r2⟩ = some v2)
    (h12 : mergeBounds ⟨op1 ++ r1⟩ ⟨op2 ++ r2⟩ = .ok ⟨op2 ++ r2⟩)
    (h21 : mergeBounds ⟨op2 ++ r2⟩ ⟨op1 ++ r1⟩ = .ok ⟨op1 ++ r1⟩) :
    (⟨op1 ++ r1⟩ : String) = ⟨op2 ++ r2⟩ := by
  rcases mergeL_keep_inv op1 r1 op2 r2 v1 v2 hop1 hop2 hr1 hr2 hv1 hv2 h12 with
    heq | ⟨hg1, he1⟩
  · exact heq
  rcases mergeL_keep_inv op2 r2 op1 r1 v2 v1 hop2 hop1 hr2 hr1 hv2 hv1 h21 with
    heq2 | ⟨hg2, he2⟩
  · exact heq2.symm
  have hveq : v1 = v2 := by
    rcases vlt_false_cases hg1 with hgt | heq
    · exfalso
      have h0 : verLtV v2 v1 = true := verGt_to_lt (by simpa [verGtV] using hgt)
      rw [h0] at hg2
      cases hg2
    · exact heq
  have hver : verEqV v1 v2 = true := by
    rw [hveq]
    exact verEq_self v2
  have hd1 : decide (op1 = ['<']) = false := by
    cases hd : decide (op1 = ['<']) with
    | false => rfl
    | true =>
      rw [hd, hver] at he1
      cases he1
  have hver2 : verEqV v2 v1 = true := by
    rw [hveq]
    exact verEq_self v2
  have hd2 : decide (op2 = ['<']) = false := by
    cases hd : decide (op2 = ['<']) with
    | false => rfl
    | true =>
      rw [hd, hver2] at he2
      cases he2
  have hop1e : op1 = ['<', '='] := by
    simp only [List.mem_cons, List.not_mem_nil, or_false] at hop1
    rcases hop1 with rfl | rfl
    · simp at hd1
    · rfl
  have hop2e : op2 = ['<', '='] := by
    simp only [List.mem_cons, List.not_mem_nil, or_false] at hop2
    rcases hop2 with rfl | rfl
    · simp at hd2
    · rfl
  have hr12 : r1 = r2 := by
    refine ver_inj hr1 hr2 hv1 ?_
    rw [hveq]
    exact hv2
  rw [hop1e, hop2e, hr12]


/-! ## Success inversion of `updateBounds` and `checkBound` -/

theorem updateBounds_ok_G (S : SemverLib) (s : Bound) (c : String) (s1 : Bound)
    (pr : ParsedRange) (hpr : parseRange c = some pr)
    (hne : pr.condition ≠ "=") (hgt : condStarts pr.condition '>' = true)
    (h : updateBounds S s c = .ok s1) :
    ∃ mv, mergeBounds c s.lowerBound = .ok mv ∧ s1 = ⟨mv, s.upperBound⟩ ∧
      ensureCompatible S c [s.upperBound] = .ok () ∧
      (pr.prerelease.isSome = true →
        ensureCompatible S c [s.lowerBound, s.upperBound] = .ok ()) := by
  unfold updateBounds at h
  simp only [hpr] at h
  cases hpe : (if pr.prerelease.isSome = true then
      ensureCompatible S c [s.lowerBound, s.upperBound] else Except.ok ()) with
  | error e =>
    rw [hpe, exc_err_bind] at h
    exact absurd h (by simp)
  | ok u =>
    cases u
    rw [hpe, exc_ok_bind] at h
    rw [if_neg hne, if_pos hgt] at h
    cases hen : ensureCompatible S c [s.upperBound] with
    | error e =>
      rw [hen, exc_err_bind] at h
      exact absurd h (by simp)
    | ok u2 =>
      cases u2
      rw [hen, exc_ok_bind] at h
      cases hmb : mergeBounds c s.lowerBound with
      | error e =>
        rw [hmb] at h
        have h2 : (Except.error e : Except String Bound) = .ok s1 := h
        cases h2
      | ok mv =>
        rw [hmb] at h
        have h2 : (Except.ok (⟨mv, s.upperBound⟩ : Bound) : Except String Bound) =
            .ok s1 := h
        injection h2 with h3
        refine ⟨mv, rfl, h3.symm, rfl, ?_⟩
        intro hiss
        rw [if_pos hiss] at hpe
        exact hpe

theorem updateBounds_ok_L (S : SemverLib) (s : Bound) (c : String) (s1 : Bound)
    (pr : ParsedRange) (hpr : parseRange c = some pr)
    (hne : pr.condition ≠ "=") (hgt : condStarts pr.condition '>' = false)
    (hlt : condStarts pr.condition '<' = true)
    (h : updateBounds S s c = .ok s1) :
    ∃ mv, mergeBounds c s.upperBound = .ok mv ∧ s1 = ⟨s.lowerBound, mv⟩ ∧
      ensureCompatible S c [s.lowerBound] = .ok () ∧
      (pr.prerelease.isSome = true →
        ensureCompatible S c [s.lowerBound, s.upperBound] = .ok ()) := by
  unfold updateBounds at h
  simp only [hpr] at h
  cases hpe : (if pr.prerelease.isSome = true then
      ensureCompatible S c [s.lowerBound, s.upperBound] else Except.ok ()) with
  | error e =>
    rw [hpe, exc_err_bind] at h
    exact absurd h (by simp)
  | ok u =>
    cases u
    rw [hpe, exc_ok_bind] at h
    rw [if_neg hne, if_neg (by rw [hgt]; exact Bool.false_ne_true), if_pos hlt] at h
    cases hen : ensureCompatible S c [s.lowerBound] with
    | error e =>
      rw [hen, exc_err_bind] at h
      exact absurd h (by simp)
    | ok u2 =>
      cases u2
      rw [hen, exc_ok_bind] at h
      cases hmb : mergeBounds c s.upperBound with
      | error e =>
        rw [hmb] at h
        have h2 : (Except.error e : Except String Bound) = .ok s1 := h
        cases h2
      | ok mv =>
        rw [hmb] at h
        have h2 : (Except.ok (⟨s.lowerBound, mv⟩ : Bound) : Except String Bound) =
            .ok s1 := h
        injection h2 with h3
        refine ⟨mv, rfl, h3.symm, rfl, ?_⟩
        intro hiss
        rw [if_pos hiss] at hpe
        exact hpe

theorem updateBounds_ok_E (S : SemverLib) (s : Bound) (c : String) (s1 : Bound)
    (pr : ParsedRange) (hpr : parseRange c = some pr)
    (heq : pr.condition = "=")
    (h : updateBounds S s c = .ok s1) :
    s1 = ⟨">=" ++ c, "<=" ++ c⟩ ∧
    ensureCompatible S c [s.lowerBound, s.upperBound] = .ok () := by
  unfold updateBounds at h
  simp only [hpr] at h
  cases hpe : (if pr.prerelease.isSome = true then
      ensureCompatible S c [s.lowerBound, s.upperBound] else Except.ok ()) with
  | error e =>
    rw [hpe, exc_err_bind] at h
    exact absurd h (by simp)
  | ok u =>
    cases u
    rw [hpe, exc_ok_bind] at h
    rw [if_pos heq] at h
    cases hen : ensureCompatible S c [s.lowerBound, s.upperBound] with
    | error e =>
      rw [hen, exc_err_bind] at h
      exact absurd h (by simp)
    | ok u2 =>
      cases u2
      rw [hen, exc_ok_bind] at h
      have h2 : (Except.ok (⟨">=" ++ c, "<=" ++ c⟩ : Bound) : Except String Bound) =
          .ok s1 := h
      injection h2 with h3
      exact ⟨h3.symm, rfl⟩

theorem checkBound_ok_cases (S : SemverLib) (range : String)
    (pre : Option (List PreId)) (version bound : String) (hb : bound ≠ "")
    (h : checkBound S range pre version bound = .ok ()) :
    (S.satisfies version bound && S.intersects range bound) = true ∨
    (pre.isSome = true ∧ ∃ pb, parseRange bound = some pb ∧
      ((pb.prerelease.isSome = true ∧ S.satisfies pb.version range = true) ∨
       (pb.prerelease = none ∧
        S.satisfies version (range ++ " " ++ bound) = true))) := by
  unfold checkBound at h
  rw [if_neg hb] at h
  by_cases hsat : (S.satisfies version bound && S.intersects range bound) = true
  · exact Or.inl hsat
  · rw [if_neg hsat] at h
    cases hpo : pre with
    | none =>
      rw [hpo] at h
      cases h
    | some pl =>
      rw [hpo] at h
      cases hpb : parseRange bound with
      | none =>
        rw [hpb] at h
        cases h
      | some pb =>
        rw [hpb] at h
        have h2 : (match pb.prerelease with
          | some _ => if S.satisfies pb.version range = true then Except.ok ()
              else Except.error (compatMsg range bound)
          | none => if S.satisfies version (range ++ " " ++ bound) = true
              then Except.ok ()
              else Except.error (compatMsg range bound)) = Except.ok () := h
        cases hpp : pb.prerelease with
        | some pl2 =>
          rw [hpp] at h2
          by_cases hs2 : S.satisfies pb.version range = true
          · exact Or.inr ⟨rfl, pb, rfl, Or.inl ⟨by rw [hpp]; rfl, hs2⟩⟩
          · rw [if_neg hs2] at h2
            cases h2
        | none =>
          rw [hpp] at h2
          by_cases hs2 : S.satisfies version (range ++ " " ++ bound) = true
          · exact Or.inr ⟨rfl, pb, rfl, Or.inr ⟨hpp, hs2⟩⟩
          · rw [if_neg hs2] at h2
            cases h2


/-! ## Forcing: a clause that succeeds against an exact-pinned bound pair
cannot move it

After an exact clause installs `>=v <=v`, `ensureCompatible` forces every
later successful clause's version to the pinned version's side, through
the plain check or either prerelease fallback of `checkBound`. -/

theorem pinned_force_G (op rw2 rs : List Char) (w vs : SemV)
    (hop : op ∈ [(['>'] : List Char), ['>', '=']])
    (hrw : versionShape rw2 = true) (hw : parseSemVer ⟨rw2⟩ = some w)
    (hrs : versionShape rs = true) (hvs : parseSemVer ⟨rs⟩ = some vs)
    (hck : checkBound semverModel ⟨op ++ rw2⟩
      (if w.pre.isEmpty then none else some w.pre) ⟨rw2⟩
      ⟨['<', '='] ++ rs⟩ = .ok ()) :
    verGtV w vs = false ∧ (decide (op = ['>']) && verEqV w vs) = false := by
  have hbne : (⟨['<', '='] ++ rs⟩ : String) ≠ "" := wf_ne_empty ['<', '='] rs hrs
  rcases checkBound_ok_cases semverModel ⟨op ++ rw2⟩
      (if w.pre.isEmpty then none else some w.pre) ⟨rw2⟩ ⟨['<', '='] ++ rs⟩
      hbne hck with hR | ⟨hpre, pb, hpb, hF⟩
  · have hsat2 : satisfiesModel ⟨rw2⟩ ⟨['<', '='] ++ rs⟩ = true := and_true_left hR
    have hint2 : intersectsModel ⟨op ++ rw2⟩ ⟨['<', '='] ++ rs⟩ = true :=
      and_true_right hR
    have hcomp := satisfies_wfc ['<', '='] rs rw2 vs w (by simp) hrs hvs hw
    rw [hcomp] at hsat2
    have h1 := and_true_left hsat2
    have htc : testComp w ⟨if (['<', '='] : List Char) = [] then ""
        else ⟨['<', '=']⟩, some vs⟩ = !verGtV w vs := rfl
    rw [htc] at h1
    have hng : verGtV w vs = false := by simpa using h1
    refine ⟨hng, ?_⟩
    by_cases hse : (decide (op = ['>']) && verEqV w vs) = true
    · exfalso
      have hops : op = ['>'] := of_decide_eq_true (and_true_left hse)
      have hveq : w = vs := verEq_imp (and_true_right hse)
      have hvs2 : parseSemVer ⟨rs⟩ = some w := by
        rw [hveq]
        exact hvs
      have hrr : rw2 = rs := ver_inj hrw hrs hw hvs2
      rw [hops, hrr] at hint2
      have hIF : intersectsModel ⟨['>'] ++ rs⟩ ⟨['<', '='] ++ rs⟩ = false :=
        intersects_gt_le rs vs hrs hvs
      rw [hIF] at hint2
      cases hint2
    · exact Bool.of_not_eq_true hse
  · have hpbc := (parseRange_wfL ['<', '='] rs vs (by simp) hrs hvs).1
    rw [hpb] at hpbc
    injection hpbc with hpbe
    subst hpbe
    rcases hF with ⟨hpps, hsat3⟩ | ⟨hppn, hsat4⟩
    · have hsat3b : satisfiesModel ⟨rs⟩ ⟨op ++ rw2⟩ = true := hsat3
      have hcomp2 := satisfies_wfc op rw2 rs w vs (widenG hop) hrw hw hvs
      rw [hcomp2] at hsat3b
      have h1 := and_true_left hsat3b
      simp only [List.mem_cons, List.not_mem_nil, or_false] at hop
      rcases hop with rfl | rfl
      · have htc2 : testComp vs ⟨if (['>'] : List Char) = [] then ""
            else ⟨['>']⟩, some w⟩ = verGtV vs w := rfl
        rw [htc2] at h1
        have hcg : compareVer vs w = .gt := by simpa [verGtV] using h1
        have hcl : compareVer w vs = .lt := by
          rw [compareVer_swap vs w, hcg]
          rfl
        exact ⟨by simp [verGtV, hcl], by simp [verEqV, hcl]⟩
      · have htc2 : testComp vs ⟨if (['>', '='] : List Char) = [] then ""
            else ⟨['>', '=']⟩, some w⟩ = !verLtV vs w := rfl
        rw [htc2] at h1
        have hnl : verLtV vs w = false := by simpa using h1
        have hng : verGtV w vs = false := by
          cases hc : compareVer w vs with
          | gt =>
            have hx : compareVer vs w = .lt := by
              rw [compareVer_swap w vs, hc]
              rfl
            simp [verLtV, hx] at hnl
          | lt => simp [verGtV, hc]
          | eq => simp [verGtV, hc]
        exact ⟨hng, by simp⟩
    · have hstr : (⟨op ++ rw2⟩ : String) ++ " " ++ (⟨['<', '='] ++ rs⟩ : String) =
          (⟨(op ++ rw2) ++ ' ' :: (['<', '='] ++ rs)⟩ : String) := by
        apply strEq_of_data
        show ((op ++ rw2) ++ [' ']) ++ (['<', '='] ++ rs) =
          (op ++ rw2) ++ ' ' :: (['<', '='] ++ rs)
        simp
      rw [hstr] at hsat4
      have hsat4b : satisfiesModel ⟨rw2⟩
          ⟨(op ++ rw2) ++ ' ' :: (['<', '='] ++ rs)⟩ = true := hsat4
      have hcomp3 := satisfies_wfc2 op rw2 ['<', '='] rs rw2 w vs w
        (widenG hop) (by simp) hrw hrs hw hvs hw
      rw [hcomp3] at hsat4b
      have h1 := and_true_left hsat4b
      simp only [List.mem_cons, List.not_mem_nil, or_false] at hop
      rcases hop with rfl | rfl
      · exfalso
        have h2 := and_true_left h1
        have htc3 : testComp w ⟨if (['>'] : List Char) = [] then ""
            else ⟨['>']⟩, some w⟩ = verGtV w w := rfl
        rw [htc3, verGt_self] at h2
        cases h2
      · have h2 := and_true_right h1
        have htc3 : testComp w ⟨if (['<', '='] : List Char) = [] then ""
            else ⟨['<', '=']⟩, some vs⟩ = !verGtV w vs := rfl
        rw [htc3] at h2
        exact ⟨by simpa using h2, by simp⟩

theorem pinned_force_L (op rw2 rs : List Char) (w vs : SemV)
    (hop : op ∈ [(['<'] : List Char), ['<', '=']])
    (hrw : versionShape rw2 = true) (hw : parseSemVer ⟨rw2⟩ = some w)
    (hrs : versionShape rs = true) (hvs : parseSemVer ⟨rs⟩ = some vs)
    (hck : checkBound semverModel ⟨op ++ rw2⟩
      (if w.pre.isEmpty then none else some w.pre) ⟨rw2⟩
      ⟨['>', '='] ++ rs⟩ = .ok ()) :
    verLtV w vs = false ∧ (decide (op = ['<']) && verEqV w vs) = false := by
  have hbne : (⟨['>', '='] ++ rs⟩ : String) ≠ "" := wf_ne_empty ['>', '='] rs hrs
  rcases checkBound_ok_cases semverModel ⟨op ++ rw2⟩
      (if w.pre.isEmpty then none else some w.pre) ⟨rw2⟩ ⟨['>', '='] ++ rs⟩
      hbne hck with hR | ⟨hpre, pb, hpb, hF⟩
  · have hsat2 : satisfiesModel ⟨rw2⟩ ⟨['>', '='] ++ rs⟩ = true := and_true_left hR
    have hint2 : intersectsModel ⟨op ++ rw2⟩ ⟨['>', '='] ++ rs⟩ = true :=
      and_true_right hR
    have hcomp := satisfies_wfc ['>', '='] rs rw2 vs w (by simp) hrs hvs hw
    rw [hcomp] at hsat2
    have h1 := and_true_left hsat2
    have htc : testComp w ⟨if (['>', '='] : List Char) = [] then ""
        else ⟨['>', '=']⟩, some vs⟩ = !verLtV w vs := rfl
    rw [htc] at h1
    have hng : verLtV w vs = false := by simpa using h1
    refine ⟨hng, ?_⟩
    by_cases hse : (decide (op = ['<']) && verEqV w vs) = true
    · exfalso
      have hops : op = ['<'] := of_decide_eq_true (and_true_left hse)
      have hveq : w = vs := verEq_imp (and_true_right hse)
      have hvs2 : parseSemVer ⟨rs⟩ = some w := by
        rw [hveq]
        exact hvs
      have hrr : rw2 = rs := ver_inj hrw hrs hw hvs2
      rw [hops, hrr] at hint2
      have hIF : intersectsModel ⟨['<'] ++ rs⟩ ⟨['>', '='] ++ rs⟩ = false :=
        intersects_lt_ge rs vs hrs hvs
      rw [hIF] at hint2
      cases hint2
    · exact Bool.of_not_eq_true hse
  · have hpbc := (parseRange_wfG ['>', '='] rs vs (by simp) hrs hvs).1
    rw [hpb] at hpbc
    injection hpbc with hpbe
    subst hpbe
    rcases hF with ⟨hpps, hsat3⟩ | ⟨hppn, hsat4⟩
    · have hsat3b : satisfiesModel ⟨rs⟩ ⟨op ++ rw2⟩ = true := hsat3
      have hcomp2 := satisfies_wfc op rw2 rs w vs (widenL hop) hrw hw hvs
      rw [hcomp2] at hsat3b
      have h1 := and_true_left hsat3b
      simp only [List.mem_cons, List.not_mem_nil, or_false] at hop
      rcases hop with rfl | rfl
      · have htc2 : testComp vs ⟨if (['<'] : List Char) = [] then ""
            else ⟨['<']⟩, some w⟩ = verLtV vs w := rfl
        rw [htc2] at h1
        have hcg : compareVer vs w = .lt := by simpa [verLtV] using h1
        have hcl : compareVer w vs = .gt := by
          rw [compareVer_swap vs w, hcg]
          rfl
        exact ⟨by simp [verLtV, hcl], by simp [verEqV, hcl]⟩
      · have htc2 : testComp vs ⟨if (['<', '='] : List Char) = [] then ""
            else ⟨['<', '=']⟩, some w⟩ = !verGtV vs w := rfl
        rw [htc2] at h1
        have hnl : verGtV vs w = false := by simpa using h1
        have hng : verLtV w vs = false := by
          cases hc : compareVer w vs with
          | lt =>
            have hx : compareVer vs w = .gt := by
              rw [compareVer_swap w vs, hc]
              rfl
            simp [verGtV, hx] at hnl
          | gt => simp [verLtV, hc]
          | eq => simp [verLtV, hc]
        exact ⟨hng, by simp⟩
    · have hstr : (⟨op ++ rw2⟩ : String) ++ " " ++ (⟨['>', '='] ++ rs⟩ : String) =
          (⟨(op ++ rw2) ++ ' ' :: (['>', '='] ++ rs)⟩ : String) := by
        apply strEq_of_data
        show ((op ++ rw2) ++ [' ']) ++ (['>', '='] ++ rs) =
          (op ++ rw2) ++ ' ' :: (['>', '='] ++ rs)
        simp
      rw [hstr] at hsat4
      have hsat4b : satisfiesModel ⟨rw2⟩
          ⟨(op ++ rw2) ++ ' ' :: (['>', '='] ++ rs)⟩ = true := hsat4
      have hcomp3 := satisfies_wfc2 op rw2 ['>', '='] rs rw2 w vs w
        (widenL hop) (by simp) hrw hrs hw hvs hw
      rw [hcomp3] at hsat4b
      have h1 := and_true_left hsat4b
      simp only [List.mem_cons, List.not_mem_nil, or_false] at hop
      rcases hop with rfl | rfl
      · exfalso
        have h2 := and_true_left h1
        have htc3 : testComp w ⟨if (['<'] : List Char) = [] then ""
            else ⟨['<']⟩, some w⟩ = verLtV w w := rfl
        rw [htc3, verLt_self] at h2
        cases h2
      · have h2 := and_true_right h1
        have htc3 : testComp w ⟨if (['>', '='] : List Char) = [] then ""
            else ⟨['>', '=']⟩, some vs⟩ = !verLtV w vs := rfl
        rw [htc3] at h2
        exact ⟨by simpa using h2, by simp⟩

theorem pinned_force_E (rw2 rs : List Char) (w vs : SemV)
    (hrw : versionShape rw2 = true) (hw : parseSemVer ⟨rw2⟩ = some w)
    (hrs : versionShape rs = true) (hvs : parseSemVer ⟨rs⟩ = some vs)
    (hck1 : checkBound semverModel ⟨rw2⟩
      (if w.pre.isEmpty then none else some w.pre) ⟨rw2⟩
      ⟨['>', '='] ++ rs⟩ = .ok ())
    (hck2 : checkBound semverModel ⟨rw2⟩
      (if w.pre.isEmpty then none else some w.pre) ⟨rw2⟩
      ⟨['<', '='] ++ rs⟩ = .ok ()) :
    w = vs := by
  have hlow : verLtV w vs = false ∨ w = vs := by
    have hbne : (⟨['>', '='] ++ rs⟩ : String) ≠ "" := wf_ne_empty ['>', '='] rs hrs
    rcases checkBound_ok_cases semverModel ⟨rw2⟩
        (if w.pre.isEmpty then none else some w.pre) ⟨rw2⟩ ⟨['>', '='] ++ rs⟩
        hbne hck1 with hR | ⟨hpre, pb, hpb, hF⟩
    · have hsat2 : satisfiesModel ⟨rw2⟩ ⟨['>', '='] ++ rs⟩ = true := and_true_left hR
      have hcomp := satisfies_wfc ['>', '='] rs rw2 vs w (by simp) hrs hvs hw
      rw [hcomp] at hsat2
      have h1 := and_true_left hsat2
      have htc : testComp w ⟨if (['>', '='] : List Char) = [] then ""
          else ⟨['>', '=']⟩, some vs⟩ = !verLtV w vs := rfl
      rw [htc] at h1
      exact Or.inl (by simpa using h1)
    · have hpbc := (parseRange_wfG ['>', '='] rs vs (by simp) hrs hvs).1
      rw [hpb] at hpbc
      injection hpbc with hpbe
      subst hpbe
      rcases hF with ⟨hpps, hsat3⟩ | ⟨hppn, hsat4⟩
      · have hsat3b : satisfiesModel ⟨rs⟩ ⟨rw2⟩ = true := hsat3
        have hsat3c : satisfiesModel ⟨rs⟩ ⟨[] ++ rw2⟩ = true := by
          rw [List.nil_append]
          exact hsat3b
        have hcomp2 := satisfies_wfc [] rw2 rs w vs (by simp) hrw hw hvs
        rw [hcomp2] at hsat3c
        have h1 := and_true_left hsat3c
        have htc2 : testComp vs ⟨if ([] : List Char) = [] then ""
            else ⟨[]⟩, some w⟩ = verEqV vs w := rfl
        rw [htc2] at h1
        exact Or.inr (verEq_imp h1).symm
      · have hstr : (⟨rw2⟩ : String) ++ " " ++ (⟨['>', '='] ++ rs⟩ : String) =
            (⟨([] ++ rw2) ++ ' ' :: (['>', '='] ++ rs)⟩ : String) := by
          apply strEq_of_data
          show (rw2 ++ [' ']) ++ (['>', '='] ++ rs) =
            ([] ++ rw2) ++ ' ' :: (['>', '='] ++ rs)
          simp
        rw [hstr] at hsat4
        have hsat4b : satisfiesModel ⟨rw2⟩
            ⟨([] ++ rw2) ++ ' ' :: (['>', '='] ++ rs)⟩ = true := hsat4
        have hcomp3 := satisfies_wfc2 [] rw2 ['>', '='] rs rw2 w vs w
          (by simp) (by simp) hrw hrs hw hvs hw
        rw [hcomp3] at hsat4b
        have h1 := and_true_right (and_true_left hsat4b)
        have htc3 : testComp w ⟨if (['>', '='] : List Char) = [] then ""
            else ⟨['>', '=']⟩, some vs⟩ = !verLtV w vs := rfl
        rw [htc3] at h1
        exact Or.inl (by simpa using h1)
  have hhigh : verGtV w vs = false ∨ w = vs := by
    have hbne : (⟨['<', '='] ++ rs⟩ : String) ≠ "" := wf_ne_empty ['<', '='] rs hrs
    rcases checkBound_ok_cases semverModel ⟨rw2⟩
        (if w.pre.isEmpty then none else some w.pre) ⟨rw2⟩ ⟨['<', '='] ++ rs⟩
        hbne hck2 with hR | ⟨hpre, pb, hpb, hF⟩
    · have hsat2 : satisfiesModel ⟨rw2⟩ ⟨['<', '='] ++ rs⟩ = true := and_true_left hR
      have hcomp := satisfies_wfc ['<', '='] rs rw2 vs w (by simp) hrs hvs hw
      rw [hcomp] at hsat2
      have h1 := and_true_left hsat2
      have htc : testComp w ⟨if (['<', '='] : List Char) = [] then ""
          else ⟨['<', '=']⟩, some vs⟩ = !verGtV w vs := rfl
      rw [htc] at h1
      exact Or.inl (by simpa using h1)
    · have hpbc := (parseRange_wfL ['<', '='] rs vs (by simp) hrs hvs).1
      rw [hpb] at hpbc
      injection hpbc with hpbe
      subst hpbe
      rcases hF with ⟨hpps, hsat3⟩ | ⟨hppn, hsat4⟩
      · have hsat3b : satisfiesModel ⟨rs⟩ ⟨rw2⟩ = true := hsat3
        have hsat3c : satisfiesModel ⟨rs⟩ ⟨[] ++ rw2⟩ = true := by
          rw [List.nil_append]
          exact hsat3b
        have hcomp2 := satisfies_wfc [] rw2 rs w vs (by simp) hrw hw hvs
        rw [hcomp2] at hsat3c
        have h1 := and_true_left hsat3c
        have htc2 : testComp vs ⟨if ([] : List Char) = [] then ""
            else ⟨[]⟩, some w⟩ = verEqV vs w := rfl
        rw [htc2] at h1
        exact Or.inr (verEq_imp h1).symm
      · have hstr : (⟨rw2⟩ : String) ++ " " ++ (⟨['<', '='] ++ rs⟩ : String) =
            (⟨([] ++ rw2) ++ ' ' :: (['<', '='] ++ rs)⟩ : String) := by
          apply strEq_of_data
          show (rw2 ++ [' ']) ++ (['<', '='] ++ rs) =
            ([] ++ rw2) ++ ' ' :: (['<', '='] ++ rs)
          simp
        rw [hstr] at hsat4
        have hsat4b : satisfiesModel ⟨rw2⟩
            ⟨([] ++ rw2) ++ ' ' :: (['<', '='] ++ rs)⟩ = true := hsat4
        have hcomp3 := satisfies_wfc2 [] rw2 ['<', '='] rs rw2 w vs w
          (by simp) (by simp) hrw hrs hw hvs hw
        rw [hcomp3] at hsat4b
        have h1 := and_true_right (and_true_left hsat4b)
        have htc3 : testComp w ⟨if (['<', '='] : List Char) = [] then ""
            else ⟨['<', '=']⟩, some vs⟩ = !verGtV w vs := rfl
        rw [htc3] at h1
        exact Or.inl (by simpa using h1)
  rcases hlow with hl | heq
  · rcases hhigh with hg | heq
    · exact ver_trichotomy hg hl
    · exact heq
  · exact heq


theorem condOf_wfc (op rv : List Char)
    (hop : op ∈ [([] : List Char), ['>'], ['>', '='], ['<'], ['<', '=']])
    (hr : versionShape rv = true) :
    condOf ⟨op ++ rv⟩ = (if op = [] then "=" else (⟨op⟩ : String)) := by
  obtain ⟨⟨c0, t0, hrc, hdg⟩, _⟩ := verShape_facts hr
  refine condOf_prefixed op rv (fun c hc => (op_chars hop c hc).2.2) ?_
  intro a t hat
  rw [hrc] at hat
  injection hat with h1 _
  rw [← h1]
  exact digit_not_cond hdg

theorem pinned_step (rs : List Char) (vs : SemV) (c : String) (s1 : Bound)
    (hrs : versionShape rs = true) (hvs : parseSemVer ⟨rs⟩ = some vs)
    (hc : wfComp c)
    (h : updateBounds semverModel
      ⟨(⟨['>', '='] ++ rs⟩ : String), (⟨['<', '='] ++ rs⟩ : String)⟩ c = .ok s1) :
    s1 = ⟨(⟨['>', '='] ++ rs⟩ : String), (⟨['<', '='] ++ rs⟩ : String)⟩ ∧
    (condOf c = "=" → c = (⟨rs⟩ : String)) := by
  obtain ⟨op, rw2, w, rfl, hop, hrw, hw⟩ := hc
  have hcond := condOf_wfc op rw2 hop hrw
  have htri : op = [] ∨ op ∈ [(['>'] : List Char), ['>', '=']] ∨
      op ∈ [(['<'] : List Char), ['<', '=']] := by
    simp only [List.mem_cons, List.not_mem_nil, or_false] at hop ⊢
    tauto
  rcases htri with rfl | hopG | hopL
  · -- exact clause
    simp only [List.nil_append] at h hcond ⊢
    have hpr := parseRange_wfE rw2 w hrw hw
    obtain ⟨hs1, hens⟩ := updateBounds_ok_E semverModel
      ⟨(⟨['>', '='] ++ rs⟩ : String), (⟨['<', '='] ++ rs⟩ : String)⟩ ⟨rw2⟩ s1
      ⟨"=", (if w.pre.isEmpty then none else some w.pre), (⟨rw2⟩ : String)⟩
      hpr rfl h
    obtain ⟨hck1, hck2⟩ := ensure_forced_two semverModel ⟨rw2⟩
      (⟨['>', '='] ++ rs⟩ : String) (⟨['<', '='] ++ rs⟩ : String)
      ⟨"=", (if w.pre.isEmpty then none else some w.pre), (⟨rw2⟩ : String)⟩
      hpr hens
    have hck1b : checkBound semverModel ⟨rw2⟩
        (if w.pre.isEmpty then none else some w.pre) ⟨rw2⟩
        ⟨['>', '='] ++ rs⟩ = .ok () := hck1
    have hck2b : checkBound semverModel ⟨rw2⟩
        (if w.pre.isEmpty then none else some w.pre) ⟨rw2⟩
        ⟨['<', '='] ++ rs⟩ = .ok () := hck2
    have hveq : w = vs := pinned_force_E rw2 rs w vs hrw hw hrs hvs hck1b hck2b
    have hrr : rw2 = rs := by
      refine ver_inj hrw hrs hw ?_
      rw [hveq]
      exact hvs
    refine ⟨?_, fun _ => by rw [hrr]⟩
    rw [hs1, hrr]
    rfl
  · -- lower-bound clause
    obtain ⟨hpr, hne, hgt, hlt, hco⟩ := parseRange_wfG op rw2 w hopG hrw hw
    obtain ⟨mv, hmb, hs1, hen, hps⟩ := updateBounds_ok_G semverModel
      ⟨(⟨['>', '='] ++ rs⟩ : String), (⟨['<', '='] ++ rs⟩ : String)⟩
      ⟨op ++ rw2⟩ s1
      ⟨(⟨op⟩ : String), (if w.pre.isEmpty then none else some w.pre),
        (⟨rw2⟩ : String)⟩
      hpr hne hgt h
    have hck := ensure_forced_one semverModel ⟨op ++ rw2⟩
      (⟨['<', '='] ++ rs⟩ : String)
      ⟨(⟨op⟩ : String), (if w.pre.isEmpty then none else some w.pre),
        (⟨rw2⟩ : String)⟩
      hpr hen
    have hckb : checkBound semverModel ⟨op ++ rw2⟩
        (if w.pre.isEmpty then none else some w.pre) ⟨rw2⟩
        ⟨['<', '='] ++ rs⟩ = .ok () := hck
    obtain ⟨hng, hne2⟩ := pinned_force_G op rw2 rs w vs hopG hrw hw hrs hvs hckb
    have hmb2 : mergeBounds ⟨op ++ rw2⟩ ⟨['>', '='] ++ rs⟩ = .ok mv := hmb
    rw [mergeBounds_wfG op rw2 ['>', '='] rs w vs hopG (by simp) hrw hrs hw hvs]
      at hmb2
    rw [if_neg (by rw [hng]; exact Bool.false_ne_true),
      if_neg (by rw [hne2]; exact Bool.false_ne_true)] at hmb2
    injection hmb2 with hmv
    refine ⟨?_, ?_⟩
    · rw [hs1, ← hmv]
    · intro habs
      rw [hcond] at habs
      have hopne : op ≠ [] := by
        simp only [List.mem_cons, List.not_mem_nil, or_false] at hopG
        rcases hopG with rfl | rfl <;> simp
      rw [if_neg hopne] at habs
      exact absurd habs hne
  · -- upper-bound clause
    obtain ⟨hpr, hne, hgt, hlt, hco⟩ := parseRange_wfL op rw2 w hopL hrw hw
    obtain ⟨mv, hmb, hs1, hen, hps⟩ := updateBounds_ok_L semverModel
      ⟨(⟨['>', '='] ++ rs⟩ : String), (⟨['<', '='] ++ rs⟩ : String)⟩
      ⟨op ++ rw2⟩ s1
      ⟨(⟨op⟩ : String), (if w.pre.isEmpty then none else some w.pre),
        (⟨rw2⟩ : String)⟩
      hpr hne hgt hlt h
    have hck := ensure_forced_one semverModel ⟨op ++ rw2⟩
      (⟨['>', '='] ++ rs⟩ : String)
      ⟨(⟨op⟩ : String), (if w.pre.isEmpty then none else some w.pre),
        (⟨rw2⟩ : String)⟩
      hpr hen
    have hckb : checkBound semverModel ⟨op ++ rw2⟩
        (if w.pre.isEmpty then none else some w.pre) ⟨rw2⟩
        ⟨['>', '='] ++ rs⟩ = .ok () := hck
    obtain ⟨hng, hne2⟩ := pinned_force_L op rw2 rs w vs hopL hrw hw hrs hvs hckb
    have hmb2 : mergeBounds ⟨op ++ rw2⟩ ⟨['<', '='] ++ rs⟩ = .ok mv := hmb
    rw [mergeBounds_wfL op rw2 ['<', '='] rs w vs hopL (by simp) hrw hrs hw hvs]
      at hmb2
    rw [if_neg (by rw [hng]; exact Bool.false_ne_true),
      if_neg (by rw [hne2]; exact Bool.false_ne_true)] at hmb2
    injection hmb2 with hmv
    refine ⟨?_, ?_⟩
    · rw [hs1, ← hmv]
    · intro habs
      rw [hcond] at habs
      have hopne : op ≠ [] := by
        simp only [List.mem_cons, List.not_mem_nil, or_false] at hopL
        rcases hopL with rfl | rfl <;> simp
      rw [if_neg hopne] at habs
      exact absurd habs hne


theorem pinned_fold (l : List String) : ∀ (rs : List Char) (vs : SemV) (w : Bound),
    versionShape rs = true → parseSemVer ⟨rs⟩ = some vs →
    (∀ c ∈ l, wfComp c) →
    List.foldlM (updateBounds semverModel)
      ⟨(⟨['>', '='] ++ rs⟩ : String), (⟨['<', '='] ++ rs⟩ : String)⟩ l = .ok w →
    w = ⟨(⟨['>', '='] ++ rs⟩ : String), (⟨['<', '='] ++ rs⟩ : String)⟩ ∧
    (∀ e ∈ l, condOf e = "=" → e = (⟨rs⟩ : String)) := by
  induction l with
  | nil =>
    intro rs vs w hrs hvs hwf h
    simp only [List.foldlM_nil] at h
    have h2 : (Except.ok (⟨(⟨['>', '='] ++ rs⟩ : String),
        (⟨['<', '='] ++ rs⟩ : String)⟩ : Bound) : Except String Bound) = .ok w := h
    injection h2 with h3
    refine ⟨h3.symm, ?_⟩
    intro e he
    exact absurd he (List.not_mem_nil e)
  | cons c t ih =>
    intro rs vs w hrs hvs hwf h
    simp only [List.foldlM_cons] at h
    cases hu : updateBounds semverModel
        ⟨(⟨['>', '='] ++ rs⟩ : String), (⟨['<', '='] ++ rs⟩ : String)⟩ c with
    | error e =>
      rw [hu, exc_err_bind] at h
      exact absurd h (by simp)
    | ok s1 =>
      rw [hu, exc_ok_bind] at h
      obtain ⟨hs1, hexact⟩ := pinned_step rs vs c s1 hrs hvs
        (hwf c (List.mem_cons_self c t)) hu
      rw [hs1] at h
      obtain ⟨hw, hall⟩ := ih rs vs w hrs hvs
        (fun x hx => hwf x (List.mem_cons_of_mem c hx)) h
      refine ⟨hw, ?_⟩
      intro e he hcd
      rcases List.mem_cons.mp he with rfl | he2
      · exact hexact hcd
      · exact hall e he2 hcd

theorem fold_exact (l : List String) : ∀ (s w : Bound),
    (∀ c ∈ l, wfComp c) →
    List.foldlM (updateBounds semverModel) s l = .ok w →
    (∃ c ∈ l, condOf c = "=") →
    ∃ re ve, versionShape re = true ∧ parseSemVer ⟨re⟩ = some ve ∧
      (⟨re⟩ : String) ∈ l ∧ condOf (⟨re⟩ : String) = "=" ∧
      w = ⟨(⟨['>', '='] ++ re⟩ : String), (⟨['<', '='] ++ re⟩ : String)⟩ ∧
      (∀ e ∈ l, condOf e = "=" → e = (⟨re⟩ : String)) := by
  induction l with
  | nil =>
    intro s w _ _ hex
    rcases hex with ⟨c, hc, _⟩
    exact absurd hc (List.not_mem_nil c)
  | cons c t ih =>
    intro s w hwf h hex
    simp only [List.foldlM_cons] at h
    cases hu : updateBounds semverModel s c with
    | error e =>
      rw [hu, exc_err_bind] at h
      exact absurd h (by simp)
    | ok s1 =>
      rw [hu, exc_ok_bind] at h
      by_cases hcE : condOf c = "="
      · obtain ⟨op, rv, v, hceq, hop, hrv, hv⟩ := hwf c (List.mem_cons_self c t)
        have hcond := condOf_wfc op rv hop hrv
        have hopnil : op = [] := by
          by_cases hn : op = []
          · exact hn
          · exfalso
            rw [hceq, hcond, if_neg hn] at hcE
            simp only [List.mem_cons, List.not_mem_nil, or_false] at hop
            rcases hop with rfl | rfl | rfl | rfl | rfl
            · exact hn rfl
            · exact absurd hcE (by decide)
            · exact absurd hcE (by decide)
            · exact absurd hcE (by decide)
            · exact absurd hcE (by decide)
        subst hopnil
        simp only [List.nil_append] at hceq
        subst hceq
        have hpr := parseRange_wfE rv v hrv hv
        obtain ⟨hs1, _⟩ := updateBounds_ok_E semverModel s ⟨rv⟩ s1
          ⟨"=", (if v.pre.isEmpty then none else some v.pre), (⟨rv⟩ : String)⟩
          hpr rfl hu
        have hs1b : s1 = ⟨(⟨['>', '='] ++ rv⟩ : String),
            (⟨['<', '='] ++ rv⟩ : String)⟩ := hs1
        rw [hs1b] at h
        obtain ⟨hw, hall⟩ := pinned_fold t rv v w hrv hv
          (fun x hx => hwf x (List.mem_cons_of_mem _ hx)) h
        refine ⟨rv, v, hrv, hv, List.mem_cons_self _ t, hcE, hw, ?_⟩
        intro e he hcd
        rcases List.mem_cons.mp he with rfl | he2
        · rfl
        · exact hall e he2 hcd
      · have hex2 : ∃ e ∈ t, condOf e = "=" := by
          rcases hex with ⟨e, he, hcd⟩
          rcases List.mem_cons.mp he with rfl | he2
          · exact absurd hcd hcE
          · exact ⟨e, he2, hcd⟩
        obtain ⟨re, ve, h1, h2, h3, h4, h5, h6⟩ := ih s1 w
          (fun x hx => hwf x (List.mem_cons_of_mem c hx)) h hex2
        refine ⟨re, ve, h1, h2, List.mem_cons_of_mem c h3, h4, h5, ?_⟩
        intro e he hcd
        rcases List.mem_cons.mp he with rfl | he2
        · exact absurd hcd hcE
        · exact h6 e he2 hcd


theorem op_class_split {op : List Char}
    (hop : op ∈ [([] : List Char), ['>'], ['>', '='], ['<'], ['<', '=']])
    (hne : op ≠ []) :
    op ∈ [(['>'] : List Char), ['>', '=']] ∨
    op ∈ [(['<'] : List Char), ['<', '=']] := by
  simp only [List.mem_cons, List.not_mem_nil, or_false] at hop ⊢
  rcases hop with rfl | rfl | rfl | rfl | rfl
  · exact absurd rfl hne
  · exact Or.inl (Or.inl rfl)
  · exact Or.inl (Or.inr rfl)
  · exact Or.inr (Or.inl rfl)
  · exact Or.inr (Or.inr rfl)

theorem wfLow_class {m : String} (h : wfLow m) :
    condStarts (condOf m) '>' = true ∧ condStarts (condOf m) '<' = false ∧
    m ≠ "" := by
  obtain ⟨op, rv, v, heq, hop, hrv, hv⟩ := h
  subst heq
  have hopne : op ≠ [] := by
    simp only [List.mem_cons, List.not_mem_nil, or_false] at hop
    rcases hop with rfl | rfl
    · intro hc
      cases hc
    · intro hc
      cases hc
  rw [condOf_wfc op rv (widenG hop) hrv, if_neg hopne]
  refine ⟨?_, ?_, wf_ne_empty op rv hrv⟩
  · simp only [List.mem_cons, List.not_mem_nil, or_false] at hop
    rcases hop with rfl | rfl
    · rfl
    · rfl
  · simp only [List.mem_cons, List.not_mem_nil, or_false] at hop
    rcases hop with rfl | rfl
    · rfl
    · rfl

theorem wfUp_class {m : String} (h : wfUp m) :
    condStarts (condOf m) '<' = true ∧ condStarts (condOf m) '>' = false ∧
    m ≠ "" := by
  obtain ⟨op, rv, v, heq, hop, hrv, hv⟩ := h
  subst heq
  have hopne : op ≠ [] := by
    simp only [List.mem_cons, List.not_mem_nil, or_false] at hop
    rcases hop with rfl | rfl
    · intro hc
      cases hc
    · intro hc
      cases hc
  rw [condOf_wfc op rv (widenL hop) hrv, if_neg hopne]
  refine ⟨?_, ?_, wf_ne_empty op rv hrv⟩
  · simp only [List.mem_cons, List.not_mem_nil, or_false] at hop
    rcases hop with rfl | rfl
    · rfl
    · rfl
  · simp only [List.mem_cons, List.not_mem_nil, or_false] at hop
    rcases hop with rfl | rfl
    · rfl
    · rfl


set_option maxHeartbeats 1600000 in
theorem fold_noexact (l : List String) : ∀ (s w : Bound),
    (∀ c ∈ l, wfComp c) →
    (∀ c ∈ l, condOf c ≠ "=") →
    (s.lowerBound = "" ∨ wfLow s.lowerBound) →
    (s.upperBound = "" ∨ wfUp s.upperBound) →
    List.foldlM (updateBounds semverModel) s l = .ok w →
    ((w.lowerBound = s.lowerBound ∨ (w.lowerBound ∈ l ∧ wfLow w.lowerBound)) ∧
     (∀ x ∈ l, condStarts (condOf x) '>' = true →
       mergeBounds x w.lowerBound = .ok w.lowerBound) ∧
     (s.lowerBound ≠ "" →
       mergeBounds s.lowerBound w.lowerBound = .ok w.lowerBound)) ∧
    ((w.upperBound = s.upperBound ∨ (w.upperBound ∈ l ∧ wfUp w.upperBound)) ∧
     (∀ x ∈ l, condStarts (condOf x) '<' = true →
       mergeBounds x w.upperBound = .ok w.upperBound) ∧
     (s.upperBound ≠ "" →
       mergeBounds s.upperBound w.upperBound = .ok w.upperBound)) := by
  induction l with
  | nil =>
    intro s w hwf hnE hsl hsu h
    simp only [List.foldlM_nil] at h
    have h2 : (Except.ok s : Except String Bound) = .ok w := h
    injection h2 with h3
    subst h3
    refine ⟨⟨Or.inl rfl, ?_, ?_⟩, Or.inl rfl, ?_, ?_⟩
    · intro x hx
      exact absurd hx (List.not_mem_nil x)
    · intro hne
      rcases hsl with heq | hwfm
      · exact absurd heq hne
      · obtain ⟨op, rv, v, heq, hop, hrv, hv⟩ := hwfm
        rw [heq]
        exact mergeG_self op rv v hop hrv hv
    · intro x hx
      exact absurd hx (List.not_mem_nil x)
    · intro hne
      rcases hsu with heq | hwfm
      · exact absurd heq hne
      · obtain ⟨op, rv, v, heq, hop, hrv, hv⟩ := hwfm
        rw [heq]
        exact mergeL_self op rv v hop hrv hv
  | cons c t ih =>
    intro s w hwf hnE hsl hsu h
    simp only [List.foldlM_cons] at h
    cases hu : updateBounds semverModel s c with
    | error e =>
      rw [hu, exc_err_bind] at h
      exact absurd h (by simp)
    | ok s1 =>
      rw [hu, exc_ok_bind] at h
      obtain ⟨op, rv, v, hceq, hop, hrv, hv⟩ := hwf c (List.mem_cons_self c t)
      have hcne := hnE c (List.mem_cons_self c t)
      subst hceq
      have hopne : op ≠ [] := by
        intro hnil
        apply hcne
        rw [condOf_wfc op rv hop hrv, if_pos hnil]
      have hwt : ∀ y ∈ t, wfComp y := fun y hy => hwf y (List.mem_cons_of_mem _ hy)
      have hnEt : ∀ y ∈ t, condOf y ≠ "=" :=
        fun y hy => hnE y (List.mem_cons_of_mem _ hy)
      rcases op_class_split hop hopne with hG | hL
      · -- lower-class clause (`>` / `>=`)
        obtain ⟨hpr, hprne, hprgt, hprlt, hcond⟩ := parseRange_wfG op rv v hG hrv hv
        obtain ⟨mv, hmb, hs1, _, _⟩ := updateBounds_ok_G semverModel s ⟨op ++ rv⟩ s1
          ⟨(⟨op⟩ : String), (if v.pre.isEmpty then none else some v.pre),
            (⟨rv⟩ : String)⟩ hpr hprne hprgt hu
        subst hs1
        rcases hsl with hsle | hslw
        · -- empty initial lower bound: the clause becomes the bound
          rw [hsle, mergeBounds_empty] at hmb
          injection hmb with hmv0
          have hmveq : mv = (⟨op ++ rv⟩ : String) := hmv0.symm
          have hmvwf : wfLow mv := ⟨op, rv, v, hmveq, hG, hrv, hv⟩
          obtain ⟨⟨ia, ib, ic⟩, ⟨ua, ub, uc⟩⟩ :=
            ih ⟨mv, s.upperBound⟩ w hwt hnEt (Or.inr hmvwf) hsu h
          have ia2 : w.lowerBound = mv ∨ (w.lowerBound ∈ t ∧ wfLow w.lowerBound) := ia
          have ic2 : mv ≠ "" → mergeBounds mv w.lowerBound = .ok w.lowerBound := ic
          have ua2 : w.upperBound = s.upperBound ∨
              (w.upperBound ∈ t ∧ wfUp w.upperBound) := ua
          have uc2 : s.upperBound ≠ "" →
              mergeBounds s.upperBound w.upperBound = .ok w.upperBound := uc
          have hmvne : mv ≠ "" := by
            rw [hmveq]
            exact wf_ne_empty op rv hrv
          have hmw := ic2 hmvne
          have hwlwf : wfLow w.lowerBound := by
            rcases ia2 with heq | ⟨_, hwf2⟩
            · rw [heq]
              exact hmvwf
            · exact hwf2
          refine ⟨⟨?_, ?_, ?_⟩, ?_, ?_, ?_⟩
          · rcases ia2 with heq | ⟨hmem, hwf2⟩
            · refine Or.inr ⟨?_, hwlwf⟩
              rw [heq, hmveq]
              exact List.mem_cons_self _ t
            · exact Or.inr ⟨List.mem_cons_of_mem _ hmem, hwf2⟩
          · intro x hx hxcl
            rcases List.mem_cons.mp hx with rfl | hmem
            · rw [← hmveq]
              exact hmw
            · exact ib x hmem hxcl
          · intro hne
            exact absurd hsle hne
          · rcases ua2 with heq | ⟨hmem, hwf2⟩
            · exact Or.inl heq
            · exact Or.inr ⟨List.mem_cons_of_mem _ hmem, hwf2⟩
          · intro x hx hxcl
            rcases List.mem_cons.mp hx with rfl | hmem
            · rw [hcond, hprlt] at hxcl
              cases hxcl
            · exact ub x hmem hxcl
          · exact uc2
        · -- well-formed initial lower bound: merge selects the tighter one
          obtain ⟨opm, rm, vm, hmeq, hopm, hrm, hvm⟩ := hslw
          rw [hmeq] at hmb
          have hcase : (mv = (⟨op ++ rv⟩ : String) ∧
              mergeBounds ⟨op ++ rv⟩ ⟨opm ++ rm⟩ = .ok ⟨op ++ rv⟩) ∨
              (mv = (⟨opm ++ rm⟩ : String) ∧
              mergeBounds ⟨op ++ rv⟩ ⟨opm ++ rm⟩ = .ok ⟨opm ++ rm⟩) := by
            rw [mergeBounds_wfG op rv opm rm v vm hG (widenG hopm)
              hrv hrm hv hvm] at hmb
            injection hmb with hmv
            rw [mergeBounds_wfG op rv opm rm v vm hG (widenG hopm) hrv hrm hv hvm]
            by_cases h1 : verGtV v vm = true
            · rw [if_pos h1] at hmv ⊢
              exact Or.inl ⟨hmv.symm, rfl⟩
            · rw [if_neg h1] at hmv ⊢
              by_cases h2 : (decide (op = ['>']) && verEqV v vm) = true
              · rw [if_pos h2] at hmv ⊢
                exact Or.inl ⟨hmv.symm, rfl⟩
              · rw [if_neg h2] at hmv ⊢
                exact Or.inr ⟨hmv.symm, rfl⟩
          have hmvwf : wfLow mv := by
            rcases hcase with ⟨hmvc, _⟩ | ⟨hmvm, _⟩
            · exact ⟨op, rv, v, hmvc, hG, hrv, hv⟩
            · exact ⟨opm, rm, vm, hmvm, hopm, hrm, hvm⟩
          obtain ⟨⟨ia, ib, ic⟩, ⟨ua, ub, uc⟩⟩ :=
            ih ⟨mv, s.upperBound⟩ w hwt hnEt (Or.inr hmvwf) hsu h
          have ia2 : w.lowerBound = mv ∨ (w.lowerBound ∈ t ∧ wfLow w.lowerBound) := ia
          have ic2 : mv ≠ "" → mergeBounds mv w.lowerBound = .ok w.lowerBound := ic
          have ua2 : w.upperBound = s.upperBound ∨
              (w.upperBound ∈ t ∧ wfUp w.upperBound) := ua
          have uc2 : s.upperBound ≠ "" →
              mergeBounds s.upperBound w.upperBound = .ok w.upperBound := uc
          have hmvne : mv ≠ "" := by
            rcases hcase with ⟨hmvc, _⟩ | ⟨hmvm, _⟩
            · rw [hmvc]
              exact wf_ne_empty op rv hrv
            · rw [hmvm]
              exact wf_ne_empty opm rm hrm
          have hmw := ic2 hmvne
          have hwlwf : wfLow w.lowerBound := by
            rcases ia2 with heq | ⟨_, hwf2⟩
            · rw [heq]
              exact hmvwf
            · exact hwf2
          obtain ⟨opw, rw2, vw, hweq, hopw, hrw, hvw⟩ := hwlwf
          refine ⟨⟨?_, ?_, ?_⟩, ?_, ?_, ?_⟩
          · rcases ia2 with heq | ⟨hmem, hwf2⟩
            · rcases hcase with ⟨hmvc, _⟩ | ⟨hmvm, _⟩
              · refine Or.inr ⟨?_, by rw [heq]; exact hmvwf⟩
                rw [heq, hmvc]
                exact List.mem_cons_self _ t
              · refine Or.inl ?_
                rw [heq, hmvm, hmeq]
            · exact Or.inr ⟨List.mem_cons_of_mem _ hmem, hwf2⟩
          · intro x hx hxcl
            rcases List.mem_cons.mp hx with rfl | hmem
            · rcases hcase with ⟨hmvc, _⟩ | ⟨hmvm, hkeep⟩
              · rw [← hmvc]
                exact hmw
              · have hmw2 : mergeBounds ⟨opm ++ rm⟩ ⟨opw ++ rw2⟩ =
                    .ok ⟨opw ++ rw2⟩ := by
                  rw [← hweq, ← hmvm]
                  exact hmw
                have htr := mergeG_trans op rv opm rm opw rw2 v vm vw hG hopm hopw
                  hrv hrm hrw hv hvm hvw hkeep hmw2
                rw [hweq]
                exact htr
            · exact ib x hmem hxcl
          · intro hne
            rw [hmeq]
            rcases hcase with ⟨hmvc, hwin⟩ | ⟨hmvm, _⟩
            · have hmwC : mergeBounds ⟨op ++ rv⟩ ⟨opw ++ rw2⟩ =
                  .ok ⟨opw ++ rw2⟩ := by
                rw [← hweq, ← hmvc]
                exact hmw
              have hlt := mergeG_losertrans op rv opm rm opw rw2 v vm vw hG hopm
                hopw hrv hrm hrw hv hvm hvw hwin hmwC
              rw [hweq]
              exact hlt
            · rw [← hmvm]
              exact hmw
          · rcases ua2 with heq | ⟨hmem, hwf2⟩
            · exact Or.inl heq
            · exact Or.inr ⟨List.mem_cons_of_mem _ hmem, hwf2⟩
          · intro x hx hxcl
            rcases List.mem_cons.mp hx with rfl | hmem
            · rw [hcond, hprlt] at hxcl
              cases hxcl
            · exact ub x hmem hxcl
          · exact uc2
      · -- upper-class clause (`<` / `<=`)
        obtain ⟨hpr, hprne, hprgt, hprlt, hcond⟩ := parseRange_wfL op rv v hL hrv hv
        obtain ⟨mv, hmb, hs1, _, _⟩ := updateBounds_ok_L semverModel s ⟨op ++ rv⟩ s1
          ⟨(⟨op⟩ : String), (if v.pre.isEmpty then none else some v.pre),
            (⟨rv⟩ : String)⟩ hpr hprne hprgt hprlt hu
        subst hs1
        rcases hsu with hsue | hsuw
        · -- empty initial upper bound: the clause becomes the bound
          rw [hsue, mergeBounds_empty] at hmb
          injection hmb with hmv0
          have hmveq : mv = (⟨op ++ rv⟩ : String) := hmv0.symm
          have hmvwf : wfUp mv := ⟨op, rv, v, hmveq, hL, hrv, hv⟩
          obtain ⟨⟨ia, ib, ic⟩, ⟨ua, ub, uc⟩⟩ :=
            ih ⟨s.lowerBound, mv⟩ w hwt hnEt hsl (Or.inr hmvwf) h
          have ia2 : w.lowerBound = s.lowerBound ∨
              (w.lowerBound ∈ t ∧ wfLow w.lowerBound) := ia
          have ic2 : s.lowerBound ≠ "" →
              mergeBounds s.lowerBound w.lowerBound = .ok w.lowerBound := ic
          have ua2 : w.upperBound = mv ∨ (w.upperBound ∈ t ∧ wfUp w.upperBound) := ua
          have uc2 : mv ≠ "" → mergeBounds mv w.upperBound = .ok w.upperBound := uc
          have hmvne : mv ≠ "" := by
            rw [hmveq]
            exact wf_ne_empty op rv hrv
          have hmw := uc2 hmvne
          have hwuwf : wfUp w.upperBound := by
            rcases ua2 with heq | ⟨_, hwf2⟩
            · rw [heq]
              exact hmvwf
            · exact hwf2
          refine ⟨⟨?_, ?_, ?_⟩, ?_, ?_, ?_⟩
          · rcases ia2 with heq | ⟨hmem, hwf2⟩
            · exact Or.inl heq
            · exact Or.inr ⟨List.mem_cons_of_mem _ hmem, hwf2⟩
          · intro x hx hxcl
            rcases List.mem_cons.mp hx with rfl | hmem
            · rw [hcond, hprgt] at hxcl
              cases hxcl
            · exact ib x hmem hxcl
          · exact ic2
          · rcases ua2 with heq | ⟨hmem, hwf2⟩
            · refine Or.inr ⟨?_, hwuwf⟩
              rw [heq, hmveq]
              exact List.mem_cons_self _ t
            · exact Or.inr ⟨List.mem_cons_of_mem _ hmem, hwf2⟩
          · intro x hx hxcl
            rcases List.mem_cons.mp hx with rfl | hmem
            · rw [← hmveq]
              exact hmw
            · exact ub x hmem hxcl
          · intro hne
            exact absurd hsue hne
        · -- well-formed initial upper bound: merge selects the tighter one
          obtain ⟨opm, rm, vm, hmeq, hopm, hrm, hvm⟩ := hsuw
          rw [hmeq] at hmb
          have hcase : (mv = (⟨op ++ rv⟩ : String) ∧
              mergeBounds ⟨op ++ rv⟩ ⟨opm ++ rm⟩ = .ok ⟨op ++ rv⟩) ∨
              (mv = (⟨opm ++ rm⟩ : String) ∧
              mergeBounds ⟨op ++ rv⟩ ⟨opm ++ rm⟩ = .ok ⟨opm ++ rm⟩) := by
            rw [mergeBounds_wfL op rv opm rm v vm hL (widenL hopm)
              hrv hrm hv hvm] at hmb
            injection hmb with hmv
            rw [mergeBounds_wfL op rv opm rm v vm hL (widenL hopm) hrv hrm hv hvm]
            by_cases h1 : verLtV v vm = true
            · rw [if_pos h1] at hmv ⊢
              exact Or.inl ⟨hmv.symm, rfl⟩
            · rw [if_neg h1] at hmv ⊢
              by_cases h2 : (decide (op = ['<']) && verEqV v vm) = true
              · rw [if_pos h2] at hmv ⊢
                exact Or.inl ⟨hmv.symm, rfl⟩
              · rw [if_neg h2] at hmv ⊢
                exact Or.inr ⟨hmv.symm, rfl⟩
          have hmvwf : wfUp mv := by
            rcases hcase with ⟨hmvc, _⟩ | ⟨hmvm, _⟩
            · exact ⟨op, rv, v, hmvc, hL, hrv, hv⟩
            · exact ⟨opm, rm, vm, hmvm, hopm, hrm, hvm⟩
          obtain ⟨⟨ia, ib, ic⟩, ⟨ua, ub, uc⟩⟩ :=
            ih ⟨s.lowerBound, mv⟩ w hwt hnEt hsl (Or.inr hmvwf) h
          have ia2 : w.lowerBound = s.lowerBound ∨
              (w.lowerBound ∈ t ∧ wfLow w.lowerBound) := ia
          have ic2 : s.lowerBound ≠ "" →
              mergeBounds s.lowerBound w.lowerBound = .ok w.lowerBound := ic
          have ua2 : w.upperBound = mv ∨ (w.upperBound ∈ t ∧ wfUp w.upperBound) := ua
          have uc2 : mv ≠ "" → mergeBounds mv w.upperBound = .ok w.upperBound := uc
          have hmvne : mv ≠ "" := by
            rcases hcase with ⟨hmvc, _⟩ | ⟨hmvm, _⟩
            · rw [hmvc]
              exact wf_ne_empty op rv hrv
            · rw [hmvm]
              exact wf_ne_empty opm rm hrm
          have hmw := uc2 hmvne
          have hwuwf : wfUp w.upperBound := by
            rcases ua2 with heq | ⟨_, hwf2⟩
            · rw [heq]
              exact hmvwf
            · exact hwf2
          obtain ⟨opw, rw2, vw, hweq, hopw, hrw, hvw⟩ := hwuwf
          refine ⟨⟨?_, ?_, ?_⟩, ?_, ?_, ?_⟩
          · rcases ia2 with heq | ⟨hmem, hwf2⟩
            · exact Or.inl heq
            · exact Or.inr ⟨List.mem_cons_of_mem _ hmem, hwf2⟩
          · intro x hx hxcl
            rcases List.mem_cons.mp hx with rfl | hmem
            · rw [hcond, hprgt] at hxcl
              cases hxcl
            · exact ib x hmem hxcl
          · exact ic2
          · rcases ua2 with heq | ⟨hmem, hwf2⟩
            · rcases hcase with ⟨hmvc, _⟩ | ⟨hmvm, _⟩
              · refine Or.inr ⟨?_, by rw [heq]; exact hmvwf⟩
                rw [heq, hmvc]
                exact List.mem_cons_self _ t
              · refine Or.inl ?_
                rw [heq, hmvm, hmeq]
            · exact Or.inr ⟨List.mem_cons_of_mem _ hmem, hwf2⟩
          · intro x hx hxcl
            rcases List.mem_cons.mp hx with rfl | hmem
            · rcases hcase with ⟨hmvc, _⟩ | ⟨hmvm, hkeep⟩
              · rw [← hmvc]
                exact hmw
              · have hmw2 : mergeBounds ⟨opm ++ rm⟩ ⟨opw ++ rw2⟩ =
                    .ok ⟨opw ++ rw2⟩ := by
                  rw [← hweq, ← hmvm]
                  exact hmw
                have htr := mergeL_trans op rv opm rm opw rw2 v vm vw hL hopm hopw
                  hrv hrm hrw hv hvm hvw hkeep hmw2
                rw [hweq]
                exact htr
            · exact ub x hmem hxcl
          · intro hne
            rw [hmeq]
            rcases hcase with ⟨hmvc, hwin⟩ | ⟨hmvm, _⟩
            · have hmwC : mergeBounds ⟨op ++ rv⟩ ⟨opw ++ rw2⟩ =
                  .ok ⟨opw ++ rw2⟩ := by
                rw [← hweq, ← hmvc]
                exact hmw
              have hlt := mergeL_losertrans op rv opm rm opw rw2 v vm vw hL hopm
                hopw hrv hrm hrw hv hvm hvw hwin hmwC
              rw [hweq]
              exact hlt
            · rw [← hmvm]
              exact hmw


theorem mem_append_swap {α : Type} {a : α} {l1 l2 : List α} (h : a ∈ l1 ++ l2) :
    a ∈ l2 ++ l1 :=
  List.mem_append.mpr (Or.symm (List.mem_append.mp h))

theorem fold_blocks_comm (ca cb : List String) (w1 w2 : Bound)
    (hwa : ∀ c ∈ ca, wfComp c) (hwb : ∀ c ∈ cb, wfComp c)
    (h1 : List.foldlM (updateBounds semverModel) ⟨"", ""⟩ (ca ++ cb) = .ok w1)
    (h2 : List.foldlM (updateBounds semverModel) ⟨"", ""⟩ (cb ++ ca) = .ok w2) :
    w1 = w2 := by
  have hwab : ∀ c ∈ ca ++ cb, wfComp c := by
    intro c hc
    rcases List.mem_append.mp hc with h | h
    · exact hwa c h
    · exact hwb c h
  have hwba : ∀ c ∈ cb ++ ca, wfComp c := by
    intro c hc
    rcases List.mem_append.mp hc with h | h
    · exact hwb c h
    · exact hwa c h
  by_cases hex : ∃ c ∈ ca ++ cb, condOf c = "="
  · obtain ⟨re, ve, hre, hve, hmem, hcdE, hw1, hall1⟩ :=
      fold_exact (ca ++ cb) ⟨"", ""⟩ w1 hwab h1 hex
    have hex2 : ∃ c ∈ cb ++ ca, condOf c = "=" := by
      obtain ⟨c, hc, hcd⟩ := hex
      exact ⟨c, mem_append_swap hc, hcd⟩
    obtain ⟨re2, ve2, hre2, hve2, hmem2, hcdE2, hw2, hall2⟩ :=
      fold_exact (cb ++ ca) ⟨"", ""⟩ w2 hwba h2 hex2
    have heq : (⟨re⟩ : String) = ⟨re2⟩ := hall2 ⟨re⟩ (mem_append_swap hmem) hcdE
    have heql : re = re2 := congrArg String.data heq
    rw [hw1, hw2, heql]
  · push_neg at hex
    have hnE2 : ∀ c ∈ cb ++ ca, condOf c ≠ "=" :=
      fun c hc => hex c (mem_append_swap hc)
    obtain ⟨⟨la1, lb1, _⟩, ⟨ua1, ub1, _⟩⟩ :=
      fold_noexact (ca ++ cb) ⟨"", ""⟩ w1 hwab hex (Or.inl rfl) (Or.inl rfl) h1
    obtain ⟨⟨la2, lb2, _⟩, ⟨ua2, ub2, _⟩⟩ :=
      fold_noexact (cb ++ ca) ⟨"", ""⟩ w2 hwba hnE2 (Or.inl rfl) (Or.inl rfl) h2
    have la1c : w1.lowerBound = "" ∨ (w1.lowerBound ∈ ca ++ cb ∧
        wfLow w1.lowerBound) := la1
    have la2c : w2.lowerBound = "" ∨ (w2.lowerBound ∈ cb ++ ca ∧
        wfLow w2.lowerBound) := la2
    have ua1c : w1.upperBound = "" ∨ (w1.upperBound ∈ ca ++ cb ∧
        wfUp w1.upperBound) := ua1
    have ua2c : w2.upperBound = "" ∨ (w2.upperBound ∈ cb ++ ca ∧
        wfUp w2.upperBound) := ua2
    have hloweq : w1.lowerBound = w2.lowerBound := by
      rcases la1c with he1 | ⟨hm1, hwf1⟩
      · rcases la2c with he2 | ⟨hm2, hwf2⟩
        · rw [he1, he2]
        · exfalso
          obtain ⟨hcl2, _, hne2⟩ := wfLow_class hwf2
          have hmm := lb1 w2.lowerBound (mem_append_swap hm2) hcl2
          rw [he1, mergeBounds_empty] at hmm
          injection hmm with hh
          exact hne2 hh
      · rcases la2c with he2 | ⟨hm2, hwf2⟩
        · exfalso
          obtain ⟨hcl1, _, hne1⟩ := wfLow_class hwf1
          have hmm := lb2 w1.lowerBound (mem_append_swap hm1) hcl1
          rw [he2, mergeBounds_empty] at hmm
          injection hmm with hh
          exact hne1 hh
        · obtain ⟨hcl1, _, _⟩ := wfLow_class hwf1
          obtain ⟨hcl2, _, _⟩ := wfLow_class hwf2
          have m12 := lb2 w1.lowerBound (mem_append_swap hm1) hcl1
          have m21 := lb1 w2.lowerBound (mem_append_swap hm2) hcl2
          obtain ⟨op1, r1, v1, heq1, hop1, hr1, hv1⟩ := hwf1
          obtain ⟨op2, r2, v2, heq2, hop2, hr2, hv2⟩ := hwf2
          rw [heq1, heq2] at m12 m21 ⊢
          exact mergeG_uniq op1 r1 op2 r2 v1 v2 hop1 hop2 hr1 hr2 hv1 hv2 m12 m21
    have hupeq : w1.upperBound = w2.upperBound := by
      rcases ua1c with he1 | ⟨hm1, hwf1⟩
      · rcases ua2c with he2 | ⟨hm2, hwf2⟩
        · rw [he1, he2]
        · exfalso
          obtain ⟨hcl2, _, hne2⟩ := wfUp_class hwf2
          have hmm := ub1 w2.upperBound (mem_append_swap hm2) hcl2
          rw [he1, mergeBounds_empty] at hmm
          injection hmm with hh
          exact hne2 hh
      · rcases ua2c with he2 | ⟨hm2, hwf2⟩
        · exfalso
          obtain ⟨hcl1, _, hne1⟩ := wfUp_class hwf1
          have hmm := ub2 w1.upperBound (mem_append_swap hm1) hcl1
          rw [he2, mergeBounds_empty] at hmm
          injection hmm with hh
          exact hne1 hh
        · obtain ⟨hcl1, _, _⟩ := wfUp_class hwf1
          obtain ⟨hcl2, _, _⟩ := wfUp_class hwf2
          have m12 := ub2 w1.upperBound (mem_append_swap hm1) hcl1
          have m21 := ub1 w2.upperBound (mem_append_swap hm2) hcl2
          obtain ⟨op1, r1, v1, heq1, hop1, hr1, hv1⟩ := hwf1
          obtain ⟨op2, r2, v2, heq2, hop2, hr2, hv2⟩ := hwf2
          rw [heq1, heq2] at m12 m21 ⊢
          exact mergeL_uniq op1 r1 op2 r2 v1 v2 hop1 hop2 hr1 hr2 hv1 hv2 m12 m21
    obtain ⟨wl1, wu1⟩ := w1
    obtain ⟨wl2, wu2⟩ := w2
    have e1 : wl1 = wl2 := hloweq
    have e2 : wu1 = wu2 := hupeq
    rw [e1, e2]


theorem exc_foldlM_append (f : Bound → String → Except String Bound)
    (l1 l2 : List String) : ∀ b : Bound,
    List.foldlM f b (l1 ++ l2) =
      (List.foldlM f b l1) >>= fun u => List.foldlM f u l2 := by
  induction l1 with
  | nil =>
    intro b
    simp only [List.nil_append, List.foldlM_nil]
    rw [exc_pure_bind]
  | cons a t ih =>
    intro b
    simp only [List.cons_append, List.foldlM_cons]
    cases hf : f b a with
    | error e =>
      rw [exc_err_bind, exc_err_bind, exc_err_bind]
    | ok u =>
      rw [exc_ok_bind, exc_ok_bind, ih u]

theorem intersectStep_one (S : SemverLib) (b : Bound) (cs : List String) :
    intersectStep S [b] [cs] =
      (match List.foldlM (updateBounds S) b cs with
       | .ok u => .ok [u]
       | .error e => .error e) := by
  have hbf : branchFold S (b, cs) = List.foldlM (updateBounds S) b cs := rfl
  unfold intersectStep
  cases hu : List.foldlM (updateBounds S) b cs with
  | ok u =>
    rw [hu] at hbf
    have hres : (allPairs [b] [cs]).map (branchFold S) = [Except.ok u] := by
      show [branchFold S (b, cs)] = [Except.ok u]
      rw [hbf]
    rw [hres]
    rfl
  | error e =>
    rw [hu] at hbf
    have hres : (allPairs [b] [cs]).map (branchFold S) = [Except.error e] := by
      show [branchFold S (b, cs)] = [Except.error e]
      rw [hbf]
    rw [hres]
    rfl

theorem intersect_two_conj (S : SemverLib) (A B r : String) (ca cb : List String)
    (hexp : expandRanges S [A, B] = .ok [[ca], [cb]])
    (h : intersect S [A, B] = .ok r) :
    ∃ w s, List.foldlM (updateBounds S) ⟨"", ""⟩ (ca ++ cb) = .ok w ∧
      formatBranch w = some s ∧ r = String.intercalate " || " [s] := by
  rw [intersect, hexp, exc_ok_bind] at h
  simp only [List.foldlM_cons, List.foldlM_nil] at h
  cases hu : List.foldlM (updateBounds S) ⟨"", ""⟩ ca with
  | error e =>
    have hstep : intersectStep S [⟨"", ""⟩] [ca] = .error e := by
      rw [intersectStep_one, hu]
    rw [hstep] at h
    simp only [exc_err_bind] at h
    exact absurd h (by simp)
  | ok u =>
    have hstep : intersectStep S [⟨"", ""⟩] [ca] = .ok [u] := by
      rw [intersectStep_one, hu]
    rw [hstep] at h
    simp only [exc_ok_bind] at h
    cases hw : List.foldlM (updateBounds S) u cb with
    | error e =>
      have hstep2 : intersectStep S [u] [cb] = .error e := by
        rw [intersectStep_one, hw]
      rw [hstep2] at h
      simp only [exc_err_bind] at h
      exact absurd h (by simp)
    | ok w =>
      have hstep2 : intersectStep S [u] [cb] = .ok [w] := by
        rw [intersectStep_one, hw]
      rw [hstep2] at h
      simp only [exc_ok_bind, exc_pure_bind] at h
      simp only [List.mapM_cons, List.mapM_nil] at h
      cases hf : formatBranch w with
      | none =>
        have hfmt : (match formatBranch w with
            | some s => (Except.ok s : Except String String)
            | none => Except.error invalidVersionMsg) =
              Except.error invalidVersionMsg := by
          rw [hf]
        rw [hfmt] at h
        simp only [exc_err_bind] at h
        exact absurd h (by simp)
      | some s0 =>
        have hfmt : (match formatBranch w with
            | some s => (Except.ok s : Except String String)
            | none => Except.error invalidVersionMsg) = Except.ok s0 := by
          rw [hf]
        rw [hfmt] at h
        simp only [exc_ok_bind] at h
        have hfold : List.foldlM (updateBounds S) (⟨"", ""⟩ : Bound) (ca ++ cb) =
            .ok w := by
          rw [exc_foldlM_append, hu, exc_ok_bind, hw]
        refine ⟨w, s0, hfold, hf, ?_⟩
        injection h with he
        rw [he]


/-- Claim C8 (corrected): `intersect` is commutative on union-free
arguments. Whenever each argument's expanded range is a single
conjunction of comparators (exact versions, `>`/`>=`/`<`/`<=`
comparators, prerelease versions included — the expansions of carets,
tildes, hyphen ranges and x-ranges all take this form) and both argument
orders succeed, the two results are the same string. The separate
counterexample shows commutativity fails once `||` unions are involved. -/
theorem intersect_comm_unionfree (A B r r2 : String) (ca cb : List String)
    (hwa : ∀ c ∈ ca, wfComp c) (hwb : ∀ c ∈ cb, wfComp c)
    (hexp : expandRanges semverModel [A, B] = .ok [[ca], [cb]])
    (hexp2 : expandRanges semverModel [B, A] = .ok [[cb], [ca]])
    (h1 : intersect semverModel [A, B] = .ok r)
    (h2 : intersect semverModel [B, A] = .ok r2) : r = r2 := by
  obtain ⟨w1, t1, hfold1, hfmt1, hr1⟩ :=
    intersect_two_conj semverModel A B r ca cb hexp h1
  obtain ⟨w2, t2, hfold2, hfmt2, hr2⟩ :=
    intersect_two_conj semverModel B A r2 cb ca hexp2 h2
  have hw : w1 = w2 := fold_blocks_comm ca cb w1 w2 hwa hwb hfold1 hfold2
  rw [hr1, hr2]
  rw [hw] at hfmt1
  rw [hfmt1] at hfmt2
  injection hfmt2

theorem intersect_comm_unionfree_witness :
    intersect semverModel ["^1.2.0", "<=1.5.0"] = .ok "1.2.0 - 1.5.0" ∧
    intersect semverModel ["<=1.5.0", "^1.2.0"] = .ok "1.2.0 - 1.5.0" ∧
    ("1.2.0 - 1.5.0" : String) = "1.2.0 - 1.5.0" :=
  ⟨by decide, by decide,
    intersect_comm_unionfree "^1.2.0" "<=1.5.0" "1.2.0 - 1.5.0" "1.2.0 - 1.5.0"
      [">=1.2.0", "<2.0.0"] ["<=1.5.0"]
      (by
        intro c hc
        rcases List.mem_cons.mp hc with rfl | hc2
        · exact ⟨['>', '='], ['1', '.', '2', '.', '0'], ⟨1, 2, 0, []⟩,
            by decide, by decide, by decide, by decide⟩
        rcases List.mem_cons.mp hc2 with rfl | hc3
        · exact ⟨['<'], ['2', '.', '0', '.', '0'], ⟨2, 0, 0, []⟩,
            by decide, by decide, by decide, by decide⟩
        exact absurd hc3 (List.not_mem_nil c))
      (by
        intro c hc
        rcases List.mem_cons.mp hc with rfl | hc2
        · exact ⟨['<', '='], ['1', '.', '5', '.', '0'], ⟨1, 5, 0, []⟩,
            by decide, by decide, by decide, by decide⟩
        exact absurd hc2 (List.not_mem_nil c))
      (by decide) (by decide) (by decide) (by decide)⟩

end SemverIntersect
